import Mathlib

/-!
Binary search tree container (`bstree.h`).

A shallow embedding of the `bstree<K, V>` class template and a verification
of its documented behaviour.

Modelling conventions:

* a `node<K, V>*` is a value of the inductive type `node K V`; the
  constructor `null` is `nullptr`, the constructor `mk` is a live node owning
  its two children;
* `K` carries a linear order: `<` is a strict total order and `>` is its
  converse;
* `size_t` is a natural number below `SIZE_MOD = 2 ^ 64`; `++` and `--` wrap;
* a method that mutates through `node*&` and `this->tree_size` returns the
  new subtree and the new counter next to its own result;
* dereferencing `nullptr` is the error result `none`;
* the traversals return the sequence of pairs they print;
* where the identity of node objects matters (copies that share no nodes), the
  same methods are given a second time over an explicit free store, and shown
  to compute what the methods on tree values compute.
-/

namespace BSTree

/-- A pointer to a `node<K, V>`: either `nullptr` or a node with its key, its
value and its two child pointers. -/
inductive node (K V : Type) where
  | null : node K V
  | mk (key : K) (value : V) (left right : node K V) : node K V
  deriving DecidableEq, Repr

/-- The class `bstree<K, V>`: the root pointer and the stored node counter. -/
structure bstree (K V : Type) where
  root : node K V
  tree_size : Nat
  deriving DecidableEq, Repr

/-- Number of values of `size_t`. -/
def SIZE_MOD : Nat := 2 ^ 64

/-- The effect of `++tree_size` on a `size_t`. -/
def size_incr (n : Nat) : Nat := (n + 1) % SIZE_MOD

/-- The effect of `--tree_size` on a `size_t`. -/
def size_decr (n : Nat) : Nat := (n + SIZE_MOD - 1) % SIZE_MOD

section code

variable {K V : Type}

/-- The helper `copy_tree`: a fresh node for every node of the argument. -/
def copy_tree : node K V → node K V
  | .null => .null
  | .mk key value left right => .mk key value (copy_tree left) (copy_tree right)

/-- The helper `height_helper`. -/
def height_helper : node K V → Nat
  | .null => 0
  | .mk _ _ left right => 1 + Nat.max (height_helper left) (height_helper right)

/-- The helper `find_min`: `nullptr` for `nullptr`, else the node reached by
following `left` while it is not `nullptr`. -/
def find_min : node K V → node K V
  | .null => .null
  | .mk key value left right =>
    match left with
    | .null => .mk key value left right
    | .mk _ _ _ _ => find_min left

/-- The loop of `max()`: `while (current && current->right) current = current->right`. -/
def max_loop : node K V → node K V
  | .null => .null
  | .mk key value left right =>
    match right with
    | .null => .mk key value left right
    | .mk _ _ _ _ => max_loop right

/-- The helper `preorder_helper`, returning the printed pairs. -/
def preorder_helper : node K V → List (K × V)
  | .null => []
  | .mk key value left right =>
    (key, value) :: (preorder_helper left ++ preorder_helper right)

/-- The helper `inorder_helper`, returning the printed pairs. -/
def inorder_helper : node K V → List (K × V)
  | .null => []
  | .mk key value left right =>
    inorder_helper left ++ (key, value) :: inorder_helper right

/-- The helper `postorder_helper`, returning the printed pairs. -/
def postorder_helper : node K V → List (K × V)
  | .null => []
  | .mk key value left right =>
    postorder_helper left ++ (postorder_helper right ++ [(key, value)])

/-- Number of nodes reachable from a pointer. -/
def count : node K V → Nat
  | .null => 0
  | .mk _ _ left right => count left + count right + 1

/-- Total number of nodes reachable from the pointers held in a queue. -/
def queue_weight : List (node K V) → Nat
  | [] => 0
  | n :: q => count n + queue_weight q

/-- The effect of `if (p) q.push(p)`. -/
def push_if : List (node K V) → node K V → List (node K V)
  | q, .null => q
  | q, .mk key value left right => q ++ [.mk key value left right]

theorem queue_weight_append (q₁ q₂ : List (node K V)) :
    queue_weight (q₁ ++ q₂) = queue_weight q₁ + queue_weight q₂ := by
  induction q₁ with
  | nil => simp [queue_weight]
  | cons n q ih => simp [queue_weight, ih]; omega

theorem queue_weight_push_if (q : List (node K V)) (n : node K V) :
    queue_weight (push_if q n) = queue_weight q + count n := by
  cases n with
  | null => simp [push_if, count]
  | mk key value left right =>
    simp [push_if, queue_weight_append, queue_weight]

/-- The `while (!q.empty())` loop of `level_order_helper`, returning the
printed pairs; `none` if the front pointer is `nullptr` when dereferenced. -/
def level_order_loop : List (node K V) → Option (List (K × V))
  | [] => some []
  | .null :: _ => none
  | .mk key value left right :: q =>
    match level_order_loop (push_if (push_if q left) right) with
    | none => none
    | some out => some ((key, value) :: out)
termination_by q => queue_weight q
decreasing_by
  have h₁ := queue_weight_push_if (push_if q left) right
  have h₂ := queue_weight_push_if q left
  simp only [queue_weight, count]
  omega

/-- The helper `level_order_helper`. -/
def level_order_helper : node K V → Option (List (K × V))
  | .null => some []
  | .mk key value left right => level_order_loop [.mk key value left right]

variable [LinearOrder K]

/-- The helper `find_node`. -/
def find_node : node K V → K → node K V
  | .null, _ => .null
  | .mk k v left right, key =>
    if key < k then find_node left key
    else if key > k then find_node right key
    else .mk k v left right

/-- The helper `insert_helper` on the pointer `root` and the counter
`tree_size`: the returned flag, the new pointer and the new counter. -/
def insert_helper : node K V → Nat → K → V → Bool × node K V × Nat
  | .null, tree_size, key, value =>
    (true, .mk key value .null .null, size_incr tree_size)
  | .mk k v left right, tree_size, key, value =>
    if key < k then
      match insert_helper left tree_size key value with
      | (b, left', tree_size') => (b, .mk k v left' right, tree_size')
    else if key > k then
      match insert_helper right tree_size key value with
      | (b, right', tree_size') => (b, .mk k v left right', tree_size')
    else (false, .mk k v left right, tree_size)

/-- The helper `remove_helper` on the pointer `root` and the counter
`tree_size`: the returned flag, the new pointer and the new counter; `none`
if `successor` is `nullptr` when dereferenced. -/
def remove_helper : node K V → Nat → K → Option (Bool × node K V × Nat)
  | .null, tree_size, _ => some (false, .null, tree_size)
  | .mk k v left right, tree_size, key =>
    if key < k then
      match remove_helper left tree_size key with
      | none => none
      | some (b, left', tree_size') => some (b, .mk k v left' right, tree_size')
    else if key > k then
      match remove_helper right tree_size key with
      | none => none
      | some (b, right', tree_size') => some (b, .mk k v left right', tree_size')
    else
      match left with
      | .null => some (true, right, size_decr tree_size)
      | .mk _ _ _ _ =>
        match right with
        | .null => some (true, left, size_decr tree_size)
        | .mk _ _ _ _ =>
          match find_min right with
          | .null => none
          | .mk skey svalue _ _ =>
            match remove_helper right tree_size skey with
            | none => none
            | some (b, right', tree_size') =>
              some (b, .mk skey svalue left right', tree_size')

namespace bstree

/-- The default constructor `bstree()`. -/
def construct : bstree K V := ⟨.null, 0⟩

/-- The copy constructor `bstree(const bstree& x)`. -/
def copy (x : bstree K V) : bstree K V := ⟨copy_tree x.root, x.tree_size⟩

/-- The method `clear()`; `clear_tree` only releases the nodes and leaves no
trace in the state. -/
def clear (_t : bstree K V) : bstree K V := ⟨.null, 0⟩

/-- The copy assignment `operator=`; `same` tells whether `this == &x`. -/
def assign (t x : bstree K V) (same : Bool) : bstree K V :=
  if same then t
  else
    let _cleared := t.clear
    ⟨copy_tree x.root, x.tree_size⟩

/-- The method `size()`. -/
def size (t : bstree K V) : Nat := t.tree_size

/-- The method `height()`. -/
def height (t : bstree K V) : Nat := height_helper t.root

/-- The method `empty()`. -/
def empty (t : bstree K V) : Bool := t.tree_size == 0

/-- The method `min()`: `find_min(root)->key`. -/
def min (t : bstree K V) : Option K :=
  match find_min t.root with
  | .null => none
  | .mk key _ _ _ => some key

/-- The method `max()`: `current->key` after the loop. -/
def max (t : bstree K V) : Option K :=
  match max_loop t.root with
  | .null => none
  | .mk key _ _ _ => some key

/-- The method `insert(key, value)`: the returned flag and the new state. -/
def insert (t : bstree K V) (key : K) (value : V) : Bool × bstree K V :=
  match insert_helper t.root t.tree_size key value with
  | (b, root', tree_size') => (b, ⟨root', tree_size'⟩)

/-- The method `remove(key)`: the returned flag and the new state. -/
def remove (t : bstree K V) (key : K) : Option (Bool × bstree K V) :=
  match remove_helper t.root t.tree_size key with
  | none => none
  | some (b, root', tree_size') => some (b, ⟨root', tree_size'⟩)

/-- The method `find(key)`: the pointer returned. -/
def find (t : bstree K V) (key : K) : node K V := find_node t.root key

/-- The method `preorder()`. -/
def preorder (t : bstree K V) : List (K × V) := preorder_helper t.root

/-- The method `inorder()`. -/
def inorder (t : bstree K V) : List (K × V) := inorder_helper t.root

/-- The method `postorder()`. -/
def postorder (t : bstree K V) : List (K × V) := postorder_helper t.root

/-- The method `level_order()`. -/
def level_order (t : bstree K V) : Option (List (K × V)) := level_order_helper t.root

end bstree

/-! ## Specification vocabulary -/

/-- The keys stored under a pointer, in in-order sequence. -/
def keys (n : node K V) : List K := (inorder_helper n).map Prod.fst

/-- The BST ordering invariant: at every node, every key of the left subtree
is strictly less than the node key and every key of the right subtree is
strictly greater. -/
def bst : node K V → Prop
  | .null => True
  | .mk key _ left right =>
    (∀ x ∈ keys left, x < key) ∧ (∀ x ∈ keys right, key < x) ∧ bst left ∧ bst right

/-- The ordering invariant can be checked by evaluation. -/
instance bst_decidable : (n : node K V) → Decidable (bst n)
  | .null => isTrue trivial
  | .mk key _ left right =>
    have := bst_decidable left
    have := bst_decidable right
    inferInstanceAs (Decidable ((∀ x ∈ keys left, x < key) ∧ (∀ x ∈ keys right, key < x) ∧
      bst left ∧ bst right))

/-- The number of nodes on each root-to-leaf path, leftmost path first. -/
def leaf_depths : node K V → List Nat
  | .null => []
  | .mk _ _ left right =>
    match left, right with
    | .null, .null => [1]
    | _, _ => (leaf_depths left ++ leaf_depths right).map (· + 1)

/-- The pairs of the nodes at depth `d` under a pointer, left to right; the
root has depth 0. -/
def level : Nat → node K V → List (K × V)
  | _, .null => []
  | 0, .mk key value _ _ => [(key, value)]
  | d + 1, .mk _ _ left right => level d left ++ level d right

/-- The breadth-first sequence: the nodes of depth 0, then of depth 1, and so
on up to the height. -/
def by_depth (n : node K V) : List (K × V) :=
  (List.range (height_helper n)).flatMap (fun d => level d n)

/-- The pairs held by the live pointers of a queue, front first. -/
def roots : List (node K V) → List (K × V)
  | [] => []
  | .null :: q => roots q
  | .mk key value _ _ :: q => (key, value) :: roots q

/-- The live children of the nodes of a queue, front first, left before
right. -/
def kids : List (node K V) → List (node K V)
  | [] => []
  | .null :: q => kids q
  | .mk _ _ left right :: q => push_if (push_if [] left) right ++ kids q

/-- The greatest height under the pointers of a queue. -/
def forest_height : List (node K V) → Nat
  | [] => 0
  | n :: q => Nat.max (height_helper n) (forest_height q)

/-- The pairs under the pointers of a queue, one generation after the other,
for `h` generations. -/
def layers : Nat → List (node K V) → List (K × V)
  | 0, _ => []
  | h + 1, q => roots q ++ layers h (kids q)

/-- A tree with its leftmost node replaced by that node's right child. -/
def splice_min : node K V → node K V
  | .null => .null
  | .mk key value left right =>
    match left with
    | .null => right
    | .mk _ _ _ _ => .mk key value (splice_min left) right

/-- Every node has at most one child. -/
def chain : node K V → Prop
  | .null => True
  | .mk _ _ left right => (left = .null ∨ right = .null) ∧ chain left ∧ chain right

/-- The chain of right children holding the given pairs, first pair at the
root. -/
def right_chain : List (K × V) → node K V
  | [] => .null
  | (key, value) :: ps => .mk key value .null (right_chain ps)

/-- The chain of left children holding the given pairs, first pair at the
root. -/
def left_chain : List (K × V) → node K V
  | [] => .null
  | (key, value) :: ps => .mk key value (left_chain ps) .null

/-- A mutating call of the public interface. -/
inductive op (K V : Type) where
  | insert (key : K) (value : V) : op K V
  | remove (key : K) : op K V

/-- The state after one call; `none` if the call dereferences `nullptr`. -/
def apply_op (t : bstree K V) : op K V → Option (bstree K V)
  | .insert key value => some (t.insert key value).2
  | .remove key =>
    match t.remove key with
    | none => none
    | some (_, t') => some t'

/-- The state after a sequence of calls, first call first. -/
def run_ops (t : bstree K V) : List (op K V) → Option (bstree K V)
  | [] => some t
  | o :: os =>
    match apply_op t o with
    | none => none
    | some t' => run_ops t' os

/-- The flags returned by, and the state after, inserting a sequence of pairs
in order. -/
def insert_all (t : bstree K V) : List (K × V) → List Bool × bstree K V
  | [] => ([], t)
  | (key, value) :: ps =>
    match insert_all (t.insert key value).2 ps with
    | (bs, t') => ((t.insert key value).1 :: bs, t')

/-- The states the public interface can produce from `bstree()`. -/
inductive Reachable : bstree K V → Prop
  | construct : Reachable bstree.construct
  | copy {x : bstree K V} : Reachable x → Reachable x.copy
  | assign {t x : bstree K V} : Reachable t → Reachable x → Reachable (t.assign x false)
  | assign_self {t : bstree K V} : Reachable t → Reachable (t.assign t true)
  | clear {t : bstree K V} : Reachable t → Reachable t.clear
  | insert {t : bstree K V} (key : K) (value : V) :
      Reachable t → Reachable (t.insert key value).2
  | remove {t t' : bstree K V} {b : Bool} (key : K) :
      Reachable t → t.remove key = some (b, t') → Reachable t'

end code

/-! ## The free store

The class with its nodes laid out in memory: a `node<K, V>*` is `none`
(`nullptr`) or an address, a node object lives in the free store at its
address, `new` takes the address the allocator hands out and `delete` gives it
back. The recursive helpers carry a bound on their recursion depth and return
`none` when it is exhausted or when a pointer without a live object is
dereferenced. -/

section memory_code

variable {K V : Type}

/-- The fields of a `node<K, V>` object. -/
structure cell (K V : Type) where
  key : K
  value : V
  left : Option Nat
  right : Option Nat
  deriving DecidableEq, Repr

/-- The free store: the live node objects with their addresses, the latest
write to an address first. -/
def heap (K V : Type) : Type := List (Nat × cell K V)

/-- The object at an address, `none` if there is no live object. -/
def heap_read : heap K V → Nat → Option (cell K V)
  | [], _ => none
  | (b, c) :: h, a => if a = b then some c else heap_read h a

/-- The store after an object is written at an address. -/
def heap_write (h : heap K V) (a : Nat) (c : cell K V) : heap K V := (a, c) :: h

/-- The store after `delete` of the object at an address. -/
def heap_free : heap K V → Nat → heap K V
  | [], _ => []
  | (b, c) :: h, a => if a = b then heap_free h a else (b, c) :: heap_free h a

/-- An allocator that hands out the address after the greatest one in the
store. -/
def next_address : heap K V → Nat
  | [] => 0
  | (b, _) :: h => Nat.max (b + 1) (next_address h)

/-- The class `bstree<K, V>` in memory: the root pointer and the counter. -/
structure bstree_mem where
  root : Option Nat
  tree_size : Nat
  deriving DecidableEq, Repr

/-- The helper `copy_tree` in memory; `alloc` is the address `new` returns. -/
def copy_tree_mem (alloc : heap K V → Nat) :
    Nat → heap K V → Option Nat → Option (heap K V × Option Nat)
  | 0, _, _ => none
  | _ + 1, h, none => some (h, none)
  | fuel + 1, h, some other_root => do
    let o ← heap_read h other_root
    let new_node := alloc h
    let h₁ := heap_write h new_node ⟨o.key, o.value, none, none⟩
    let o₁ ← heap_read h₁ other_root
    let (h₂, l) ← copy_tree_mem alloc fuel h₁ o₁.left
    let n₂ ← heap_read h₂ new_node
    let h₃ := heap_write h₂ new_node ⟨n₂.key, n₂.value, l, n₂.right⟩
    let o₃ ← heap_read h₃ other_root
    let (h₄, r) ← copy_tree_mem alloc fuel h₃ o₃.right
    let n₄ ← heap_read h₄ new_node
    pure (heap_write h₄ new_node ⟨n₄.key, n₄.value, n₄.left, r⟩, some new_node)

/-- The helper `clear_tree` in memory. -/
def clear_tree_mem : Nat → heap K V → Option Nat → Option (heap K V)
  | 0, _, _ => none
  | _ + 1, h, none => some h
  | fuel + 1, h, some root => do
    let c ← heap_read h root
    let h₁ ← clear_tree_mem fuel h c.left
    let c₁ ← heap_read h₁ root
    let h₂ ← clear_tree_mem fuel h₁ c₁.right
    let _ ← heap_read h₂ root
    pure (heap_free h₂ root)

/-- The helper `find_min` in memory. -/
def find_min_mem : Nat → heap K V → Option Nat → Option (Option Nat)
  | 0, _, _ => none
  | _ + 1, _, none => some none
  | fuel + 1, h, some root => do
    let c ← heap_read h root
    match c.left with
    | none => pure (some root)
    | some left => find_min_mem fuel h (some left)

/-- The helper `preorder_helper` in memory. -/
def preorder_mem : Nat → heap K V → Option Nat → Option (List (K × V))
  | 0, _, _ => none
  | _ + 1, _, none => some []
  | fuel + 1, h, some root => do
    let c ← heap_read h root
    let l ← preorder_mem fuel h c.left
    let r ← preorder_mem fuel h c.right
    pure ((c.key, c.value) :: (l ++ r))

/-- The helper `inorder_helper` in memory. -/
def inorder_mem : Nat → heap K V → Option Nat → Option (List (K × V))
  | 0, _, _ => none
  | _ + 1, _, none => some []
  | fuel + 1, h, some root => do
    let c ← heap_read h root
    let l ← inorder_mem fuel h c.left
    let r ← inorder_mem fuel h c.right
    pure (l ++ (c.key, c.value) :: r)

/-- The helper `postorder_helper` in memory. -/
def postorder_mem : Nat → heap K V → Option Nat → Option (List (K × V))
  | 0, _, _ => none
  | _ + 1, _, none => some []
  | fuel + 1, h, some root => do
    let c ← heap_read h root
    let l ← postorder_mem fuel h c.left
    let r ← postorder_mem fuel h c.right
    pure (l ++ (r ++ [(c.key, c.value)]))

/-- The effect of `if (p) q.push(p)` on a queue of pointers. -/
def push_ptr : List (Option Nat) → Option Nat → List (Option Nat)
  | q, none => q
  | q, some a => q ++ [some a]

/-- The loop of `level_order_helper` in memory. -/
def level_order_loop_mem : Nat → heap K V → List (Option Nat) → Option (List (K × V))
  | 0, _, _ => none
  | _ + 1, _, [] => some []
  | _ + 1, _, none :: _ => none
  | fuel + 1, h, some current :: q => do
    let c ← heap_read h current
    let out ← level_order_loop_mem fuel h (push_ptr (push_ptr q c.left) c.right)
    pure ((c.key, c.value) :: out)

/-- The helper `level_order_helper` in memory. -/
def level_order_mem (fuel : Nat) (h : heap K V) : Option Nat → Option (List (K × V))
  | none => some []
  | some root => level_order_loop_mem fuel h [some root]

variable [LinearOrder K]

/-- The helper `find_node` in memory. -/
def find_node_mem : Nat → heap K V → Option Nat → K → Option (Option Nat)
  | 0, _, _, _ => none
  | _ + 1, _, none, _ => some none
  | fuel + 1, h, some root, key => do
    let c ← heap_read h root
    if key < c.key then find_node_mem fuel h c.left key
    else if key > c.key then find_node_mem fuel h c.right key
    else pure (some root)

/-- The helper `insert_helper` in memory: the returned flag, the new store,
the new value of the pointer passed by reference and the new counter. -/
def insert_helper_mem (alloc : heap K V → Nat) :
    Nat → heap K V → Option Nat → Nat → K → V → Option (Bool × heap K V × Option Nat × Nat)
  | 0, _, _, _, _, _ => none
  | _ + 1, h, none, tree_size, key, value =>
    some (true, heap_write h (alloc h) ⟨key, value, none, none⟩, some (alloc h),
      size_incr tree_size)
  | fuel + 1, h, some root, tree_size, key, value => do
    let c ← heap_read h root
    if key < c.key then
      let (b, h₁, left', tree_size') ← insert_helper_mem alloc fuel h c.left tree_size key value
      let c₁ ← heap_read h₁ root
      pure (b, heap_write h₁ root ⟨c₁.key, c₁.value, left', c₁.right⟩, some root, tree_size')
    else if key > c.key then
      let (b, h₁, right', tree_size') ← insert_helper_mem alloc fuel h c.right tree_size key value
      let c₁ ← heap_read h₁ root
      pure (b, heap_write h₁ root ⟨c₁.key, c₁.value, c₁.left, right'⟩, some root, tree_size')
    else pure (false, h, some root, tree_size)

/-- The helper `remove_helper` in memory: the returned flag, the new store,
the new value of the pointer passed by reference and the new counter. -/
def remove_helper_mem :
    Nat → heap K V → Option Nat → Nat → K → Option (Bool × heap K V × Option Nat × Nat)
  | 0, _, _, _, _ => none
  | _ + 1, h, none, tree_size, _ => some (false, h, none, tree_size)
  | fuel + 1, h, some root, tree_size, key => do
    let c ← heap_read h root
    if key < c.key then
      let (b, h₁, left', tree_size') ← remove_helper_mem fuel h c.left tree_size key
      let c₁ ← heap_read h₁ root
      pure (b, heap_write h₁ root ⟨c₁.key, c₁.value, left', c₁.right⟩, some root, tree_size')
    else if key > c.key then
      let (b, h₁, right', tree_size') ← remove_helper_mem fuel h c.right tree_size key
      let c₁ ← heap_read h₁ root
      pure (b, heap_write h₁ root ⟨c₁.key, c₁.value, c₁.left, right'⟩, some root, tree_size')
    else
      match c.left with
      | none => pure (true, heap_free h root, c.right, size_decr tree_size)
      | some _ =>
        match c.right with
        | none => pure (true, heap_free h root, c.left, size_decr tree_size)
        | some _ => do
          let successor ← find_min_mem fuel h c.right
          let s ← heap_read h (← successor)
          let h₁ := heap_write h root ⟨s.key, s.value, c.left, c.right⟩
          let c₁ ← heap_read h₁ root
          let (b, h₂, right', tree_size') ← remove_helper_mem fuel h₁ c₁.right tree_size s.key
          let c₂ ← heap_read h₂ root
          pure (b, heap_write h₂ root ⟨c₂.key, c₂.value, c₂.left, right'⟩, some root,
            tree_size')

namespace bstree_mem

/-- The copy constructor in memory. -/
def copy (alloc : heap K V → Nat) (fuel : Nat) (h : heap K V) (x : bstree_mem) :
    Option (heap K V × bstree_mem) := do
  let (h₁, root) ← copy_tree_mem alloc fuel h x.root
  pure (h₁, ⟨root, x.tree_size⟩)

/-- The method `clear()` in memory. -/
def clear (fuel : Nat) (h : heap K V) (t : bstree_mem) : Option (heap K V × bstree_mem) := do
  let h₁ ← clear_tree_mem fuel h t.root
  pure (h₁, ⟨none, 0⟩)

/-- The copy assignment in memory; `same` tells whether `this == &x`. -/
def assign (alloc : heap K V → Nat) (fuel : Nat) (h : heap K V) (t x : bstree_mem)
    (same : Bool) : Option (heap K V × bstree_mem) :=
  if same then some (h, t)
  else do
    let (h₁, _) ← clear fuel h t
    let (h₂, root) ← copy_tree_mem alloc fuel h₁ x.root
    pure (h₂, ⟨root, x.tree_size⟩)

/-- The method `insert` in memory. -/
def insert (alloc : heap K V → Nat) (fuel : Nat) (h : heap K V) (t : bstree_mem)
    (key : K) (value : V) : Option (Bool × heap K V × bstree_mem) := do
  let (b, h₁, root, tree_size) ← insert_helper_mem alloc fuel h t.root t.tree_size key value
  pure (b, h₁, ⟨root, tree_size⟩)

/-- The method `remove` in memory. -/
def remove (fuel : Nat) (h : heap K V) (t : bstree_mem) (key : K) :
    Option (Bool × heap K V × bstree_mem) := do
  let (b, h₁, root, tree_size) ← remove_helper_mem fuel h t.root t.tree_size key
  pure (b, h₁, ⟨root, tree_size⟩)

end bstree_mem

/-- The store and the object after one mutating call. -/
def apply_op_mem (alloc : heap K V → Nat) (fuel : Nat) (h : heap K V) (t : bstree_mem) :
    op K V → Option (heap K V × bstree_mem)
  | .insert key value => do
    let (_, h₁, t₁) ← t.insert alloc fuel h key value
    pure (h₁, t₁)
  | .remove key => do
    let (_, h₁, t₁) ← t.remove fuel h key
    pure (h₁, t₁)

/-- The store and the object after a sequence of mutating calls. -/
def run_ops_mem (alloc : heap K V → Nat) (fuel : Nat) :
    heap K V → bstree_mem → List (op K V) → Option (heap K V × bstree_mem)
  | h, t, [] => some (h, t)
  | h, t, o :: os => do
    let (h₁, t₁) ← apply_op_mem alloc fuel h t o
    run_ops_mem alloc fuel h₁ t₁ os

/-- The store `h` holds the tree `t` at the pointer `p`, in node objects at
the addresses `s`, no address used twice. -/
inductive repr (h : heap K V) : Option Nat → node K V → Set Nat → Prop
  | null : repr h none .null ∅
  | mk {a : Nat} {k : K} {v : V} {pl pr : Option Nat} {l r : node K V} {sl sr : Set Nat} :
      heap_read h a = some ⟨k, v, pl, pr⟩ → repr h pl l sl → repr h pr r sr →
      a ∉ sl → a ∉ sr → (∀ x ∈ sl, x ∉ sr) →
      repr h (some a) (.mk k v l r) (insert a (sl ∪ sr))

/-- What the read-only methods of an object return in a store: `size()`
and the sequences printed by `preorder`, `inorder`, `postorder` and
`level_order`. -/
def observe (fuel : Nat) (h : heap K V) (t : bstree_mem) :
    Nat × Option (List (K × V)) × Option (List (K × V)) × Option (List (K × V)) ×
      Option (List (K × V)) :=
  (t.tree_size, preorder_mem fuel h t.root, inorder_mem fuel h t.root,
    postorder_mem fuel h t.root, level_order_mem fuel h t.root)

/-- The objects `a` and `b` are independent in the store `h`: a sequence of
`insert` and `remove` calls on `b` runs to completion and leaves what the
read-only methods of `a` return as it was (`size()`, the four traversals, and
the pointer returned by `find` for every key), and so do calls on `a` for
`b`. -/
def independent (alloc : heap K V → Nat) (fuel : Nat) (h : heap K V) (a b : bstree_mem)
    (ops_a ops_b : List (op K V)) : Prop :=
  (∃ h' b', run_ops_mem alloc fuel h b ops_b = some (h', b') ∧
    observe fuel h' a = observe fuel h a ∧
    ∀ key, find_node_mem fuel h' a.root key = find_node_mem fuel h a.root key) ∧
  (∃ h' a', run_ops_mem alloc fuel h a ops_a = some (h', a') ∧
    observe fuel h' b = observe fuel h b ∧
    ∀ key, find_node_mem fuel h' b.root key = find_node_mem fuel h b.root key)

end memory_code

/-! ## Basic facts on the traversals and the ordering invariant -/

section lemmas

variable {K V : Type}

@[simp] theorem keys_null : keys (node.null : node K V) = [] := rfl

@[simp] theorem keys_mk (k : K) (v : V) (l r : node K V) :
    keys (node.mk k v l r) = keys l ++ k :: keys r := by
  simp [keys, inorder_helper]

theorem mem_keys_of_mem_inorder {n : node K V} {p : K × V}
    (h : p ∈ inorder_helper n) : p.1 ∈ keys n :=
  List.mem_map_of_mem Prod.fst h

theorem exists_mem_inorder_of_mem_keys {n : node K V} {k : K}
    (h : k ∈ keys n) : ∃ v, (k, v) ∈ inorder_helper n := by
  obtain ⟨⟨a, b⟩, hp, rfl⟩ := List.mem_map.1 h
  exact ⟨b, hp⟩

theorem length_inorder (n : node K V) : (inorder_helper n).length = count n := by
  induction n with
  | null => rfl
  | mk k v l r ihl ihr => simp [inorder_helper, count, ihl, ihr]; omega

theorem length_preorder (n : node K V) : (preorder_helper n).length = count n := by
  induction n with
  | null => rfl
  | mk k v l r ihl ihr => simp [preorder_helper, count, ihl, ihr]

theorem length_postorder (n : node K V) : (postorder_helper n).length = count n := by
  induction n with
  | null => rfl
  | mk k v l r ihl ihr => simp [postorder_helper, count, ihl, ihr]; omega

theorem count_eq_zero_iff (n : node K V) : count n = 0 ↔ n = node.null := by
  cases n <;> simp [count]

theorem copy_tree_eq (n : node K V) : copy_tree n = n := by
  induction n with
  | null => rfl
  | mk k v l r ihl ihr => simp [copy_tree, ihl, ihr]

/-- Every queue of live pointers is drained, and one pair is printed for each
node reachable from it. -/
theorem level_order_loop_length :
    ∀ (w : Nat) (q : List (node K V)), queue_weight q = w →
      (∀ n ∈ q, n ≠ node.null) →
      ∃ out, level_order_loop q = some out ∧ out.length = w := by
  intro w
  induction w using Nat.strong_induction_on with
  | _ w ih =>
    intro q hw hq
    match q, hw, hq with
    | [], hw, _ =>
      refine ⟨[], by rw [level_order_loop], ?_⟩
      simpa [queue_weight] using hw
    | node.null :: q, _, hq => exact absurd rfl (hq node.null (by simp))
    | node.mk k v l r :: q, hw, hq =>
      have hlt : queue_weight (push_if (push_if q l) r) < w := by
        rw [queue_weight_push_if, queue_weight_push_if]
        simp only [queue_weight, count] at hw
        omega
      have hlive : ∀ n ∈ push_if (push_if q l) r, n ≠ node.null := by
        intro n hn
        have hq' : ∀ n ∈ q, n ≠ node.null := fun n hn => hq n (by simp [hn])
        have h1 : ∀ n ∈ push_if q l, n ≠ node.null := by
          intro n hn
          cases l with
          | null => exact hq' n (by simpa [push_if] using hn)
          | mk _ _ _ _ =>
            simp only [push_if, List.mem_append, List.mem_singleton] at hn
            rcases hn with hn | hn
            · exact hq' n hn
            · rw [hn]; simp
        cases r with
        | null => exact h1 n (by simpa [push_if] using hn)
        | mk _ _ _ _ =>
          simp only [push_if, List.mem_append, List.mem_singleton] at hn
          rcases hn with hn | hn
          · exact h1 n hn
          · rw [hn]; simp
      obtain ⟨out, hout, hlen⟩ := ih _ hlt _ rfl hlive
      refine ⟨(k, v) :: out, by rw [level_order_loop, hout], ?_⟩
      rw [queue_weight_push_if, queue_weight_push_if] at hlen
      simp only [queue_weight, count] at hw
      simp only [List.length_cons]
      omega

theorem level_order_helper_length (n : node K V) :
    ∃ out, level_order_helper n = some out ∧ out.length = count n := by
  cases n with
  | null => exact ⟨[], rfl, rfl⟩
  | mk k v l r =>
    have h := level_order_loop_length (count (node.mk k v l r)) [node.mk k v l r]
      (by simp [queue_weight]) (by simp)
    simpa [level_order_helper] using h

/-- The node returned by `find_min` for a live pointer has no left child and
holds the first pair of the in-order sequence. -/
theorem find_min_spec (n : node K V) (hn : n ≠ node.null) :
    ∃ m v r rest, find_min n = node.mk m v node.null r ∧
      inorder_helper n = (m, v) :: rest := by
  induction n with
  | null => exact absurd rfl hn
  | mk k v l r ihl _ =>
    cases l with
    | null => exact ⟨k, v, r, inorder_helper r, by simp [find_min], by simp [inorder_helper]⟩
    | mk lk lv ll lr =>
      obtain ⟨m, mv, mr, rest, hm, hin⟩ := ihl (by simp)
      refine ⟨m, mv, mr, rest ++ (k, v) :: inorder_helper r, ?_, ?_⟩
      · rw [find_min]; exact hm
      · rw [inorder_helper, hin]; rfl

/-- The node reached by the loop of `max()` from a live pointer has no right
child and holds the last pair of the in-order sequence. -/
theorem max_loop_spec (n : node K V) (hn : n ≠ node.null) :
    ∃ m v l init, max_loop n = node.mk m v l node.null ∧
      inorder_helper n = init ++ [(m, v)] := by
  induction n with
  | null => exact absurd rfl hn
  | mk k v l r _ ihr =>
    cases r with
    | null => exact ⟨k, v, l, inorder_helper l, by simp [max_loop], by simp [inorder_helper]⟩
    | mk rk rv rl rr =>
      obtain ⟨m, mv, ml, init, hm, hin⟩ := ihr (by simp)
      refine ⟨m, mv, ml, inorder_helper l ++ (k, v) :: init, ?_, ?_⟩
      · rw [max_loop]; exact hm
      · rw [inorder_helper, hin]; simp

variable [LinearOrder K]

theorem bst_iff_pairwise (n : node K V) : bst n ↔ (keys n).Pairwise (· < ·) := by
  induction n with
  | null => simp [bst]
  | mk k v l r ihl ihr =>
    simp only [bst, keys_mk, List.pairwise_append, List.pairwise_cons, ihl, ihr,
      List.mem_cons]
    constructor
    · rintro ⟨hl, hr, pl, pr⟩
      refine ⟨pl, ⟨hr, pr⟩, ?_⟩
      rintro a ha b (rfl | hb)
      · exact hl a ha
      · exact lt_trans (hl a ha) (hr b hb)
    · rintro ⟨pl, ⟨hr, pr⟩, h⟩
      exact ⟨fun a ha => h a ha k (Or.inl rfl), hr, pl, pr⟩

theorem keys_nodup {n : node K V} (h : bst n) : (keys n).Nodup :=
  ((bst_iff_pairwise n).1 h).imp (fun hab => ne_of_lt hab)

/-- In a tree with the ordering invariant a key has one value. -/
theorem inorder_value_unique {n : node K V} (h : bst n) {k : K} {v v' : V}
    (h₁ : (k, v) ∈ inorder_helper n) (h₂ : (k, v') ∈ inorder_helper n) : v = v' := by
  have hnd : ((inorder_helper n).map Prod.fst).Nodup := keys_nodup h
  have := List.inj_on_of_nodup_map hnd h₁ h₂ rfl
  exact (Prod.mk.inj this).2

/-- A pointer returned by `find_node` is `nullptr` or a node of the tree
holding the requested key. -/
theorem find_node_live (n : node K V) (key : K) :
    find_node n key = node.null ∨
      ∃ v l r, find_node n key = node.mk key v l r ∧ (key, v) ∈ inorder_helper n := by
  induction n with
  | null => exact Or.inl rfl
  | mk k v l r ihl ihr =>
    simp only [find_node]
    split_ifs with h₁ h₂
    · rcases ihl with h | ⟨v', l', r', h, hm⟩
      · exact Or.inl h
      · exact Or.inr ⟨v', l', r', h, by simp [inorder_helper, hm]⟩
    · rcases ihr with h | ⟨v', l', r', h, hm⟩
      · exact Or.inl h
      · exact Or.inr ⟨v', l', r', h, by simp [inorder_helper, hm]⟩
    · have hk : key = k := le_antisymm (not_lt.1 h₂) (not_lt.1 h₁)
      subst hk
      exact Or.inr ⟨v, l, r, rfl, by simp [inorder_helper]⟩

/-- Under the ordering invariant `find_node` returns `nullptr` exactly for the
keys that are not stored. -/
theorem find_node_eq_null_iff (n : node K V) (hb : bst n) (key : K) :
    find_node n key = node.null ↔ key ∉ keys n := by
  induction n with
  | null => simp [find_node]
  | mk k v l r ihl ihr =>
    obtain ⟨hl, hr, bl, br⟩ := hb
    simp only [find_node, keys_mk, List.mem_append, List.mem_cons, not_or]
    split_ifs with h₁ h₂
    · rw [ihl bl]
      constructor
      · intro h
        exact ⟨h, ne_of_lt h₁, fun hm => lt_asymm h₁ (hr _ hm)⟩
      · exact fun h => h.1
    · rw [ihr br]
      constructor
      · intro h
        exact ⟨fun hm => lt_asymm h₂ (hl _ hm), ne_of_gt h₂, h⟩
      · exact fun h => h.2.2
    · have hk : key = k := le_antisymm (not_lt.1 h₂) (not_lt.1 h₁)
      simp [hk]

/-- Under the ordering invariant `find_node` returns the node of every stored
pair. -/
theorem find_node_of_mem (n : node K V) (hb : bst n) {key : K} {v : V}
    (hm : (key, v) ∈ inorder_helper n) : ∃ l r, find_node n key = node.mk key v l r := by
  rcases find_node_live n key with h | ⟨v', l, r, h, hm'⟩
  · exact absurd (mem_keys_of_mem_inorder hm) ((find_node_eq_null_iff n hb key).1 h)
  · have := inorder_value_unique hb hm hm'
    subst this
    exact ⟨l, r, h⟩

/-- The two outcomes of `insert_helper` on a tree with the ordering
invariant: a stored key is rejected and nothing changes; a new key is placed
at its sorted position of the in-order sequence and the counter is
incremented. -/
theorem insert_helper_spec (n : node K V) (hb : bst n) (s : Nat) (key : K) (value : V) :
    (key ∈ keys n ∧ insert_helper n s key value = (false, n, s)) ∨
    (key ∉ keys n ∧ ∃ n' pre post,
      insert_helper n s key value = (true, n', size_incr s) ∧
      inorder_helper n = pre ++ post ∧
      inorder_helper n' = pre ++ (key, value) :: post ∧
      (∀ p ∈ pre, p.1 < key) ∧ (∀ p ∈ post, key < p.1) ∧
      count n' = count n + 1) := by
  induction n with
  | null =>
    refine Or.inr ⟨by simp, node.mk key value node.null node.null, [], [], rfl, rfl, rfl,
      by simp, by simp, rfl⟩
  | mk k v l r ihl ihr =>
    obtain ⟨hl, hr, bl, br⟩ := hb
    simp only [insert_helper]
    split_ifs with h₁ h₂
    · rcases ihl bl with ⟨hm, he⟩ | ⟨hnm, n', pre, post, he, hin, hin', hpre, hpost, hc⟩
      · exact Or.inl ⟨by simp [hm], by rw [he]⟩
      · refine Or.inr ⟨?_, node.mk k v n' r, pre, post ++ (k, v) :: inorder_helper r,
          by rw [he], ?_, ?_, hpre, ?_, ?_⟩
        · simp only [keys_mk, List.mem_append, List.mem_cons, not_or]
          exact ⟨hnm, ne_of_lt h₁, fun hm => lt_asymm h₁ (hr _ hm)⟩
        · simp [inorder_helper, hin]
        · simp [inorder_helper, hin']
        · intro p hp
          simp only [List.mem_append, List.mem_cons] at hp
          rcases hp with hp | rfl | hp
          · exact hpost p hp
          · exact h₁
          · exact lt_trans h₁ (hr _ (mem_keys_of_mem_inorder hp))
        · simp only [count, hc]; omega
    · rcases ihr br with ⟨hm, he⟩ | ⟨hnm, n', pre, post, he, hin, hin', hpre, hpost, hc⟩
      · exact Or.inl ⟨by simp [hm], by rw [he]⟩
      · refine Or.inr ⟨?_, node.mk k v l n', inorder_helper l ++ (k, v) :: pre, post,
          by rw [he], ?_, ?_, ?_, hpost, ?_⟩
        · simp only [keys_mk, List.mem_append, List.mem_cons, not_or]
          exact ⟨fun hm => lt_asymm h₂ (hl _ hm), ne_of_gt h₂, hnm⟩
        · simp [inorder_helper, hin]
        · simp [inorder_helper, hin']
        · intro p hp
          simp only [List.mem_append, List.mem_cons] at hp
          rcases hp with hp | rfl | hp
          · exact lt_trans (hl _ (mem_keys_of_mem_inorder hp)) h₂
          · exact h₂
          · exact hpre p hp
        · simp only [count, hc]; omega
    · have hk : key = k := le_antisymm (not_lt.1 h₂) (not_lt.1 h₁)
      exact Or.inl ⟨by simp [hk], rfl⟩

/-- A sequence sorted by key stays sorted when a pair is placed between the
smaller and the larger keys. -/
theorem pairwise_insert_middle {pre post : List (K × V)} {key : K} {value : V}
    (h : ((pre ++ post).map Prod.fst).Pairwise (· < ·))
    (hpre : ∀ p ∈ pre, p.1 < key) (hpost : ∀ p ∈ post, key < p.1) :
    ((pre ++ (key, value) :: post).map Prod.fst).Pairwise (· < ·) := by
  simp only [List.map_append, List.map_cons, List.pairwise_append, List.pairwise_cons,
    List.mem_map, List.mem_cons] at h ⊢
  obtain ⟨h₁, h₂, h₃⟩ := h
  refine ⟨h₁, ⟨?_, h₂⟩, ?_⟩
  · rintro a ⟨p, hp, rfl⟩
    exact hpost p hp
  · rintro a ⟨p, hp, rfl⟩ b (rfl | hb)
    · exact hpre p hp
    · exact h₃ _ ⟨p, hp, rfl⟩ _ hb

/-- The helper `insert_helper` keeps the ordering invariant. -/
theorem insert_helper_bst (n : node K V) (hb : bst n) (s : Nat) (key : K) (value : V) :
    bst (insert_helper n s key value).2.1 := by
  rcases insert_helper_spec n hb s key value with
    ⟨_, he⟩ | ⟨_, n', pre, post, he, hin, hin', hpre, hpost, _⟩
  · rw [he]; exact hb
  · rw [he, bst_iff_pairwise, keys, hin']
    refine pairwise_insert_middle ?_ hpre hpost
    rw [← hin]
    exact (bst_iff_pairwise n).1 hb

theorem filter_key_ne_self {l : List (K × V)} {key : K} (h : ∀ p ∈ l, p.1 ≠ key) :
    l.filter (fun p => !decide (p.1 = key)) = l :=
  List.filter_eq_self.2 (fun p hp => by simpa using h p hp)

/-- The outcome of `remove_helper` on a tree with the ordering invariant: it
never dereferences `nullptr`; it returns true exactly for a stored key; the
new in-order sequence is the old one without the pairs of that key; the
counter is decremented exactly when it returns true, and one node is gone;
when it returns false the tree is the same. -/
theorem remove_helper_spec (n : node K V) (hb : bst n) (s : Nat) (key : K) :
    ∃ b n', remove_helper n s key = some (b, n', if b = true then size_decr s else s) ∧
      inorder_helper n' = (inorder_helper n).filter (fun p => !decide (p.1 = key)) ∧
      (b = true ↔ key ∈ keys n) ∧ (b = false → n' = n) ∧
      count n' + (if b = true then 1 else 0) = count n := by
  induction n generalizing s key with
  | null => exact ⟨false, node.null, by simp [remove_helper], by simp [inorder_helper],
      by simp, fun _ => rfl, by simp⟩
  | mk k v l r ihl ihr =>
    obtain ⟨hl, hr, bl, br⟩ := hb
    have hlne : ∀ p ∈ inorder_helper l, p.1 < k := fun p hp => hl _ (mem_keys_of_mem_inorder hp)
    have hrne : ∀ p ∈ inorder_helper r, k < p.1 := fun p hp => hr _ (mem_keys_of_mem_inorder hp)
    by_cases h₁ : key < k
    · obtain ⟨b, l', he, hin, hb₁, hb₂, hc⟩ := ihl bl s key
      refine ⟨b, node.mk k v l' r, ?_, ?_, ?_, ?_, ?_⟩
      · simp only [remove_helper, if_pos h₁, he]
      · have hr' : (inorder_helper r).filter (fun p => !decide (p.1 = key)) = inorder_helper r :=
          filter_key_ne_self (fun p hp => ne_of_gt (lt_trans h₁ (hrne p hp)))
        simp [inorder_helper, hin, List.filter_cons, hr', ne_of_gt h₁]
      · rw [hb₁]
        simp only [keys_mk, List.mem_append, List.mem_cons]
        constructor
        · exact Or.inl
        · rintro (h | h | h)
          · exact h
          · exact absurd h (ne_of_lt h₁)
          · exact absurd (hr _ h) (lt_asymm h₁)
      · intro hf; rw [hb₂ hf]
      · simp only [count] at hc ⊢; omega
    by_cases h₂ : key > k
    · obtain ⟨b, r', he, hin, hb₁, hb₂, hc⟩ := ihr br s key
      refine ⟨b, node.mk k v l r', ?_, ?_, ?_, ?_, ?_⟩
      · simp only [remove_helper, if_neg h₁, if_pos h₂, he]
      · have hl' : (inorder_helper l).filter (fun p => !decide (p.1 = key)) = inorder_helper l :=
          filter_key_ne_self (fun p hp => ne_of_lt (lt_trans (hlne p hp) h₂))
        simp [inorder_helper, hin, List.filter_cons, hl', ne_of_lt h₂]
      · rw [hb₁]
        simp only [keys_mk, List.mem_append, List.mem_cons]
        constructor
        · exact fun h => Or.inr (Or.inr h)
        · rintro (h | h | h)
          · exact absurd (hl _ h) (lt_asymm h₂)
          · exact absurd h (ne_of_gt h₂)
          · exact h
      · intro hf; rw [hb₂ hf]
      · simp only [count] at hc ⊢; omega
    have hk : key = k := le_antisymm (not_lt.1 h₂) (not_lt.1 h₁)
    subst hk
    have hl' : (inorder_helper l).filter (fun p => !decide (p.1 = key)) = inorder_helper l :=
      filter_key_ne_self (fun p hp => ne_of_lt (hlne p hp))
    have hr' : (inorder_helper r).filter (fun p => !decide (p.1 = key)) = inorder_helper r :=
      filter_key_ne_self (fun p hp => ne_of_gt (hrne p hp))
    have hfil : (inorder_helper (node.mk key v l r)).filter (fun p => !decide (p.1 = key))
        = inorder_helper l ++ inorder_helper r := by
      simp [inorder_helper, List.filter_cons, hl', hr']
    cases l with
    | null =>
      refine ⟨true, r, by simp [remove_helper], ?_, by simp, by simp, by simp [count]⟩
      rw [hfil]; rfl
    | mk lk lv ll lr =>
      cases r with
      | null =>
        refine ⟨true, node.mk lk lv ll lr, by simp [remove_helper], ?_, by simp, by simp,
          by simp [count]⟩
        rw [hfil]; simp [inorder_helper]
      | mk rk rv rl rr =>
        obtain ⟨m, mv, mr, rest, hm, hrest⟩ := find_min_spec (node.mk rk rv rl rr) (by simp)
        obtain ⟨b, r', he, hin, hb₁, _, hc⟩ := ihr br s m
        have hmem : m ∈ keys (node.mk rk rv rl rr) := by
          rw [keys, hrest]; simp
        have hbt : b = true := hb₁.2 hmem
        subst hbt
        have hsorted := (bst_iff_pairwise _).1 br
        rw [keys, hrest, List.map_cons, List.pairwise_cons] at hsorted
        have hrest' : rest.filter (fun p => !decide (p.1 = m)) = rest :=
          filter_key_ne_self (fun p hp => ne_of_gt (hsorted.1 _ (List.mem_map_of_mem _ hp)))
        refine ⟨true, node.mk m mv (node.mk lk lv ll lr) r', ?_, ?_, by simp, by simp, ?_⟩
        · rw [remove_helper, if_neg h₁, if_neg h₂]
          rw [hm]
          dsimp only
          rw [he]
        · rw [hfil, inorder_helper, hin, hrest, List.filter_cons, hrest']
          simp
        · simp only [count] at hc ⊢
          simp only [if_true] at hc ⊢
          omega

/-- The helper `remove_helper` keeps the ordering invariant. -/
theorem remove_helper_bst (n : node K V) (hb : bst n) (s : Nat) (key : K)
    {b : Bool} {n' : node K V} {s' : Nat}
    (h : remove_helper n s key = some (b, n', s')) : bst n' := by
  obtain ⟨b₀, n₀, he, hin, _⟩ := remove_helper_spec n hb s key
  rw [he] at h
  obtain ⟨-, rfl, -⟩ : b₀ = b ∧ n₀ = n' ∧ _ := by simpa using h
  rw [bst_iff_pairwise, keys, hin]
  exact ((bst_iff_pairwise n).1 hb).sublist (List.Sublist.map _ (List.filter_sublist _))

/-! ## The public interface -/

theorem insert_eq (t : bstree K V) (key : K) (value : V) :
    t.insert key value =
      ((insert_helper t.root t.tree_size key value).1,
        ⟨(insert_helper t.root t.tree_size key value).2.1,
          (insert_helper t.root t.tree_size key value).2.2⟩) := rfl

theorem insert_bst (t : bstree K V) (hb : bst t.root) (key : K) (value : V) :
    bst (t.insert key value).2.root :=
  insert_helper_bst t.root hb t.tree_size key value

/-- The method `remove` on a tree with the ordering invariant, in the terms of
`remove_helper_spec`. -/
theorem remove_spec (t : bstree K V) (hb : bst t.root) (key : K) :
    ∃ b t', t.remove key = some (b, t') ∧
      t'.tree_size = (if b = true then size_decr t.tree_size else t.tree_size) ∧
      t'.inorder = t.inorder.filter (fun p => !decide (p.1 = key)) ∧
      (b = true ↔ key ∈ keys t.root) ∧ (b = false → t' = t) ∧
      count t'.root + (if b = true then 1 else 0) = count t.root ∧ bst t'.root := by
  obtain ⟨b, n', he, hin, hb₁, hb₂, hc⟩ := remove_helper_spec t.root hb t.tree_size key
  refine ⟨b, ⟨n', if b = true then size_decr t.tree_size else t.tree_size⟩, ?_, rfl, hin,
    hb₁, ?_, hc, remove_helper_bst t.root hb t.tree_size key he⟩
  · simp only [bstree.remove, he]
  · intro hf
    subst hf
    cases t
    simp only [Bool.false_eq_true, if_false]
    rw [hb₂ rfl]

/-- Every sequence of `insert` and `remove` calls runs to completion from a
state with the ordering invariant and ends in such a state. -/
theorem run_ops_bst (ops : List (op K V)) :
    ∀ t : bstree K V, bst t.root → ∃ t', run_ops t ops = some t' ∧ bst t'.root := by
  induction ops with
  | nil => exact fun t hb => ⟨t, rfl, hb⟩
  | cons o os ih =>
    intro t hb
    cases o with
    | insert key value =>
      obtain ⟨t', h, hb'⟩ := ih (t.insert key value).2 (insert_bst t hb key value)
      exact ⟨t', by simpa [run_ops, apply_op] using h, hb'⟩
    | remove key =>
      obtain ⟨b, t₁, he, -, -, -, -, -, hb₁⟩ := remove_spec t hb key
      obtain ⟨t', h, hb'⟩ := ih t₁ hb₁
      exact ⟨t', by simpa [run_ops, apply_op, he] using h, hb'⟩

theorem size_incr_mod (c : Nat) : size_incr (c % SIZE_MOD) = (c + 1) % SIZE_MOD := by
  unfold size_incr SIZE_MOD
  omega

theorem size_decr_mod (c : Nat) : size_decr ((c + 1) % SIZE_MOD) = c % SIZE_MOD := by
  unfold size_decr SIZE_MOD
  omega

theorem size_decr_succ (c : Nat) (h : c + 1 < SIZE_MOD) : size_decr (c + 1) = c := by
  unfold size_decr
  rw [show c + 1 + SIZE_MOD - 1 = c + SIZE_MOD by omega, Nat.add_mod_right,
    Nat.mod_eq_of_lt (by omega)]

/-- Every reachable state has the ordering invariant and a counter equal to
the number of nodes, as a `size_t`. -/
theorem reachable_inv {t : bstree K V} (h : Reachable t) :
    bst t.root ∧ t.tree_size = count t.root % SIZE_MOD := by
  induction h with
  | construct => exact ⟨trivial, rfl⟩
  | copy _ ih => simpa [bstree.copy, copy_tree_eq] using ih
  | assign _ _ _ ih => simpa [bstree.assign, copy_tree_eq] using ih
  | assign_self _ ih => simpa [bstree.assign] using ih
  | clear _ _ => exact ⟨trivial, rfl⟩
  | @insert t key value _ ih =>
    refine ⟨insert_bst t ih.1 key value, ?_⟩
    rcases insert_helper_spec t.root ih.1 t.tree_size key value with
      ⟨_, he⟩ | ⟨_, n', pre, post, he, _, _, _, _, hc⟩
    · rw [insert_eq, he]; exact ih.2
    · rw [insert_eq, he]
      show size_incr t.tree_size = count n' % SIZE_MOD
      rw [hc, ih.2, size_incr_mod]
  | @remove t t' b key _ he ih =>
    obtain ⟨b₀, t₀, he₀, hs, -, -, hf, hc, hb'⟩ := remove_spec t ih.1 key
    rw [he₀] at he
    obtain ⟨rfl, rfl⟩ : b₀ = b ∧ t₀ = t' := by simpa using he
    refine ⟨hb', ?_⟩
    cases b₀ with
    | false => rw [hf rfl]; exact ih.2
    | true =>
      simp only [if_true] at hs hc
      rw [hs, ih.2, ← hc, size_decr_mod]

/-- Inserting a key that is not stored returns true and adds exactly the new
pair to the stored pairs. -/
theorem insert_mem_inorder (t : bstree K V) (hb : bst t.root) (key : K) (value : V)
    (hk : key ∉ keys t.root) :
    (t.insert key value).1 = true ∧
      ∀ p, p ∈ (t.insert key value).2.inorder ↔ p ∈ t.inorder ∨ p = (key, value) := by
  rcases insert_helper_spec t.root hb t.tree_size key value with
    ⟨hm, _⟩ | ⟨_, n', pre, post, he, hin, hin', _, _, _⟩
  · exact absurd hm hk
  · rw [insert_eq, he]
    refine ⟨rfl, fun p => ?_⟩
    show p ∈ inorder_helper n' ↔ p ∈ inorder_helper t.root ∨ p = (key, value)
    rw [hin, hin']
    simp only [List.mem_append, List.mem_cons]
    tauto

/-- Inserting pairs with pairwise distinct keys, none of them stored yet: every
call returns true, the ordering invariant is kept, and the stored pairs are
the old ones and the inserted ones. -/
theorem insert_all_spec (ps : List (K × V)) :
    ∀ t : bstree K V, bst t.root → (ps.map Prod.fst).Nodup →
      (∀ p ∈ ps, p.1 ∉ keys t.root) →
      (∀ b ∈ (insert_all t ps).1, b = true) ∧ (insert_all t ps).1.length = ps.length ∧
        bst (insert_all t ps).2.root ∧
        ∀ p, p ∈ (insert_all t ps).2.inorder ↔ p ∈ t.inorder ∨ p ∈ ps := by
  induction ps with
  | nil => intro t hb _ _; simp [insert_all, hb]
  | cons q ps ih =>
    obtain ⟨k, v⟩ := q
    intro t hb hd hdis
    rw [List.map_cons, List.nodup_cons] at hd
    have hk : k ∉ keys t.root := hdis (k, v) (by simp)
    obtain ⟨hret, hmem⟩ := insert_mem_inorder t hb k v hk
    have hdis' : ∀ p ∈ ps, p.1 ∉ keys (t.insert k v).2.root := by
      intro p hp hpk
      obtain ⟨w, hw⟩ := exists_mem_inorder_of_mem_keys hpk
      rcases (hmem (p.1, w)).1 hw with h | h
      · have hx : (p.1, w).1 ∈ keys t.root := mem_keys_of_mem_inorder h
        exact hdis p (by simp [hp]) hx
      · have hpk' : p.1 = k := (Prod.mk.inj h).1
        have hin : p.1 ∈ ps.map Prod.fst := List.mem_map_of_mem Prod.fst hp
        rw [hpk'] at hin
        exact hd.1 hin
    obtain ⟨h₁, h₂, h₃, h₄⟩ := ih (t.insert k v).2 (insert_bst t hb k v) hd.2 hdis'
    refine ⟨?_, ?_, ?_, ?_⟩
    · intro b hbm
      simp only [insert_all, List.mem_cons] at hbm
      rcases hbm with rfl | hbm
      · exact hret
      · exact h₁ b hbm
    · simp only [insert_all, List.length_cons, h₂]
    · exact h₃
    · intro p
      show p ∈ (insert_all (t.insert k v).2 ps).2.inorder ↔ _
      rw [h₄ p, hmem p]
      simp only [List.mem_cons]
      tauto

/-- On a live tree with the ordering invariant, `find_min` and the loop of
`max()` end on the nodes holding the first and the last key of the in-order
sequence, which bound every stored key. -/
theorem extremes_spec (n : node K V) (hb : bst n) (hn : n ≠ node.null) :
    ∃ m mv mr M Mv Ml, find_min n = node.mk m mv node.null mr ∧
      max_loop n = node.mk M Mv Ml node.null ∧
      (keys n).head? = some m ∧ (keys n).getLast? = some M ∧
      m ∈ keys n ∧ M ∈ keys n ∧ ∀ x ∈ keys n, m ≤ x ∧ x ≤ M := by
  obtain ⟨m, mv, mr, rest, hm, hrest⟩ := find_min_spec n hn
  obtain ⟨M, Mv, Ml, init, hM, hinit⟩ := max_loop_spec n hn
  have hs := (bst_iff_pairwise n).1 hb
  have hs₁ := hs
  have hs₂ := hs
  have hk₁ : keys n = m :: rest.map Prod.fst := by rw [keys, hrest]; rfl
  have hk₂ : keys n = init.map Prod.fst ++ [M] := by rw [keys, hinit]; simp
  rw [hk₁, List.pairwise_cons] at hs₁
  rw [hk₂, List.pairwise_append] at hs₂
  refine ⟨m, mv, mr, M, Mv, Ml, hm, hM, by rw [hk₁]; rfl, by rw [hk₂]; simp,
    by rw [hk₁]; simp, by rw [hk₂]; simp, ?_⟩
  intro x hx
  constructor
  · rw [hk₁, List.mem_cons] at hx
    rcases hx with rfl | hx
    · exact le_refl _
    · exact le_of_lt (hs₁.1 x hx)
  · rw [hk₂, List.mem_append, List.mem_singleton] at hx
    rcases hx with hx | rfl
    · exact le_of_lt (hs₂.2.2 x hx M (by simp))
    · exact le_refl _

end lemmas

/-! ## Ordering and size invariants -/

section claims

variable {K V : Type} [LinearOrder K]

/-- C1: the BST ordering is an invariant. From every state with the ordering
invariant, and so from the empty tree, every finite sequence of `insert` and
`remove` calls runs to completion and ends in a state with the ordering
invariant whose in-order key sequence is strictly increasing and free of
duplicates. -/
theorem ordering_invariant_preserved (t₀ : bstree K V) (ops : List (op K V))
    (h : bst t₀.root) :
    (∃ t, run_ops t₀ ops = some t ∧ bst t.root ∧
      (t.inorder.map Prod.fst).Pairwise (· < ·) ∧ (t.inorder.map Prod.fst).Nodup) ∧
    (∃ t, run_ops (bstree.construct : bstree K V) ops = some t ∧ bst t.root ∧
      (t.inorder.map Prod.fst).Pairwise (· < ·) ∧ (t.inorder.map Prod.fst).Nodup) := by
  constructor
  · obtain ⟨t, ht, hb⟩ := run_ops_bst ops t₀ h
    exact ⟨t, ht, hb, (bst_iff_pairwise t.root).1 hb, keys_nodup hb⟩
  · obtain ⟨t, ht, hb⟩ := run_ops_bst ops (bstree.construct : bstree K V) trivial
    exact ⟨t, ht, hb, (bst_iff_pairwise t.root).1 hb, keys_nodup hb⟩

theorem ordering_invariant_preserved_witness :
    bst (bstree.mk (node.mk 5 0 (node.mk 3 1 node.null node.null)
        (node.mk 8 2 node.null node.null)) 3 : bstree Nat Nat).root ∧
    ((∃ t, run_ops (bstree.mk (node.mk 5 0 (node.mk 3 1 node.null node.null)
        (node.mk 8 2 node.null node.null)) 3 : bstree Nat Nat)
        [op.remove 5, op.insert 4 7, op.insert 3 9] = some t ∧ bst t.root ∧
      (t.inorder.map Prod.fst).Pairwise (· < ·) ∧ (t.inorder.map Prod.fst).Nodup) ∧
    (∃ t, run_ops (bstree.construct : bstree Nat Nat)
        [op.remove 5, op.insert 4 7, op.insert 3 9] = some t ∧ bst t.root ∧
      (t.inorder.map Prod.fst).Pairwise (· < ·) ∧ (t.inorder.map Prod.fst).Nodup)) :=
  ⟨by decide, ordering_invariant_preserved _ _ (by decide)⟩

/-- C2: size consistency. In every state reachable from `bstree()` by
`insert`, `remove`, `clear`, copy construction and assignment, whose node
count is a `size_t` value, `size()` equals the number of nodes reachable from
the root, and each of `preorder`, `inorder`, `postorder` and `level_order`
prints exactly that many pairs (`level_order` terminating without a null
dereference). -/
theorem size_consistency (t : bstree K V) (hr : Reachable t)
    (hfit : count t.root < SIZE_MOD) :
    t.size = count t.root ∧ t.preorder.length = t.size ∧ t.inorder.length = t.size ∧
      t.postorder.length = t.size ∧
      ∃ out, t.level_order = some out ∧ out.length = t.size := by
  have hs : t.size = count t.root := by
    rw [bstree.size, (reachable_inv hr).2, Nat.mod_eq_of_lt hfit]
  obtain ⟨out, hout, hlen⟩ := level_order_helper_length t.root
  exact ⟨hs, by rw [hs]; exact length_preorder _, by rw [hs]; exact length_inorder _,
    by rw [hs]; exact length_postorder _, out, hout, by rw [hs]; exact hlen⟩

theorem size_consistency_witness :
    Reachable (((bstree.construct : bstree Nat Nat).insert 5 0).2.insert 3 1).2 ∧
    count (((bstree.construct : bstree Nat Nat).insert 5 0).2.insert 3 1).2.root < SIZE_MOD ∧
    ((((bstree.construct : bstree Nat Nat).insert 5 0).2.insert 3 1).2.size
        = count (((bstree.construct : bstree Nat Nat).insert 5 0).2.insert 3 1).2.root ∧
      (((bstree.construct : bstree Nat Nat).insert 5 0).2.insert 3 1).2.preorder.length
        = (((bstree.construct : bstree Nat Nat).insert 5 0).2.insert 3 1).2.size ∧
      (((bstree.construct : bstree Nat Nat).insert 5 0).2.insert 3 1).2.inorder.length
        = (((bstree.construct : bstree Nat Nat).insert 5 0).2.insert 3 1).2.size ∧
      (((bstree.construct : bstree Nat Nat).insert 5 0).2.insert 3 1).2.postorder.length
        = (((bstree.construct : bstree Nat Nat).insert 5 0).2.insert 3 1).2.size ∧
      ∃ out, (((bstree.construct : bstree Nat Nat).insert 5 0).2.insert 3 1).2.level_order
          = some out ∧
        out.length = (((bstree.construct : bstree Nat Nat).insert 5 0).2.insert 3 1).2.size) :=
  ⟨Reachable.insert 3 1 (Reachable.insert 5 0 Reachable.construct), by decide,
    size_consistency _ (Reachable.insert 3 1 (Reachable.insert 5 0 Reachable.construct))
      (by decide)⟩

/-! ## Insertion -/

/-- C3: insert of a novel key. On a tree with the ordering invariant `insert`
returns true exactly when the key is not stored; in that case `size()` is
incremented (by exactly one whenever the result is a `size_t` value), and the
new in-order sequence is the old one with `(key, value)` placed between the
pairs of smaller key and the pairs of larger key, every old pair kept. -/
theorem insert_novel (t : bstree K V) (key : K) (value : V) (hb : bst t.root) :
    ((t.insert key value).1 = true ↔ key ∉ keys t.root) ∧
    (key ∉ keys t.root →
      (t.insert key value).2.size = size_incr t.size ∧
      (t.size + 1 < SIZE_MOD → (t.insert key value).2.size = t.size + 1) ∧
      count (t.insert key value).2.root = count t.root + 1 ∧
      ∃ pre post, t.inorder = pre ++ post ∧
        (t.insert key value).2.inorder = pre ++ (key, value) :: post ∧
        (∀ p ∈ pre, p.1 < key) ∧ (∀ p ∈ post, key < p.1)) := by
  rcases insert_helper_spec t.root hb t.tree_size key value with
    ⟨hm, he⟩ | ⟨hnm, n', pre, post, he, hin, hin', hpre, hpost, hc⟩
  · rw [insert_eq, he]
    exact ⟨by simp [hm], fun h => absurd hm h⟩
  · rw [insert_eq, he]
    refine ⟨by simp [hnm], fun _ => ⟨rfl, ?_, hc, pre, post, hin, hin', hpre, hpost⟩⟩
    intro hfit
    show size_incr t.tree_size = t.tree_size + 1
    exact Nat.mod_eq_of_lt hfit

theorem insert_novel_witness :
    bst (bstree.mk (node.mk 5 0 (node.mk 3 1 node.null node.null)
        (node.mk 8 2 node.null node.null)) 3 : bstree Nat Nat).root ∧
    ((bstree.mk (node.mk 5 0 (node.mk 3 1 node.null node.null)
        (node.mk 8 2 node.null node.null)) 3 : bstree Nat Nat).insert 4 7).1 = true ∧
    ((bstree.mk (node.mk 5 0 (node.mk 3 1 node.null node.null)
        (node.mk 8 2 node.null node.null)) 3 : bstree Nat Nat).insert 4 7).2.size = 3 + 1 ∧
    ∃ pre post, [(3, 1), (5, 0), (8, 2)] = pre ++ post ∧
      ((bstree.mk (node.mk 5 0 (node.mk 3 1 node.null node.null)
        (node.mk 8 2 node.null node.null)) 3 : bstree Nat Nat).insert 4 7).2.inorder
        = pre ++ (4, 7) :: post ∧
      (∀ p ∈ pre, p.1 < 4) ∧ (∀ p ∈ post, 4 < p.1) :=
  have h := insert_novel (bstree.mk (node.mk 5 0 (node.mk 3 1 node.null node.null)
    (node.mk 8 2 node.null node.null)) 3 : bstree Nat Nat) 4 7 (by decide)
  ⟨by decide, h.1.2 (by decide), (h.2 (by decide)).2.1 (by decide),
    (h.2 (by decide)).2.2.2⟩

/-- C4: insert of a duplicate key. On a tree with the ordering invariant that
stores `k`, `insert(k, v')` returns false and leaves the state as it was:
same structure and counter, same `size()`, same in-order sequence, and
`find(k)` returns the same node, which holds the value first stored for `k`. -/
theorem insert_duplicate (t : bstree K V) (k : K) (v' : V) (hb : bst t.root)
    (hk : k ∈ keys t.root) :
    t.insert k v' = (false, t) ∧ (t.insert k v').2.size = t.size ∧
      (t.insert k v').2.inorder = t.inorder ∧
      (t.insert k v').2.find k = t.find k ∧
      ∃ v l r, (t.insert k v').2.find k = node.mk k v l r ∧ (k, v) ∈ t.inorder := by
  have he : t.insert k v' = (false, t) := by
    rcases insert_helper_spec t.root hb t.tree_size k v' with ⟨_, he⟩ | ⟨hnm, _⟩
    · rw [insert_eq, he]
    · exact absurd hk hnm
  obtain ⟨v, hv⟩ := exists_mem_inorder_of_mem_keys hk
  obtain ⟨l, r, hf⟩ := find_node_of_mem t.root hb hv
  rw [he]
  exact ⟨rfl, rfl, rfl, rfl, v, l, r, hf, hv⟩

theorem insert_duplicate_witness :
    bst (bstree.mk (node.mk 5 0 (node.mk 3 1 node.null node.null)
        (node.mk 8 2 node.null node.null)) 3 : bstree Nat Nat).root ∧
    3 ∈ keys (bstree.mk (node.mk 5 0 (node.mk 3 1 node.null node.null)
        (node.mk 8 2 node.null node.null)) 3 : bstree Nat Nat).root ∧
    (bstree.mk (node.mk 5 0 (node.mk 3 1 node.null node.null)
        (node.mk 8 2 node.null node.null)) 3 : bstree Nat Nat).insert 3 9
      = (false, bstree.mk (node.mk 5 0 (node.mk 3 1 node.null node.null)
        (node.mk 8 2 node.null node.null)) 3) :=
  ⟨by decide, by decide, (insert_duplicate _ 3 9 (by decide) (by decide)).1⟩

/-! ## Removal -/

/-- C5: remove of a present key. On a tree with the ordering invariant whose
counter equals its node count (a `size_t` value), `remove(k)` for a stored
key `k` returns true without a null dereference, `size()` decreases by
exactly one and stays equal to the node count, and `find(k)` then returns the
absent result; whatever the shape of the matched node. -/
theorem remove_present (t : bstree K V) (k : K) (hb : bst t.root)
    (hs : t.size = count t.root) (hfit : t.size < SIZE_MOD) (hk : k ∈ keys t.root) :
    ∃ t', t.remove k = some (true, t') ∧ t'.size + 1 = t.size ∧
      t'.size = count t'.root ∧ t'.find k = node.null ∧ k ∉ keys t'.root := by
  obtain ⟨b, t', he, hs', hin, hb₁, -, hc, hb'⟩ := remove_spec t hb k
  have hbt : b = true := hb₁.2 hk
  subst hbt
  simp only [if_true] at hs' hc
  have hnot : k ∉ keys t'.root := by
    have hin' : inorder_helper t'.root
        = (inorder_helper t.root).filter (fun p => !decide (p.1 = k)) := hin
    rw [keys, hin']
    intro hmem
    obtain ⟨p, hp, hpk⟩ := List.mem_map.1 hmem
    have := (List.mem_filter.1 hp).2
    simp [hpk] at this
  have hsize : t'.size + 1 = t.size := by
    simp only [bstree.size] at hs hfit ⊢
    have h₁ : t.tree_size = count t'.root + 1 := by omega
    rw [hs', h₁, size_decr_succ _ (h₁ ▸ hfit)]
  refine ⟨t', he, hsize, ?_, (find_node_eq_null_iff t'.root hb' k).2 hnot, hnot⟩
  omega

theorem remove_present_witness :
    (∃ t', (bstree.mk (node.mk 5 0 (node.mk 3 1 node.null node.null)
        (node.mk 8 2 node.null node.null)) 3 : bstree Nat Nat).remove 3 = some (true, t') ∧
      t'.size + 1 = 3 ∧ t'.size = count t'.root ∧ t'.find 3 = node.null ∧
      3 ∉ keys t'.root) ∧
    (∃ t', (bstree.mk (node.mk 5 0 (node.mk 3 1 node.null node.null)
        node.null) 2 : bstree Nat Nat).remove 5 = some (true, t') ∧
      t'.size + 1 = 2 ∧ t'.size = count t'.root ∧ t'.find 5 = node.null ∧
      5 ∉ keys t'.root) ∧
    (∃ t', (bstree.mk (node.mk 5 0 (node.mk 3 1 node.null node.null)
        (node.mk 8 2 node.null node.null)) 3 : bstree Nat Nat).remove 5 = some (true, t') ∧
      t'.size + 1 = 3 ∧ t'.size = count t'.root ∧ t'.find 5 = node.null ∧
      5 ∉ keys t'.root) :=
  ⟨remove_present _ 3 (by decide) (by decide) (by decide) (by decide),
    remove_present _ 5 (by decide) (by decide) (by decide) (by decide),
    remove_present _ 5 (by decide) (by decide) (by decide) (by decide)⟩

/-- C6: remove of an absent key. On a tree with the ordering invariant,
`remove(k)` for a key that is not stored returns false and leaves the state as
it was (structure, keys, values and counter); and whenever `remove` returns
false on such a tree the state is the one before the call. -/
theorem remove_absent (t : bstree K V) (k : K) (hb : bst t.root) :
    (k ∉ keys t.root → t.remove k = some (false, t)) ∧
    (∀ t', t.remove k = some (false, t') → t' = t ∧ k ∉ keys t.root) := by
  obtain ⟨b, t₀, he, -, -, hb₁, hf, -, -⟩ := remove_spec t hb k
  constructor
  · intro hk
    have hbf : b = false := by
      cases b with
      | false => rfl
      | true => exact absurd (hb₁.1 rfl) hk
    subst hbf
    rw [he, hf rfl]
  · intro t' h
    rw [he] at h
    obtain ⟨rfl, rfl⟩ : b = false ∧ t₀ = t' := by simpa using h
    exact ⟨hf rfl, fun hk => Bool.false_ne_true (hb₁.2 hk)⟩

theorem remove_absent_witness :
    bst (bstree.mk (node.mk 5 0 (node.mk 3 1 node.null node.null)
        (node.mk 8 2 node.null node.null)) 3 : bstree Nat Nat).root ∧
    4 ∉ keys (bstree.mk (node.mk 5 0 (node.mk 3 1 node.null node.null)
        (node.mk 8 2 node.null node.null)) 3 : bstree Nat Nat).root ∧
    (bstree.mk (node.mk 5 0 (node.mk 3 1 node.null node.null)
        (node.mk 8 2 node.null node.null)) 3 : bstree Nat Nat).remove 4
      = some (false, bstree.mk (node.mk 5 0 (node.mk 3 1 node.null node.null)
        (node.mk 8 2 node.null node.null)) 3) :=
  ⟨by decide, by decide, (remove_absent _ 4 (by decide)).1 (by decide)⟩

/-! ## Lookup -/

/-- C7: `find` is a correct membership lookup. On a tree with the ordering
invariant, `find(k)` returns a node with key `k` holding the value stored for
`k` whenever `k` is stored, and returns the absent result exactly when no node
has key `k`. (`find` is a const method: it returns a pointer and no new
state.) -/
theorem find_correct (t : bstree K V) (k : K) (hb : bst t.root) :
    (k ∈ keys t.root → ∃ v l r, t.find k = node.mk k v l r ∧ (k, v) ∈ t.inorder) ∧
    (∀ v, (k, v) ∈ t.inorder → ∃ l r, t.find k = node.mk k v l r) ∧
    (t.find k = node.null ↔ k ∉ keys t.root) := by
  refine ⟨fun hk => ?_, fun v hv => find_node_of_mem t.root hb hv,
    find_node_eq_null_iff t.root hb k⟩
  obtain ⟨v, hv⟩ := exists_mem_inorder_of_mem_keys hk
  obtain ⟨l, r, hf⟩ := find_node_of_mem t.root hb hv
  exact ⟨v, l, r, hf, hv⟩

theorem find_correct_witness :
    bst (bstree.mk (node.mk 5 0 (node.mk 3 1 node.null node.null)
        (node.mk 8 2 node.null node.null)) 3 : bstree Nat Nat).root ∧
    (∃ l r, (bstree.mk (node.mk 5 0 (node.mk 3 1 node.null node.null)
        (node.mk 8 2 node.null node.null)) 3 : bstree Nat Nat).find 8 = node.mk 8 2 l r) ∧
    ((bstree.mk (node.mk 5 0 (node.mk 3 1 node.null node.null)
        (node.mk 8 2 node.null node.null)) 3 : bstree Nat Nat).find 8 = node.null ↔
      8 ∉ keys (bstree.mk (node.mk 5 0 (node.mk 3 1 node.null node.null)
        (node.mk 8 2 node.null node.null)) 3 : bstree Nat Nat).root) :=
  have h := find_correct (bstree.mk (node.mk 5 0 (node.mk 3 1 node.null node.null)
    (node.mk 8 2 node.null node.null)) 3 : bstree Nat Nat) 8 (by decide)
  ⟨by decide, h.2.1 2 (by decide), h.2.2⟩

/-- C8: insert/find round trip. When pairs with pairwise distinct keys are
inserted in order into an empty tree, every `insert` returns true, and
afterwards `find(k)` returns a node with key `k` holding the value inserted
with `k`, for each inserted pair. -/
theorem insert_find_round_trip (ps : List (K × V)) (hd : (ps.map Prod.fst).Nodup) :
    (∀ b ∈ (insert_all (bstree.construct : bstree K V) ps).1, b = true) ∧
    (insert_all (bstree.construct : bstree K V) ps).1.length = ps.length ∧
    ∀ k v, (k, v) ∈ ps →
      ∃ l r, (insert_all (bstree.construct : bstree K V) ps).2.find k = node.mk k v l r := by
  obtain ⟨h₁, h₂, h₃, h₄⟩ := insert_all_spec ps (bstree.construct : bstree K V) trivial hd
    (fun p _ => by simp [bstree.construct])
  refine ⟨h₁, h₂, fun k v hkv => ?_⟩
  exact find_node_of_mem _ h₃ ((h₄ (k, v)).2 (Or.inr hkv))

theorem insert_find_round_trip_witness :
    ([(5, 0), (3, 1), (8, 2), (4, 3)].map Prod.fst).Nodup ∧
    (insert_all (bstree.construct : bstree Nat Nat) [(5, 0), (3, 1), (8, 2), (4, 3)]).1
      = [true, true, true, true] ∧
    ∃ l r, (insert_all (bstree.construct : bstree Nat Nat)
      [(5, 0), (3, 1), (8, 2), (4, 3)]).2.find 3 = node.mk 3 1 l r :=
  ⟨by decide, by decide,
    (insert_find_round_trip [(5, 0), (3, 1), (8, 2), (4, 3)] (by decide)).2.2 3 1 (by decide)⟩

/-! ## Extreme keys -/

/-- C9: `min()` and `max()` return the extreme keys. On a non-empty tree with
the ordering invariant, `min()` returns the first key of the in-order
sequence, which is the smallest stored key, and `max()` returns the last key
of the in-order sequence, which is the largest stored key; and after inserting
a non-empty sequence of pairs with pairwise distinct keys into an empty tree
they return the smallest and the largest inserted key. -/
theorem min_max_extreme (t : bstree K V) (ps : List (K × V)) (hb : bst t.root)
    (hne : t.root ≠ node.null) (hd : (ps.map Prod.fst).Nodup) (hps : ps ≠ []) :
    (∃ m M, t.min = some m ∧ t.max = some M ∧
      (t.inorder.map Prod.fst).head? = some m ∧
      (t.inorder.map Prod.fst).getLast? = some M ∧
      m ∈ keys t.root ∧ M ∈ keys t.root ∧ ∀ x ∈ keys t.root, m ≤ x ∧ x ≤ M) ∧
    (∃ m M, (insert_all (bstree.construct : bstree K V) ps).2.min = some m ∧
      (insert_all (bstree.construct : bstree K V) ps).2.max = some M ∧
      m ∈ ps.map Prod.fst ∧ M ∈ ps.map Prod.fst ∧
      ∀ x ∈ ps.map Prod.fst, m ≤ x ∧ x ≤ M) := by
  constructor
  · obtain ⟨m, mv, mr, M, Mv, Ml, hm, hM, hh, hl, hmm, hMm, hall⟩ :=
      extremes_spec t.root hb hne
    exact ⟨m, M, by simp [bstree.min, hm], by simp [bstree.max, hM], hh, hl, hmm, hMm, hall⟩
  · obtain ⟨-, -, h₃, h₄⟩ := insert_all_spec ps (bstree.construct : bstree K V) trivial hd
      (fun p _ => by simp [bstree.construct])
    have hkeys : ∀ x, x ∈ keys (insert_all (bstree.construct : bstree K V) ps).2.root ↔
        x ∈ ps.map Prod.fst := by
      intro x
      constructor
      · intro hx
        obtain ⟨w, hw⟩ := exists_mem_inorder_of_mem_keys hx
        rcases (h₄ (x, w)).1 hw with h | h
        · simp [bstree.inorder, bstree.construct, inorder_helper] at h
        · exact List.mem_map_of_mem Prod.fst h
      · intro hx
        obtain ⟨p, hp, rfl⟩ := List.mem_map.1 hx
        exact mem_keys_of_mem_inorder ((h₄ p).2 (Or.inr hp))
    have hlive : (insert_all (bstree.construct : bstree K V) ps).2.root ≠ node.null := by
      intro h0
      obtain ⟨p, hp⟩ := List.exists_mem_of_ne_nil ps hps
      have := (hkeys p.1).2 (List.mem_map_of_mem Prod.fst hp)
      rw [h0] at this
      simp at this
    obtain ⟨m, mv, mr, M, Mv, Ml, hm, hM, -, -, hmm, hMm, hall⟩ :=
      extremes_spec _ h₃ hlive
    exact ⟨m, M, by simp [bstree.min, hm], by simp [bstree.max, hM], (hkeys m).1 hmm,
      (hkeys M).1 hMm, fun x hx => hall x ((hkeys x).2 hx)⟩

theorem min_max_extreme_witness :
    (∃ m M, (bstree.mk (node.mk 5 0 (node.mk 3 1 node.null node.null)
        (node.mk 8 2 node.null node.null)) 3 : bstree Nat Nat).min = some m ∧
      (bstree.mk (node.mk 5 0 (node.mk 3 1 node.null node.null)
        (node.mk 8 2 node.null node.null)) 3 : bstree Nat Nat).max = some M ∧
      ((bstree.mk (node.mk 5 0 (node.mk 3 1 node.null node.null)
        (node.mk 8 2 node.null node.null)) 3 : bstree Nat Nat).inorder.map Prod.fst).head?
        = some m ∧
      ((bstree.mk (node.mk 5 0 (node.mk 3 1 node.null node.null)
        (node.mk 8 2 node.null node.null)) 3 : bstree Nat Nat).inorder.map Prod.fst).getLast?
        = some M ∧
      m ∈ keys (bstree.mk (node.mk 5 0 (node.mk 3 1 node.null node.null)
        (node.mk 8 2 node.null node.null)) 3 : bstree Nat Nat).root ∧
      M ∈ keys (bstree.mk (node.mk 5 0 (node.mk 3 1 node.null node.null)
        (node.mk 8 2 node.null node.null)) 3 : bstree Nat Nat).root ∧
      ∀ x ∈ keys (bstree.mk (node.mk 5 0 (node.mk 3 1 node.null node.null)
        (node.mk 8 2 node.null node.null)) 3 : bstree Nat Nat).root, m ≤ x ∧ x ≤ M) ∧
    (∃ m M, (insert_all (bstree.construct : bstree Nat Nat)
        [(5, 0), (3, 1), (8, 2), (4, 3)]).2.min = some m ∧
      (insert_all (bstree.construct : bstree Nat Nat)
        [(5, 0), (3, 1), (8, 2), (4, 3)]).2.max = some M ∧
      m ∈ [(5, 0), (3, 1), (8, 2), (4, 3)].map Prod.fst ∧
      M ∈ [(5, 0), (3, 1), (8, 2), (4, 3)].map Prod.fst ∧
      ∀ x ∈ [(5, 0), (3, 1), (8, 2), (4, 3)].map Prod.fst, m ≤ x ∧ x ≤ M) :=
  min_max_extreme _ [(5, 0), (3, 1), (8, 2), (4, 3)] (by decide) (by decide) (by decide)
    (by decide)

end claims

section precondition

variable {K V : Type}

/-- C10: the empty-tree precondition of `min()` and `max()`. Each of them
dereferences `nullptr` exactly when the root is absent; on a live root both
return a stored key; and when the counter equals the node count, a false
`empty()` guarantees that neither call dereferences `nullptr`. -/
theorem min_max_precondition (t : bstree K V) :
    (t.min = none ↔ t.root = node.null) ∧ (t.max = none ↔ t.root = node.null) ∧
    (t.root ≠ node.null →
      ∃ m M, t.min = some m ∧ t.max = some M ∧ m ∈ keys t.root ∧ M ∈ keys t.root) ∧
    (t.size = count t.root → t.empty = false →
      ∃ m M, t.min = some m ∧ t.max = some M ∧ m ∈ keys t.root ∧ M ∈ keys t.root) := by
  have hlive : t.root ≠ node.null →
      ∃ m M, t.min = some m ∧ t.max = some M ∧ m ∈ keys t.root ∧ M ∈ keys t.root := by
    intro hne
    obtain ⟨m, mv, mr, rest, hm, hrest⟩ := find_min_spec t.root hne
    obtain ⟨M, Mv, Ml, init, hM, hinit⟩ := max_loop_spec t.root hne
    exact ⟨m, M, by simp [bstree.min, hm], by simp [bstree.max, hM],
      by rw [keys, hrest]; simp, by rw [keys, hinit]; simp⟩
  refine ⟨⟨fun h => ?_, fun h => ?_⟩, ⟨fun h => ?_, fun h => ?_⟩, hlive, ?_⟩
  · by_contra hne
    obtain ⟨m, M, hm, -⟩ := hlive hne
    rw [hm] at h
    exact Option.noConfusion h
  · simp [bstree.min, h, find_min]
  · by_contra hne
    obtain ⟨m, M, -, hM, -⟩ := hlive hne
    rw [hM] at h
    exact Option.noConfusion h
  · simp [bstree.max, h, max_loop]
  · intro hs he
    apply hlive
    intro h0
    have : t.tree_size = 0 := by
      have := hs
      rw [bstree.size, h0] at this
      exact this
    simp [bstree.empty, this] at he

theorem min_max_precondition_witness :
    ((bstree.construct : bstree Nat Nat).min = none ∧
      (bstree.construct : bstree Nat Nat).max = none) ∧
    ∃ m M, (bstree.mk (node.mk 5 0 (node.mk 3 1 node.null node.null)
        (node.mk 8 2 node.null node.null)) 3 : bstree Nat Nat).min = some m ∧
      (bstree.mk (node.mk 5 0 (node.mk 3 1 node.null node.null)
        (node.mk 8 2 node.null node.null)) 3 : bstree Nat Nat).max = some M ∧
      m ∈ keys (bstree.mk (node.mk 5 0 (node.mk 3 1 node.null node.null)
        (node.mk 8 2 node.null node.null)) 3 : bstree Nat Nat).root ∧
      M ∈ keys (bstree.mk (node.mk 5 0 (node.mk 3 1 node.null node.null)
        (node.mk 8 2 node.null node.null)) 3 : bstree Nat Nat).root :=
  ⟨⟨(min_max_precondition (bstree.construct : bstree Nat Nat)).1.2 rfl,
      (min_max_precondition (bstree.construct : bstree Nat Nat)).2.1.2 rfl⟩,
    (min_max_precondition (bstree.mk (node.mk 5 0 (node.mk 3 1 node.null node.null)
      (node.mk 8 2 node.null node.null)) 3 : bstree Nat Nat)).2.2.2 (by decide) (by decide)⟩

end precondition

/-! ## Copying -/

section copying

variable {K V : Type} [LinearOrder K]

/-- C11: copy is structure-preserving. The copy constructor applied to `x`,
and the assignment of `x` to a distinct tree `t` whatever `t` holds, yield a
tree with the same shape, the same key and value at every position and the
same `size()`; so `height()`, `find(k)` for every `k` and the four traversal
sequences agree with those of `x`. -/
theorem copy_preserves_structure (x t : bstree K V) :
    (x.copy.root = x.root ∧ x.copy.size = x.size ∧ x.copy.height = x.height ∧
      (∀ k, x.copy.find k = x.find k) ∧ x.copy.preorder = x.preorder ∧
      x.copy.inorder = x.inorder ∧ x.copy.postorder = x.postorder ∧
      x.copy.level_order = x.level_order) ∧
    ((t.assign x false).root = x.root ∧ (t.assign x false).size = x.size ∧
      (t.assign x false).height = x.height ∧
      (∀ k, (t.assign x false).find k = x.find k) ∧
      (t.assign x false).preorder = x.preorder ∧
      (t.assign x false).inorder = x.inorder ∧
      (t.assign x false).postorder = x.postorder ∧
      (t.assign x false).level_order = x.level_order) := by
  have h₁ : x.copy = x := by
    cases x
    simp [bstree.copy, copy_tree_eq]
  have h₂ : t.assign x false = x := by
    cases x
    simp [bstree.assign, copy_tree_eq]
  rw [h₁, h₂]
  exact ⟨⟨rfl, rfl, rfl, fun _ => rfl, rfl, rfl, rfl, rfl⟩,
    ⟨rfl, rfl, rfl, fun _ => rfl, rfl, rfl, rfl, rfl⟩⟩

end copying

/-! ## Height -/

section height

variable {K V : Type}

theorem leaf_depths_mk (k : K) (v : V) (l r : node K V)
    (h : l ≠ node.null ∨ r ≠ node.null) :
    leaf_depths (node.mk k v l r) = (leaf_depths l ++ leaf_depths r).map (· + 1) := by
  cases l with
  | null =>
    cases r with
    | null => simp at h
    | mk _ _ _ _ => simp [leaf_depths]
  | mk _ _ _ _ => simp [leaf_depths]

/-- The height of a live tree is the number of nodes of one of its
root-to-leaf paths, and no root-to-leaf path has more nodes. -/
theorem height_helper_longest_path (n : node K V) (hn : n ≠ node.null) :
    height_helper n ∈ leaf_depths n ∧ ∀ d ∈ leaf_depths n, d ≤ height_helper n := by
  induction n with
  | null => exact absurd rfl hn
  | mk k v l r ihl ihr =>
    by_cases hl : l = node.null
    · by_cases hr : r = node.null
      · subst hl; subst hr
        simp [leaf_depths, height_helper]
      · have ih := ihr hr
        subst hl
        rw [leaf_depths_mk k v _ _ (Or.inr hr)]
        simp only [leaf_depths, List.nil_append, List.mem_map, height_helper,
          Nat.max_def, Nat.zero_le, if_true]
        refine ⟨⟨_, ih.1, by omega⟩, ?_⟩
        rintro d ⟨e, he, rfl⟩
        have := ih.2 e he
        omega
    · have ihl' := ihl hl
      rw [leaf_depths_mk k v _ _ (Or.inl hl)]
      simp only [List.mem_map, List.mem_append, height_helper]
      by_cases hr : r = node.null
      · subst hr
        simp only [leaf_depths, List.not_mem_nil, or_false, height_helper]
        refine ⟨⟨_, ihl'.1, by simp [Nat.max_def]; omega⟩, ?_⟩
        rintro d ⟨e, he, rfl⟩
        have := ihl'.2 e he
        simp only [Nat.max_def]
        split_ifs <;> omega
      · have ihr' := ihr hr
        refine ⟨?_, ?_⟩
        · by_cases hle : height_helper l ≤ height_helper r
          · exact ⟨_, Or.inr ihr'.1, by simp [Nat.max_def, hle]; omega⟩
          · exact ⟨_, Or.inl ihl'.1, by simp [Nat.max_def, hle]; omega⟩
        · rintro d ⟨e, he | he, rfl⟩
          · have := ihl'.2 e he
            simp only [Nat.max_def]
            split_ifs <;> omega
          · have := ihr'.2 e he
            simp only [Nat.max_def]
            split_ifs <;> omega

/-- C13: `height()` follows its recursive definition. It returns 0 for the
empty tree and `1 + max(height of left, height of right)` for a tree with a
live root; and on a live root this is the number of nodes on a longest
root-to-leaf path. -/
theorem height_recursive (s : Nat) (k : K) (v : V) (l r : node K V) :
    (bstree.mk (node.null : node K V) s).height = 0 ∧
    (bstree.mk (node.mk k v l r) s).height
      = 1 + Nat.max (bstree.mk l s).height (bstree.mk r s).height ∧
    (bstree.mk (node.mk k v l r) s).height ∈ leaf_depths (node.mk k v l r) ∧
    ∀ d ∈ leaf_depths (node.mk k v l r), d ≤ (bstree.mk (node.mk k v l r) s).height :=
  ⟨rfl, rfl, height_helper_longest_path (node.mk k v l r) (by simp)⟩

end height

/-! ## Removal, pair by pair -/

section removal

variable {K V : Type} [LinearOrder K]

/-- A sequence sorted by key splits at a stored key into the pairs of smaller
key, the pair of that key, and the pairs of larger key. -/
theorem sorted_split_at {l : List (K × V)} {k : K}
    (hs : (l.map Prod.fst).Pairwise (· < ·)) (hk : k ∈ l.map Prod.fst) :
    ∃ pre v post, l = pre ++ (k, v) :: post ∧
      (∀ p ∈ pre, p.1 < k) ∧ (∀ p ∈ post, k < p.1) := by
  obtain ⟨⟨a, v⟩, hmem, rfl⟩ := List.mem_map.1 hk
  obtain ⟨pre, post, rfl⟩ := List.append_of_mem hmem
  simp only [List.map_append, List.map_cons, List.pairwise_append, List.pairwise_cons,
    List.mem_map, List.mem_cons] at hs
  obtain ⟨-, ⟨hpost, -⟩, hpre⟩ := hs
  exact ⟨pre, v, post, rfl, fun p hp => hpre _ ⟨p, hp, rfl⟩ _ (Or.inl rfl),
    fun p hp => hpost _ ⟨p, hp, rfl⟩⟩

/-- C15: remove deletes exactly one pair and keeps all others. On a tree with
the ordering invariant, `remove(k)` for a stored key returns true, and the new
in-order sequence is the old one with the single pair of key `k` deleted;
every pair of another key stays stored, and `find` returns it with its
original value. -/
theorem remove_deletes_one_pair (t : bstree K V) (k : K) (hb : bst t.root)
    (hk : k ∈ keys t.root) :
    ∃ t' pre v post, t.remove k = some (true, t') ∧
      t.inorder = pre ++ (k, v) :: post ∧ t'.inorder = pre ++ post ∧
      (∀ p ∈ pre, p.1 < k) ∧ (∀ p ∈ post, k < p.1) ∧
      (∀ p : K × V, p.1 ≠ k → (p ∈ t'.inorder ↔ p ∈ t.inorder)) ∧
      (∀ k' v', k' ≠ k → (k', v') ∈ t.inorder →
        ∃ l r, t'.find k' = node.mk k' v' l r) := by
  obtain ⟨b, t', he, -, hin, hb₁, -, -, hb'⟩ := remove_spec t hb k
  have hbt : b = true := hb₁.2 hk
  subst hbt
  obtain ⟨pre, v, post, hsplit, hpre, hpost⟩ :=
    sorted_split_at ((bst_iff_pairwise t.root).1 hb) hk
  have hsplit' : t.inorder = pre ++ (k, v) :: post := hsplit
  have hfil : t'.inorder = pre ++ post := by
    rw [hin, hsplit', List.filter_append, List.filter_cons,
      filter_key_ne_self (fun p hp => ne_of_lt (hpre p hp)),
      filter_key_ne_self (fun p hp => ne_of_gt (hpost p hp))]
    simp
  have hiff : ∀ p : K × V, p.1 ≠ k → (p ∈ t'.inorder ↔ p ∈ t.inorder) := by
    intro p hp
    rw [hfil, hsplit']
    simp only [List.mem_append, List.mem_cons]
    constructor
    · rintro (h | h)
      · exact Or.inl h
      · exact Or.inr (Or.inr h)
    · rintro (h | rfl | h)
      · exact Or.inl h
      · exact absurd rfl hp
      · exact Or.inr h
  refine ⟨t', pre, v, post, he, hsplit', hfil, hpre, hpost, hiff, ?_⟩
  intro k' v' hne hmem
  exact find_node_of_mem t'.root hb' ((hiff (k', v') hne).2 hmem)

theorem remove_deletes_one_pair_witness :
    ∃ t' pre v post, (bstree.mk (node.mk 5 0 (node.mk 3 1 node.null node.null)
        (node.mk 8 2 (node.mk 6 4 node.null (node.mk 7 9 node.null node.null)) node.null)) 5
        : bstree Nat Nat).remove 5 = some (true, t') ∧
      (bstree.mk (node.mk 5 0 (node.mk 3 1 node.null node.null)
        (node.mk 8 2 (node.mk 6 4 node.null (node.mk 7 9 node.null node.null)) node.null)) 5
        : bstree Nat Nat).inorder = pre ++ (5, v) :: post ∧
      t'.inorder = pre ++ post ∧
      (∀ p ∈ pre, p.1 < 5) ∧ (∀ p ∈ post, 5 < p.1) ∧
      (∀ p : Nat × Nat, p.1 ≠ 5 → (p ∈ t'.inorder ↔
        p ∈ (bstree.mk (node.mk 5 0 (node.mk 3 1 node.null node.null)
        (node.mk 8 2 (node.mk 6 4 node.null (node.mk 7 9 node.null node.null)) node.null)) 5
        : bstree Nat Nat).inorder)) ∧
      (∀ k' v', k' ≠ 5 → (k', v') ∈ (bstree.mk (node.mk 5 0 (node.mk 3 1 node.null node.null)
        (node.mk 8 2 (node.mk 6 4 node.null (node.mk 7 9 node.null node.null)) node.null)) 5
        : bstree Nat Nat).inorder →
        ∃ l r, t'.find k' = node.mk k' v' l r) :=
  remove_deletes_one_pair _ 5 (by decide) (by decide)

/-- Removing a key right after inserting it as a new key gives the tree back. -/
theorem remove_helper_insert_helper (n : node K V) (hb : bst n) (s s' : Nat) (key : K)
    (value : V) (hk : key ∉ keys n) :
    ∃ n', insert_helper n s key value = (true, n', size_incr s) ∧
      remove_helper n' s' key = some (true, n, size_decr s') := by
  induction n with
  | null => exact ⟨_, rfl, by simp [remove_helper]⟩
  | mk k v l r ihl ihr =>
    obtain ⟨hl, hr, bl, br⟩ := hb
    simp only [keys_mk, List.mem_append, List.mem_cons, not_or] at hk
    obtain ⟨hkl, hkk, hkr⟩ := hk
    by_cases h₁ : key < k
    · obtain ⟨l', hi, hrm⟩ := ihl bl hkl
      refine ⟨node.mk k v l' r, ?_, ?_⟩
      · simp only [insert_helper, if_pos h₁, hi]
      · simp only [remove_helper, if_pos h₁, hrm]
    · have h₂ : key > k := lt_of_le_of_ne (not_lt.1 h₁) (Ne.symm hkk)
      obtain ⟨r', hi, hrm⟩ := ihr br hkr
      refine ⟨node.mk k v l r', ?_, ?_⟩
      · simp only [insert_helper, if_neg h₁, if_pos h₂, hi]
      · simp only [remove_helper, if_neg h₁, if_pos h₂, hrm]

theorem size_decr_incr (s : Nat) (h : s < SIZE_MOD) : size_decr (size_incr s) = s := by
  unfold size_decr size_incr
  unfold SIZE_MOD at h ⊢
  omega

/-- C19: remove undoes insert. On a tree with the ordering invariant (its
counter a `size_t` value), inserting a key that is not stored and then
removing it returns true both times and gives back the same state: shape,
keys, values and counter. -/
theorem remove_undoes_insert (t : bstree K V) (k : K) (v : V) (hb : bst t.root)
    (hfit : t.size < SIZE_MOD) (hk : k ∉ keys t.root) :
    (t.insert k v).1 = true ∧ (t.insert k v).2.remove k = some (true, t) := by
  obtain ⟨n', hi, hrm⟩ := remove_helper_insert_helper t.root hb t.tree_size
    (size_incr t.tree_size) k v hk
  rw [insert_eq, hi]
  refine ⟨rfl, ?_⟩
  simp only [bstree.remove, hrm]
  cases t
  simp only [Option.some.injEq, Prod.mk.injEq, bstree.mk.injEq, true_and]
  exact size_decr_incr _ hfit

theorem remove_undoes_insert_witness :
    ((bstree.mk (node.mk 5 0 (node.mk 3 1 node.null node.null)
        (node.mk 8 2 node.null node.null)) 3 : bstree Nat Nat).insert 4 7).1 = true ∧
    ((bstree.mk (node.mk 5 0 (node.mk 3 1 node.null node.null)
        (node.mk 8 2 node.null node.null)) 3 : bstree Nat Nat).insert 4 7).2.remove 4
      = some (true, bstree.mk (node.mk 5 0 (node.mk 3 1 node.null node.null)
        (node.mk 8 2 node.null node.null)) 3) :=
  remove_undoes_insert _ 4 7 (by decide) (by decide) (by decide)

end removal

/-! ## Level order -/

section breadth_first

variable {K V : Type}

theorem push_if_eq_append (q : List (node K V)) (n : node K V) :
    push_if q n = q ++ push_if [] n := by
  cases n <;> simp [push_if]

theorem level_order_loop_cons (k : K) (v : V) (l r : node K V) (q : List (node K V)) :
    level_order_loop (node.mk k v l r :: q)
      = (level_order_loop (q ++ kids [node.mk k v l r])).map (fun out => (k, v) :: out) := by
  rw [level_order_loop, push_if_eq_append (push_if q l) r, push_if_eq_append q l]
  simp only [kids, List.append_nil, push_if_eq_append (push_if [] l) r, List.append_assoc]
  cases level_order_loop (q ++ (push_if [] l ++ push_if [] r)) <;> rfl

theorem kids_cons (n : node K V) (q : List (node K V)) : kids (n :: q) = kids [n] ++ kids q := by
  cases n <;> simp [kids]

theorem roots_cons (n : node K V) (q : List (node K V)) :
    roots (n :: q) = roots [n] ++ roots q := by
  cases n <;> simp [roots]

/-- The loop prints the pairs of a front segment of live pointers and goes on
with the rest of the queue followed by the children of that segment. -/
theorem level_order_loop_append (a : List (node K V)) :
    (∀ n ∈ a, n ≠ node.null) → ∀ b : List (node K V),
      level_order_loop (a ++ b)
        = (level_order_loop (b ++ kids a)).map (fun out => roots a ++ out) := by
  induction a with
  | nil =>
    intro _ b
    simp [kids, roots]
  | cons n a ih =>
    intro ha b
    cases n with
    | null => exact absurd rfl (ha node.null (by simp))
    | mk k v l r =>
      have ih' := ih (fun n hn => ha n (by simp [hn])) (b ++ kids [node.mk k v l r])
      rw [List.cons_append, level_order_loop_cons, List.append_assoc a b, ih',
        kids_cons (node.mk k v l r) a, Option.map_map, List.append_assoc]
      rfl

theorem kids_live (q : List (node K V)) : ∀ n ∈ kids q, n ≠ node.null := by
  induction q with
  | nil => simp [kids]
  | cons n q ih =>
    intro x hx
    rw [kids_cons, List.mem_append] at hx
    rcases hx with hx | hx
    · cases n with
      | null => simp [kids] at hx
      | mk k v l r =>
        cases l <;> cases r <;> simp [kids, push_if] at hx
        all_goals (rcases hx with rfl | rfl <;> simp)
    · exact ih x hx

theorem forest_height_append (a b : List (node K V)) :
    forest_height (a ++ b) = Nat.max (forest_height a) (forest_height b) := by
  induction a with
  | nil => simp [forest_height]
  | cons n a ih =>
    rw [List.cons_append, forest_height, ih, forest_height]
    simp only [Nat.max_def]
    split_ifs <;> omega

theorem forest_height_push_if (q : List (node K V)) (n : node K V) :
    forest_height (push_if q n) = Nat.max (forest_height q) (height_helper n) := by
  rw [push_if_eq_append, forest_height_append]
  cases n with
  | null => simp [push_if, forest_height, height_helper]
  | mk k v l r => simp [push_if, forest_height]

theorem forest_height_kids (q : List (node K V)) :
    forest_height (kids q) ≤ forest_height q - 1 := by
  induction q with
  | nil => simp [kids, forest_height]
  | cons n q ih =>
    rw [kids_cons, forest_height_append]
    cases n with
    | null =>
      simp only [kids, forest_height, height_helper, Nat.max_def] at ih ⊢
      split_ifs at ih ⊢ <;> omega
    | mk k v l r =>
      simp only [kids, List.append_nil, forest_height_push_if, forest_height, height_helper,
        Nat.max_def] at ih ⊢
      split_ifs at ih ⊢ <;> omega

theorem height_helper_pos (n : node K V) (hn : n ≠ node.null) : 0 < height_helper n := by
  cases n with
  | null => exact absurd rfl hn
  | mk k v l r => simp [height_helper]

/-- The loop terminates on a queue of live pointers and prints the nodes under
them generation by generation. -/
theorem level_order_loop_layers (h : Nat) :
    ∀ q : List (node K V), (∀ n ∈ q, n ≠ node.null) → forest_height q ≤ h →
      level_order_loop q = some (layers h q) := by
  induction h with
  | zero =>
    intro q hq hh
    cases q with
    | nil => rw [level_order_loop]; rfl
    | cons n q =>
      have := height_helper_pos n (hq n (by simp))
      simp only [forest_height, Nat.max_def] at hh
      split_ifs at hh <;> omega
  | succ h ih =>
    intro q hq hh
    have hk : forest_height (kids q) ≤ h := by
      have := forest_height_kids q
      omega
    have := level_order_loop_append q hq []
    rw [List.append_nil, List.nil_append, ih (kids q) (kids_live q) hk] at this
    rw [this]
    rfl

theorem roots_eq_level_zero (q : List (node K V)) : roots q = q.flatMap (level 0) := by
  induction q with
  | nil => rfl
  | cons n q ih =>
    cases n with
    | null => simp [roots, level, ih]
    | mk k v l r => simp [roots, level, ih]

theorem flatMap_level_push_if (d : Nat) (q : List (node K V)) (n : node K V) :
    (push_if q n).flatMap (level d) = q.flatMap (level d) ++ level d n := by
  cases n with
  | null => cases d <;> simp [push_if, level]
  | mk k v l r => simp [push_if]

theorem flatMap_level_kids (d : Nat) (q : List (node K V)) :
    (kids q).flatMap (level d) = q.flatMap (level (d + 1)) := by
  induction q with
  | nil => rfl
  | cons n q ih =>
    cases n with
    | null => simp [kids, level, ih]
    | mk k v l r =>
      simp [kids, level, ih, flatMap_level_push_if]

theorem layers_eq_levels (h : Nat) :
    ∀ q : List (node K V),
      layers h q = (List.range h).flatMap (fun d => q.flatMap (level d)) := by
  induction h with
  | zero => intro q; rfl
  | succ h ih =>
    intro q
    rw [layers, ih (kids q), List.range_succ_eq_map, List.flatMap_cons, List.flatMap_map,
      roots_eq_level_zero]
    congr 1
    apply List.flatMap_congr
    intro d _
    exact flatMap_level_kids d q

theorem layers_singleton (n : node K V) : layers (height_helper n) [n] = by_depth n := by
  rw [layers_eq_levels, by_depth]
  simp

theorem flatMap_inorder_push_if (q : List (node K V)) (n : node K V) :
    (push_if q n).flatMap inorder_helper = q.flatMap inorder_helper ++ inorder_helper n := by
  cases n with
  | null => simp [push_if, inorder_helper]
  | mk k v l r => simp [push_if]

theorem perm_swap_front {α : Type} (a b c : List α) : (a ++ (b ++ c)).Perm (b ++ (a ++ c)) := by
  rw [← List.append_assoc, ← List.append_assoc]
  exact List.Perm.append_right c List.perm_append_comm

/-- The pairs of the front generation of a queue together with all pairs under
its children are all pairs under the queue. -/
theorem roots_kids_perm (q : List (node K V)) :
    (roots q ++ (kids q).flatMap inorder_helper).Perm (q.flatMap inorder_helper) := by
  induction q with
  | nil => exact List.Perm.refl _
  | cons n q ih =>
    cases n with
    | null => simpa [roots, kids, inorder_helper] using ih
    | mk k v l r =>
      simp only [roots, kids, List.flatMap_append, flatMap_inorder_push_if, List.flatMap_nil,
        List.nil_append, List.flatMap_cons, inorder_helper, List.cons_append,
        List.append_assoc]
      have h₀ : (roots q ++ ((inorder_helper l ++ inorder_helper r)
          ++ (kids q).flatMap inorder_helper)).Perm
          ((inorder_helper l ++ inorder_helper r)
            ++ (roots q ++ (kids q).flatMap inorder_helper)) := perm_swap_front _ _ _
      have h₁ : (roots q ++ (inorder_helper l ++ (inorder_helper r
          ++ (kids q).flatMap inorder_helper))).Perm
          (inorder_helper l ++ (inorder_helper r ++ q.flatMap inorder_helper)) := by
        have := List.Perm.trans h₀ (List.Perm.append_left _ ih)
        simpa only [List.append_assoc] using this
      exact List.Perm.trans (List.Perm.cons _ h₁) List.perm_middle.symm

theorem flatMap_inorder_of_height_zero (q : List (node K V)) (h : forest_height q = 0) :
    q.flatMap inorder_helper = [] := by
  induction q with
  | nil => rfl
  | cons n q ih =>
    simp only [forest_height, Nat.max_def] at h
    cases n with
    | null =>
      simp only [height_helper] at h
      simp only [List.flatMap_cons, inorder_helper, List.nil_append]
      exact ih (by split_ifs at h <;> omega)
    | mk k v l r =>
      simp only [height_helper] at h
      split_ifs at h <;> omega

/-- The generations of a queue hold every pair under the queue exactly once. -/
theorem layers_perm (h : Nat) :
    ∀ q : List (node K V), forest_height q ≤ h →
      (layers h q).Perm (q.flatMap inorder_helper) := by
  induction h with
  | zero =>
    intro q hq
    rw [flatMap_inorder_of_height_zero q (by omega)]
    exact List.Perm.refl _
  | succ h ih =>
    intro q hq
    have hk : forest_height (kids q) ≤ h := by
      have := forest_height_kids q
      omega
    exact List.Perm.trans (List.Perm.append_left _ (ih (kids q) hk)) (roots_kids_perm q)

theorem forest_height_singleton (n : node K V) : forest_height [n] = height_helper n := by
  simp [forest_height]

/-- C17: `level_order` is a breadth-first traversal. For every tree the queue
loop terminates without a null dereference and prints the nodes of depth 0,
then those of depth 1, and so on up to depth `height() - 1`, each depth from
left to right; the printed sequence holds every node exactly once and starts
with the root; for the empty tree nothing is printed. -/
theorem level_order_breadth_first (t : bstree K V) :
    t.level_order = some ((List.range t.height).flatMap (fun d => level d t.root)) ∧
    ((List.range t.height).flatMap (fun d => level d t.root)).Perm t.inorder ∧
    (∀ k v l r, t.root = node.mk k v l r →
      ∃ rest, t.level_order = some ((k, v) :: rest)) ∧
    (t.root = node.null → t.level_order = some []) := by
  have hlo : t.level_order = some (by_depth t.root) := by
    rw [← layers_singleton]
    cases ht : t.root with
    | null => simp [bstree.level_order, ht, level_order_helper, height_helper, layers]
    | mk k v l r =>
      simp only [bstree.level_order, ht, level_order_helper]
      exact level_order_loop_layers _ _ (by simp) (by rw [forest_height_singleton])
  have hperm : (by_depth t.root).Perm t.inorder := by
    rw [← layers_singleton]
    have := layers_perm (height_helper t.root) [t.root] (by rw [forest_height_singleton])
    simpa [bstree.inorder] using this
  refine ⟨hlo, hperm, ?_, ?_⟩
  · intro k v l r ht
    rw [hlo, ← layers_singleton, ht]
    have hh : height_helper (node.mk k v l r)
        = Nat.max (height_helper l) (height_helper r) + 1 := by
      rw [height_helper, Nat.add_comm]
    rw [hh, layers]
    exact ⟨_, rfl⟩
  · intro ht
    simp [bstree.level_order, ht, level_order_helper]

theorem level_order_breadth_first_witness :
    (bstree.mk (node.mk 5 0 (node.mk 3 1 node.null node.null)
        (node.mk 8 2 (node.mk 6 4 node.null (node.mk 7 9 node.null node.null)) node.null)) 5
        : bstree Nat Nat).level_order
      = some ((List.range 4).flatMap (fun d => level d (node.mk 5 0
        (node.mk 3 1 node.null node.null)
        (node.mk 8 2 (node.mk 6 4 node.null (node.mk 7 9 node.null node.null)) node.null)))) ∧
    (List.range 4).flatMap (fun d => level d (node.mk 5 0
        (node.mk 3 1 node.null node.null)
        (node.mk 8 2 (node.mk 6 4 node.null (node.mk 7 9 node.null node.null)) node.null)))
      = [(5, 0), (3, 1), (8, 2), (6, 4), (7, 9)] :=
  ⟨(level_order_breadth_first (bstree.mk (node.mk 5 0 (node.mk 3 1 node.null node.null)
      (node.mk 8 2 (node.mk 6 4 node.null (node.mk 7 9 node.null node.null)) node.null)) 5
      : bstree Nat Nat)).1, by decide⟩

end breadth_first

/-! ## Removal of a node with two children -/

section successor

variable {K V : Type} [LinearOrder K]

theorem remove_helper_left (k : K) (v : V) (l r : node K V) (s : Nat) {key : K}
    (h : key < k) :
    remove_helper (node.mk k v l r) s key
      = (remove_helper l s key).map (fun res => (res.1, node.mk k v res.2.1 r, res.2.2)) := by
  simp only [remove_helper, if_pos h]
  cases remove_helper l s key <;> rfl

theorem remove_helper_right (k : K) (v : V) (l r : node K V) (s : Nat) {key : K}
    (h : key > k) :
    remove_helper (node.mk k v l r) s key
      = (remove_helper r s key).map (fun res => (res.1, node.mk k v l res.2.1, res.2.2)) := by
  simp only [remove_helper, if_neg (lt_asymm h), if_pos h]
  cases remove_helper r s key <;> rfl

/-- The node returned by `find_min` holds a stored key that is below every
other key of the tree. -/
theorem find_min_least (n : node K V) (hb : bst n) {m : K} {mv : V} {ml mr : node K V}
    (hm : find_min n = node.mk m mv ml mr) :
    ml = node.null ∧ m ∈ keys n ∧ (m, mv) ∈ inorder_helper n ∧ ∀ y ∈ keys n, m ≤ y := by
  have hn : n ≠ node.null := by
    rintro rfl
    simp [find_min] at hm
  obtain ⟨m', v', r', rest, hm', hrest⟩ := find_min_spec n hn
  rw [hm] at hm'
  obtain ⟨rfl, rfl, rfl, rfl⟩ : m = m' ∧ mv = v' ∧ ml = node.null ∧ mr = r' := by
    simpa using hm'
  have hs := (bst_iff_pairwise n).1 hb
  have hk : keys n = m :: rest.map Prod.fst := by rw [keys, hrest]; rfl
  rw [hk, List.pairwise_cons] at hs
  refine ⟨rfl, by rw [hk]; simp, by rw [hrest]; simp, ?_⟩
  intro y hy
  rw [hk, List.mem_cons] at hy
  rcases hy with rfl | hy
  · exact le_refl _
  · exact le_of_lt (hs.1 y hy)

/-- Searching for the key of the node returned by `find_min` ends on that
node. -/
theorem find_node_find_min (n : node K V) (hb : bst n) {m : K} {mv : V} {ml mr : node K V}
    (hm : find_min n = node.mk m mv ml mr) : find_node n m = node.mk m mv ml mr := by
  induction n with
  | null => simp [find_min] at hm
  | mk k v l r ihl _ =>
    obtain ⟨hl, -, bl, -⟩ := hb
    cases l with
    | null =>
      simp only [find_min, node.mk.injEq] at hm
      obtain ⟨rfl, rfl, rfl, rfl⟩ := hm
      simp [find_node]
    | mk lk lv ll lr =>
      rw [find_min] at hm
      have hlt : m < k := hl m (find_min_least _ bl hm).2.1
      rw [find_node, if_pos hlt]
      exact ihl bl hm

/-- Removing the key of the node returned by `find_min` splices that node
out, returns true and decrements the counter once. -/
theorem remove_helper_find_min (n : node K V) (hb : bst n) (s : Nat) {m : K} {mv : V}
    {ml mr : node K V} (hm : find_min n = node.mk m mv ml mr) :
    remove_helper n s m = some (true, splice_min n, size_decr s) := by
  induction n with
  | null => simp [find_min] at hm
  | mk k v l r ihl _ =>
    obtain ⟨hl, -, bl, -⟩ := hb
    cases l with
    | null =>
      simp only [find_min, node.mk.injEq] at hm
      obtain ⟨rfl, rfl, rfl, rfl⟩ := hm
      simp [remove_helper, splice_min]
    | mk lk lv ll lr =>
      rw [find_min] at hm
      have hlt : m < k := hl m (find_min_least _ bl hm).2.1
      rw [remove_helper_left k v _ r s hlt, ihl bl hm]
      rfl

/-- The two-children branch of `remove_helper` at the node it matched. -/
theorem remove_helper_two_children (k : K) (v : V) (l r : node K V) (s : Nat)
    (hb : bst (node.mk k v l r)) (hl : l ≠ node.null)
    {m : K} {mv : V} {ml mr : node K V} (hm : find_min r = node.mk m mv ml mr) :
    remove_helper (node.mk k v l r) s k
      = some (true, node.mk m mv l (splice_min r), size_decr s) := by
  obtain ⟨-, -, -, br⟩ := hb
  have hrec := remove_helper_find_min r br s hm
  cases l with
  | null => exact absurd rfl hl
  | mk lk lv ll lr =>
    cases r with
    | null => simp [find_min] at hm
    | mk rk rv rl rr =>
      rw [remove_helper, if_neg (lt_irrefl k), if_neg (lt_irrefl k), hm]
      dsimp only
      rw [hrec]

/-- The keys of the subtree found by `find_node` are keys of the tree. -/
theorem keys_find_node_subset (n : node K V) {k : K} {v : V} {l r : node K V}
    (hf : find_node n k = node.mk k v l r) :
    ∀ x ∈ keys (node.mk k v l r), x ∈ keys n := by
  induction n with
  | null => simp [find_node] at hf
  | mk k₀ v₀ l₀ r₀ ihl ihr =>
    intro x hx
    simp only [find_node] at hf
    split_ifs at hf with h₁ h₂
    · simp [ihl hf x hx]
    · simp [ihr hf x hx]
    · rw [hf]; exact hx

/-- The subtree found by `find_node` has the ordering invariant. -/
theorem bst_find_node (n : node K V) (hb : bst n) (k : K) : bst (find_node n k) := by
  induction n with
  | null => exact trivial
  | mk k₀ v₀ l₀ r₀ ihl ihr =>
    simp only [find_node]
    split_ifs
    · exact ihl hb.2.2.1
    · exact ihr hb.2.2.2
    · exact hb

/-- The least key of the right subtree of the node holding `k` is the least
key of the whole tree above `k`. -/
theorem successor_least (n : node K V) (hb : bst n) {k : K} {v : V} {l r : node K V}
    (hf : find_node n k = node.mk k v l r) {m : K} (hm : m ∈ keys r)
    (hmin : ∀ y ∈ keys r, m ≤ y) :
    m ∈ keys n ∧ k < m ∧ ∀ x ∈ keys n, k < x → m ≤ x := by
  induction n with
  | null => simp [find_node] at hf
  | mk k₀ v₀ l₀ r₀ ihl ihr =>
    obtain ⟨hl, hr, bl, br⟩ := hb
    simp only [find_node] at hf
    split_ifs at hf with h₁ h₂
    · obtain ⟨h₃, h₄, h₅⟩ := ihl bl hf
      refine ⟨by simp [h₃], h₄, ?_⟩
      intro x hx hkx
      simp only [keys_mk, List.mem_append, List.mem_cons] at hx
      rcases hx with hx | rfl | hx
      · exact h₅ x hx hkx
      · exact le_of_lt (hl m h₃)
      · exact le_of_lt (lt_trans (hl m h₃) (hr x hx))
    · obtain ⟨h₃, h₄, h₅⟩ := ihr br hf
      refine ⟨by simp [h₃], h₄, ?_⟩
      intro x hx hkx
      simp only [keys_mk, List.mem_append, List.mem_cons] at hx
      rcases hx with hx | rfl | hx
      · exact absurd (lt_trans (hl x hx) h₂) (lt_asymm hkx)
      · exact absurd h₂ (lt_asymm hkx)
      · exact h₅ x hx hkx
    · simp only [node.mk.injEq] at hf
      obtain ⟨rfl, rfl, rfl, rfl⟩ := hf
      refine ⟨by simp [hm], hr m hm, ?_⟩
      intro x hx hkx
      simp only [keys_mk, List.mem_append, List.mem_cons] at hx
      rcases hx with hx | rfl | hx
      · exact absurd (hl x hx) (lt_asymm hkx)
      · exact absurd hkx (lt_irrefl _)
      · exact hmin x hx

/-- Removing the key of a node with two children, seen from the root: the
call returns true, decrements the counter once, and the slot of the matched
node then holds the successor pair over the old left subtree and the spliced
right subtree. -/
theorem remove_helper_at_found (n : node K V) (hb : bst n) (s : Nat) {k : K} {v : V}
    {l r : node K V} (hf : find_node n k = node.mk k v l r) (hl : l ≠ node.null)
    {m : K} {mv : V} {ml mr : node K V} (hm : find_min r = node.mk m mv ml mr) :
    ∃ n', remove_helper n s k = some (true, n', size_decr s) ∧
      find_node n' m = node.mk m mv l (splice_min r) := by
  have hbN : bst (node.mk k v l r) := by
    have := bst_find_node n hb k
    rw [hf] at this
    exact this
  have hmr : m ∈ keys r := (find_min_least r hbN.2.2.2 hm).2.1
  have hmN : m ∈ keys (node.mk k v l r) := by simp [hmr]
  induction n with
  | null => simp [find_node] at hf
  | mk k₀ v₀ l₀ r₀ ihl ihr =>
    obtain ⟨hl₀, hr₀, bl, br⟩ := hb
    by_cases h₁ : k < k₀
    · have hf' : find_node l₀ k = node.mk k v l r := by
        simpa only [find_node, if_pos h₁] using hf
      obtain ⟨l', hrm, hfind⟩ := ihl bl hf'
      refine ⟨node.mk k₀ v₀ l' r₀, by rw [remove_helper_left k₀ v₀ l₀ r₀ s h₁, hrm]; rfl, ?_⟩
      have hlt : m < k₀ := hl₀ m (keys_find_node_subset l₀ hf' m hmN)
      rw [find_node, if_pos hlt]
      exact hfind
    by_cases h₂ : k > k₀
    · have hf' : find_node r₀ k = node.mk k v l r := by
        simpa only [find_node, if_neg h₁, if_pos h₂] using hf
      obtain ⟨r', hrm, hfind⟩ := ihr br hf'
      refine ⟨node.mk k₀ v₀ l₀ r', by rw [remove_helper_right k₀ v₀ l₀ r₀ s h₂, hrm]; rfl, ?_⟩
      have hgt : k₀ < m := hr₀ m (keys_find_node_subset r₀ hf' m hmN)
      rw [find_node, if_neg (lt_asymm hgt), if_pos hgt]
      exact hfind
    · simp only [find_node, if_neg h₁, if_neg h₂, node.mk.injEq] at hf
      obtain ⟨rfl, rfl, rfl, rfl⟩ := hf
      refine ⟨node.mk m mv l₀ (splice_min r₀),
        remove_helper_two_children k₀ v₀ l₀ r₀ s hbN hl hm, ?_⟩
      simp [find_node]

/-- C16: two-children removal via the in-order successor. On a tree with the
ordering invariant, let `remove(k)` match a node `N` with both children.
Then `find_min(N.right)` is a node without left child holding the smallest
key of the tree above `k`; the recursive call on the right subtree with that
key ends on that node, returns true and splices it out; and after `remove`,
which returns true and decrements `tree_size` once, the slot of `N` holds the
successor key and value over the unchanged left subtree and the spliced right
subtree. -/
theorem two_children_removal (t : bstree K V) (k : K) (v : V) (l r : node K V)
    (hb : bst t.root) (hf : t.find k = node.mk k v l r) (hl : l ≠ node.null)
    (hr : r ≠ node.null) :
    ∃ sk sv sr, find_min r = node.mk sk sv node.null sr ∧
      (sk ∈ keys t.root ∧ k < sk ∧ ∀ x ∈ keys t.root, k < x → sk ≤ x) ∧
      find_node r sk = node.mk sk sv node.null sr ∧
      (∀ s, remove_helper r s sk = some (true, splice_min r, size_decr s)) ∧
      (∀ s, remove_helper (node.mk k v l r) s k
        = some (true, node.mk sk sv l (splice_min r), size_decr s)) ∧
      ∃ t', t.remove k = some (true, t') ∧ t'.tree_size = size_decr t.tree_size ∧
        t'.find sk = node.mk sk sv l (splice_min r) := by
  obtain ⟨sk, sv, sr, rest, hm, -⟩ := find_min_spec r hr
  have hbN : bst (node.mk k v l r) := by
    have := bst_find_node t.root hb k
    rw [show find_node t.root k = node.mk k v l r from hf] at this
    exact this
  obtain ⟨-, hmem, -, hmin⟩ := find_min_least r hbN.2.2.2 hm
  obtain ⟨n', hrm, hfind⟩ := remove_helper_at_found t.root hb t.tree_size hf hl hm
  refine ⟨sk, sv, sr, hm, successor_least t.root hb hf hmem hmin,
    find_node_find_min r hbN.2.2.2 hm,
    fun s => remove_helper_find_min r hbN.2.2.2 s hm,
    fun s => remove_helper_two_children k v l r s hbN hl hm,
    ⟨n', size_decr t.tree_size⟩, by simp only [bstree.remove, hrm], rfl, hfind⟩

theorem two_children_removal_witness :
    ∃ sk sv sr, find_min (node.mk 8 2 (node.mk 6 4 node.null
        (node.mk 7 9 node.null node.null)) node.null) = node.mk sk sv node.null sr ∧
      (sk ∈ keys (bstree.mk (node.mk 5 0 (node.mk 3 1 node.null node.null)
        (node.mk 8 2 (node.mk 6 4 node.null (node.mk 7 9 node.null node.null)) node.null)) 5
        : bstree Nat Nat).root ∧ 5 < sk ∧
        ∀ x ∈ keys (bstree.mk (node.mk 5 0 (node.mk 3 1 node.null node.null)
        (node.mk 8 2 (node.mk 6 4 node.null (node.mk 7 9 node.null node.null)) node.null)) 5
        : bstree Nat Nat).root, 5 < x → sk ≤ x) ∧
      find_node (node.mk 8 2 (node.mk 6 4 node.null
        (node.mk 7 9 node.null node.null)) node.null) sk = node.mk sk sv node.null sr ∧
      (∀ s, remove_helper (node.mk 8 2 (node.mk 6 4 node.null
        (node.mk 7 9 node.null node.null)) node.null) s sk
        = some (true, splice_min (node.mk 8 2 (node.mk 6 4 node.null
          (node.mk 7 9 node.null node.null)) node.null), size_decr s)) ∧
      (∀ s, remove_helper (node.mk 5 0 (node.mk 3 1 node.null node.null)
        (node.mk 8 2 (node.mk 6 4 node.null (node.mk 7 9 node.null node.null)) node.null)) s 5
        = some (true, node.mk sk sv (node.mk 3 1 node.null node.null)
          (splice_min (node.mk 8 2 (node.mk 6 4 node.null
            (node.mk 7 9 node.null node.null)) node.null)), size_decr s)) ∧
      ∃ t', (bstree.mk (node.mk 5 0 (node.mk 3 1 node.null node.null)
        (node.mk 8 2 (node.mk 6 4 node.null (node.mk 7 9 node.null node.null)) node.null)) 5
        : bstree Nat Nat).remove 5 = some (true, t') ∧ t'.tree_size = size_decr 5 ∧
        t'.find sk = node.mk sk sv (node.mk 3 1 node.null node.null)
          (splice_min (node.mk 8 2 (node.mk 6 4 node.null
            (node.mk 7 9 node.null node.null)) node.null)) :=
  two_children_removal (bstree.mk (node.mk 5 0 (node.mk 3 1 node.null node.null)
      (node.mk 8 2 (node.mk 6 4 node.null (node.mk 7 9 node.null node.null)) node.null)) 5
      : bstree Nat Nat) 5 0 (node.mk 3 1 node.null node.null)
    (node.mk 8 2 (node.mk 6 4 node.null (node.mk 7 9 node.null node.null)) node.null)
    (by decide) (by decide) (by decide) (by decide)

end successor

/-! ## Height bounds and degenerate trees -/

section bounds

variable {K V : Type}

theorem height_helper_le_count (n : node K V) : height_helper n ≤ count n := by
  induction n with
  | null => exact Nat.le_refl _
  | mk k v l r ihl ihr =>
    simp only [height_helper, count, Nat.max_def]
    split_ifs <;> omega

theorem count_lt_two_pow_height (n : node K V) : count n + 1 ≤ 2 ^ height_helper n := by
  induction n with
  | null => simp [count, height_helper]
  | mk k v l r ihl ihr =>
    have hl : 2 ^ height_helper l ≤ 2 ^ Nat.max (height_helper l) (height_helper r) :=
      Nat.pow_le_pow_right (by decide) (Nat.le_max_left _ _)
    have hr : 2 ^ height_helper r ≤ 2 ^ Nat.max (height_helper l) (height_helper r) :=
      Nat.pow_le_pow_right (by decide) (Nat.le_max_right _ _)
    simp only [height_helper, count]
    rw [Nat.add_comm 1, Nat.pow_succ]
    omega

theorem chain_right_chain (ps : List (K × V)) : chain (right_chain ps) := by
  induction ps with
  | nil => exact trivial
  | cons p ps ih => exact ⟨Or.inl rfl, trivial, ih⟩

theorem chain_left_chain (ps : List (K × V)) : chain (left_chain ps) := by
  induction ps with
  | nil => exact trivial
  | cons p ps ih => exact ⟨Or.inr rfl, ih, trivial⟩

theorem height_right_chain (ps : List (K × V)) :
    height_helper (right_chain ps) = ps.length := by
  induction ps with
  | nil => rfl
  | cons p ps ih =>
    simp only [right_chain, height_helper, ih, List.length_cons, Nat.max_def]
    split_ifs <;> omega

theorem height_left_chain (ps : List (K × V)) :
    height_helper (left_chain ps) = ps.length := by
  induction ps with
  | nil => rfl
  | cons p ps ih =>
    simp only [left_chain, height_helper, ih, List.length_cons, Nat.max_def]
    split_ifs <;> omega

theorem height_splice_le (k : K) (v : V) (l l' r r' : node K V)
    (hl : height_helper l' ≤ height_helper l) (hr : height_helper r' ≤ height_helper r) :
    height_helper (node.mk k v l' r') ≤ height_helper (node.mk k v l r) := by
  simp only [height_helper, Nat.max_def]
  split_ifs <;> omega

variable [LinearOrder K]

/-- The helper `insert_helper` keeps the height or adds one to it. -/
theorem insert_helper_height (n : node K V) (s : Nat) (key : K) (value : V) :
    height_helper (insert_helper n s key value).2.1 = height_helper n ∨
      height_helper (insert_helper n s key value).2.1 = height_helper n + 1 := by
  induction n with
  | null => right; simp [insert_helper, height_helper]
  | mk k v l r ihl ihr =>
    simp only [insert_helper]
    split_ifs with h₁ h₂
    · simp only [height_helper, Nat.max_def]
      rcases ihl with h | h <;> rw [h] <;> split_ifs <;> omega
    · simp only [height_helper, Nat.max_def]
      rcases ihr with h | h <;> rw [h] <;> split_ifs <;> omega
    · exact Or.inl rfl

/-- Whatever `remove_helper` returns is no higher than the tree it was given. -/
theorem remove_helper_height (n : node K V) :
    ∀ (s : Nat) (key : K) (b : Bool) (n' : node K V) (s' : Nat),
      remove_helper n s key = some (b, n', s') → height_helper n' ≤ height_helper n := by
  induction n with
  | null =>
    intro s key b n' s' h
    simp only [remove_helper, Option.some.injEq, Prod.mk.injEq] at h
    rw [← h.2.1]
  | mk k v l r ihl ihr =>
    intro s key b n' s' h
    by_cases h₁ : key < k
    · simp only [remove_helper, if_pos h₁] at h
      cases hrec : remove_helper l s key with
      | none => rw [hrec] at h; exact Option.noConfusion h
      | some res =>
        obtain ⟨b₀, l', s₀⟩ := res
        rw [hrec] at h
        simp only [Option.some.injEq, Prod.mk.injEq] at h
        rw [← h.2.1]
        exact height_splice_le k v l l' r r (ihl s key b₀ l' s₀ hrec) (Nat.le_refl _)
    by_cases h₂ : key > k
    · simp only [remove_helper, if_neg h₁, if_pos h₂] at h
      cases hrec : remove_helper r s key with
      | none => rw [hrec] at h; exact Option.noConfusion h
      | some res =>
        obtain ⟨b₀, r', s₀⟩ := res
        rw [hrec] at h
        simp only [Option.some.injEq, Prod.mk.injEq] at h
        rw [← h.2.1]
        exact height_splice_le k v l l r r' (Nat.le_refl _) (ihr s key b₀ r' s₀ hrec)
    cases l with
    | null =>
      simp only [remove_helper, if_neg h₁, if_neg h₂, Option.some.injEq, Prod.mk.injEq] at h
      rw [← h.2.1]
      simp only [height_helper, Nat.max_def]
      split_ifs <;> omega
    | mk lk lv ll lr =>
      cases r with
      | null =>
        simp only [remove_helper, if_neg h₁, if_neg h₂, Option.some.injEq, Prod.mk.injEq] at h
        rw [← h.2.1]
        simp only [height_helper, Nat.max_def]
        split_ifs <;> omega
      | mk rk rv rl rr =>
        rw [remove_helper, if_neg h₁, if_neg h₂] at h
        cases hm : find_min (node.mk rk rv rl rr) with
        | null => rw [hm] at h; exact Option.noConfusion h
        | mk sk sv sl sr =>
          rw [hm] at h
          dsimp only at h
          cases hrec : remove_helper (node.mk rk rv rl rr) s sk with
          | none => rw [hrec] at h; exact Option.noConfusion h
          | some res =>
            obtain ⟨b₀, r', s₀⟩ := res
            rw [hrec] at h
            simp only [Option.some.injEq, Prod.mk.injEq] at h
            rw [← h.2.1]
            have := ihr s sk b₀ r' s₀ hrec
            simp only [height_helper, Nat.max_def] at this ⊢
            split_ifs at this ⊢ <;> omega

/-- C20: height bounds and monotonicity. A tree with `n` nodes has
`height() ≤ n` and `n ≤ 2 ^ height() - 1`; on a tree with the ordering
invariant `insert` leaves `height()` as it is or adds one, and `remove`
returns a tree that is no higher. -/
theorem height_bounds (u t : bstree K V) (key : K) (value : V) (key' : K)
    (hb : bst t.root) :
    (u.height ≤ count u.root ∧ count u.root ≤ 2 ^ u.height - 1) ∧
    ((t.insert key value).2.height = t.height ∨
      (t.insert key value).2.height = t.height + 1) ∧
    ∃ b t', t.remove key' = some (b, t') ∧ t'.height ≤ t.height := by
  refine ⟨⟨height_helper_le_count u.root, ?_⟩,
    insert_helper_height t.root t.tree_size key value, ?_⟩
  · have := count_lt_two_pow_height u.root
    simp only [bstree.height]
    omega
  · obtain ⟨b, n', he, -⟩ := remove_helper_spec t.root hb t.tree_size key'
    refine ⟨b, ⟨n', if b = true then size_decr t.tree_size else t.tree_size⟩,
      by simp only [bstree.remove, he], ?_⟩
    exact remove_helper_height t.root t.tree_size key' b n' _ he

theorem height_bounds_witness :
    ((bstree.mk (node.mk 5 0 (node.mk 3 1 node.null node.null)
        (node.mk 8 2 node.null node.null)) 3 : bstree Nat Nat).height ≤ 3 ∧
      3 ≤ 2 ^ (bstree.mk (node.mk 5 0 (node.mk 3 1 node.null node.null)
        (node.mk 8 2 node.null node.null)) 3 : bstree Nat Nat).height - 1) ∧
    (((bstree.mk (node.mk 5 0 (node.mk 3 1 node.null node.null)
        (node.mk 8 2 node.null node.null)) 3 : bstree Nat Nat).insert 4 7).2.height = 2 ∨
      ((bstree.mk (node.mk 5 0 (node.mk 3 1 node.null node.null)
        (node.mk 8 2 node.null node.null)) 3 : bstree Nat Nat).insert 4 7).2.height = 2 + 1) ∧
    ∃ b t', (bstree.mk (node.mk 5 0 (node.mk 3 1 node.null node.null)
        (node.mk 8 2 node.null node.null)) 3 : bstree Nat Nat).remove 5 = some (b, t') ∧
      t'.height ≤ 2 :=
  height_bounds (bstree.mk (node.mk 5 0 (node.mk 3 1 node.null node.null)
      (node.mk 8 2 node.null node.null)) 3 : bstree Nat Nat)
    (bstree.mk (node.mk 5 0 (node.mk 3 1 node.null node.null)
      (node.mk 8 2 node.null node.null)) 3 : bstree Nat Nat) 4 7 5 (by decide)

/-- Inserting a key above all keys of a right chain extends the chain. -/
theorem insert_helper_right_chain (qs : List (K × V)) (s : Nat) (key : K) (value : V)
    (h : ∀ q ∈ qs, q.1 < key) :
    insert_helper (right_chain qs) s key value
      = (true, right_chain (qs ++ [(key, value)]), size_incr s) := by
  induction qs with
  | nil => rfl
  | cons q qs ih =>
    obtain ⟨a, b⟩ := q
    have ha : a < key := h (a, b) (by simp)
    have ih' := ih (fun q hq => h q (by simp [hq]))
    simp only [right_chain, insert_helper, if_neg (lt_asymm ha), List.cons_append]
    rw [if_pos ha, ih']
    rfl

/-- Inserting a key below all keys of a left chain extends the chain. -/
theorem insert_helper_left_chain (qs : List (K × V)) (s : Nat) (key : K) (value : V)
    (h : ∀ q ∈ qs, key < q.1) :
    insert_helper (left_chain qs) s key value
      = (true, left_chain (qs ++ [(key, value)]), size_incr s) := by
  induction qs with
  | nil => rfl
  | cons q qs ih =>
    obtain ⟨a, b⟩ := q
    have ha : key < a := h (a, b) (by simp)
    have ih' := ih (fun q hq => h q (by simp [hq]))
    simp only [left_chain, insert_helper, List.cons_append]
    rw [if_pos ha, ih']
    rfl

theorem size_incr_add (s n : Nat) :
    (size_incr s + n) % SIZE_MOD = (s + (n + 1)) % SIZE_MOD := by
  unfold size_incr SIZE_MOD
  omega

/-- Inserting strictly increasing keys, all above the keys of a right chain,
extends the chain by the inserted pairs in order. -/
theorem insert_all_right_chain (ps : List (K × V)) :
    ∀ (qs : List (K × V)) (s : Nat), s < SIZE_MOD → (∀ q ∈ qs, ∀ p ∈ ps, q.1 < p.1) →
      (ps.map Prod.fst).Pairwise (· < ·) →
      (insert_all (bstree.mk (right_chain qs) s) ps).2
        = bstree.mk (right_chain (qs ++ ps)) ((s + ps.length) % SIZE_MOD) ∧
      ∀ b ∈ (insert_all (bstree.mk (right_chain qs) s) ps).1, b = true := by
  induction ps with
  | nil => intro qs s hfit _ _; simp [insert_all, Nat.mod_eq_of_lt hfit]
  | cons p ps ih =>
    obtain ⟨k, v⟩ := p
    intro qs s _ hlt hs
    rw [List.map_cons, List.pairwise_cons] at hs
    have hi : (bstree.mk (right_chain qs) s).insert k v
        = (true, bstree.mk (right_chain (qs ++ [(k, v)])) (size_incr s)) := by
      rw [insert_eq, insert_helper_right_chain qs s k v (fun q hq => hlt q hq (k, v) (by simp))]
    have hlt' : ∀ q ∈ qs ++ [(k, v)], ∀ p ∈ ps, q.1 < p.1 := by
      intro q hq p hp
      rw [List.mem_append, List.mem_singleton] at hq
      rcases hq with hq | rfl
      · exact hlt q hq p (by simp [hp])
      · exact hs.1 p.1 (List.mem_map_of_mem Prod.fst hp)
    obtain ⟨h₁, h₂⟩ := ih (qs ++ [(k, v)]) (size_incr s)
      (Nat.mod_lt _ (by unfold SIZE_MOD; decide)) hlt' hs.2
    simp only [insert_all, hi]
    refine ⟨?_, ?_⟩
    · rw [h₁]
      simp only [List.append_assoc, List.singleton_append, List.length_cons,
        bstree.mk.injEq, true_and]
      exact size_incr_add s ps.length
    · intro b hb
      rw [List.mem_cons] at hb
      rcases hb with rfl | hb
      · rfl
      · exact h₂ b hb

/-- Inserting strictly decreasing keys, all below the keys of a left chain,
extends the chain by the inserted pairs in order. -/
theorem insert_all_left_chain (ps : List (K × V)) :
    ∀ (qs : List (K × V)) (s : Nat), s < SIZE_MOD → (∀ q ∈ qs, ∀ p ∈ ps, p.1 < q.1) →
      (ps.map Prod.fst).Pairwise (· > ·) →
      (insert_all (bstree.mk (left_chain qs) s) ps).2
        = bstree.mk (left_chain (qs ++ ps)) ((s + ps.length) % SIZE_MOD) ∧
      ∀ b ∈ (insert_all (bstree.mk (left_chain qs) s) ps).1, b = true := by
  induction ps with
  | nil => intro qs s hfit _ _; simp [insert_all, Nat.mod_eq_of_lt hfit]
  | cons p ps ih =>
    obtain ⟨k, v⟩ := p
    intro qs s _ hlt hs
    rw [List.map_cons, List.pairwise_cons] at hs
    have hi : (bstree.mk (left_chain qs) s).insert k v
        = (true, bstree.mk (left_chain (qs ++ [(k, v)])) (size_incr s)) := by
      rw [insert_eq, insert_helper_left_chain qs s k v (fun q hq => hlt q hq (k, v) (by simp))]
    have hlt' : ∀ q ∈ qs ++ [(k, v)], ∀ p ∈ ps, p.1 < q.1 := by
      intro q hq p hp
      rw [List.mem_append, List.mem_singleton] at hq
      rcases hq with hq | rfl
      · exact hlt q hq p (by simp [hp])
      · exact hs.1 p.1 (List.mem_map_of_mem Prod.fst hp)
    obtain ⟨h₁, h₂⟩ := ih (qs ++ [(k, v)]) (size_incr s)
      (Nat.mod_lt _ (by unfold SIZE_MOD; decide)) hlt' hs.2
    simp only [insert_all, hi]
    refine ⟨?_, ?_⟩
    · rw [h₁]
      simp only [List.append_assoc, List.singleton_append, List.length_cons,
        bstree.mk.injEq, true_and]
      exact size_incr_add s ps.length
    · intro b hb
      rw [List.mem_cons] at hb
      rcases hb with rfl | hb
      · rfl
      · exact h₂ b hb

/-- C18: no rebalancing, sorted insertion degenerates. Inserting `n` pairs
with strictly increasing keys into an empty tree gives the chain of right
children holding them in order, and inserting `n` pairs with strictly
decreasing keys gives the chain of left children: every insert returns true,
every node has at most one child, and `height() = size() = n` (`n` being a
`size_t` value). -/
theorem sorted_insertion_degenerates (ps qs : List (K × V))
    (hinc : (ps.map Prod.fst).Pairwise (· < ·)) (hdec : (qs.map Prod.fst).Pairwise (· > ·))
    (hps : ps.length < SIZE_MOD) (hqs : qs.length < SIZE_MOD) :
    ((∀ b ∈ (insert_all (bstree.construct : bstree K V) ps).1, b = true) ∧
      (insert_all (bstree.construct : bstree K V) ps).2.root = right_chain ps ∧
      chain (insert_all (bstree.construct : bstree K V) ps).2.root ∧
      (insert_all (bstree.construct : bstree K V) ps).2.height = ps.length ∧
      (insert_all (bstree.construct : bstree K V) ps).2.size = ps.length) ∧
    ((∀ b ∈ (insert_all (bstree.construct : bstree K V) qs).1, b = true) ∧
      (insert_all (bstree.construct : bstree K V) qs).2.root = left_chain qs ∧
      chain (insert_all (bstree.construct : bstree K V) qs).2.root ∧
      (insert_all (bstree.construct : bstree K V) qs).2.height = qs.length ∧
      (insert_all (bstree.construct : bstree K V) qs).2.size = qs.length) := by
  have hsz : ∀ n : Nat, n < SIZE_MOD → (0 + n) % SIZE_MOD = n := by
    intro n hn
    rw [Nat.zero_add, Nat.mod_eq_of_lt hn]
  have h0 : 0 < SIZE_MOD := by unfold SIZE_MOD; decide
  constructor
  · obtain ⟨h₁, h₂⟩ := insert_all_right_chain ps [] 0 h0 (by simp) hinc
    have h₁' : (insert_all (bstree.construct : bstree K V) ps).2
        = bstree.mk (right_chain ps) ((0 + ps.length) % SIZE_MOD) := h₁
    refine ⟨h₂, ?_, ?_, ?_, ?_⟩
    · rw [h₁']
    · rw [h₁']; exact chain_right_chain ps
    · rw [h₁']; exact height_right_chain ps
    · rw [h₁']; exact hsz _ hps
  · obtain ⟨h₁, h₂⟩ := insert_all_left_chain qs [] 0 h0 (by simp) hdec
    have h₁' : (insert_all (bstree.construct : bstree K V) qs).2
        = bstree.mk (left_chain qs) ((0 + qs.length) % SIZE_MOD) := h₁
    refine ⟨h₂, ?_, ?_, ?_, ?_⟩
    · rw [h₁']
    · rw [h₁']; exact chain_left_chain qs
    · rw [h₁']; exact height_left_chain qs
    · rw [h₁']; exact hsz _ hqs

theorem sorted_insertion_degenerates_witness :
    ((insert_all (bstree.construct : bstree Nat Nat) [(1, 0), (2, 0), (4, 0)]).2.root
        = right_chain [(1, 0), (2, 0), (4, 0)] ∧
      (insert_all (bstree.construct : bstree Nat Nat) [(1, 0), (2, 0), (4, 0)]).2.height = 3 ∧
      (insert_all (bstree.construct : bstree Nat Nat) [(1, 0), (2, 0), (4, 0)]).2.size = 3) ∧
    ((insert_all (bstree.construct : bstree Nat Nat) [(9, 0), (7, 0), (4, 0)]).2.root
        = left_chain [(9, 0), (7, 0), (4, 0)] ∧
      (insert_all (bstree.construct : bstree Nat Nat) [(9, 0), (7, 0), (4, 0)]).2.height = 3 ∧
      (insert_all (bstree.construct : bstree Nat Nat) [(9, 0), (7, 0), (4, 0)]).2.size = 3) :=
  have h := sorted_insertion_degenerates [((1 : Nat), (0 : Nat)), (2, 0), (4, 0)]
    [(9, 0), (7, 0), (4, 0)] (by decide) (by decide) (by decide) (by decide)
  ⟨⟨h.1.2.1, h.1.2.2.2.1, h.1.2.2.2.2⟩, ⟨h.2.2.1, h.2.2.2.2.1, h.2.2.2.2.2⟩⟩

end bounds

/-! ## The documented scenario -/

/-- C14: the concrete scenario. Inserting (5,"a"), (3,"b"), (8,"c"), (1,"d"),
(4,"e") into an empty tree gives the in-order sequence
(1,"d"), (3,"b"), (4,"e"), (5,"a"), (8,"c"), height 3, minimum 1 and maximum
8; `remove(3)` then returns true and leaves size 4 and the in-order sequence
(1,"d"), (4,"e"), (5,"a"), (8,"c"); a second `remove(3)` returns false and
`insert(5,"z")` returns false, both leaving the state as it was, and `find(5)`
still holds "a". -/
theorem documented_scenario :
    ∃ t₅ t₄ : bstree Int String,
      insert_all (bstree.construct : bstree Int String)
        [(5, "a"), (3, "b"), (8, "c"), (1, "d"), (4, "e")]
        = ([true, true, true, true, true], t₅) ∧
      t₅.inorder = [(1, "d"), (3, "b"), (4, "e"), (5, "a"), (8, "c")] ∧
      t₅.size = 5 ∧ t₅.height = 3 ∧ t₅.min = some 1 ∧ t₅.max = some 8 ∧
      t₅.remove 3 = some (true, t₄) ∧ t₄.size = 4 ∧
      t₄.inorder = [(1, "d"), (4, "e"), (5, "a"), (8, "c")] ∧
      t₄.remove 3 = some (false, t₄) ∧
      t₄.insert 5 "z" = (false, t₄) ∧
      (∃ l r, (t₄.insert 5 "z").2.find 5 = node.mk 5 "a" l r) :=
  ⟨_, _, rfl, rfl, rfl, rfl, rfl, rfl, rfl, rfl, rfl, rfl, rfl, _, _, rfl⟩

/-! ## The free store: reading, writing and the representation of a tree -/

section memory_lemmas

variable {K V : Type}

theorem heap_read_write (h : heap K V) (a b : Nat) (c : cell K V) :
    heap_read (heap_write h a c) b = if b = a then some c else heap_read h b := rfl

theorem heap_read_write_same (h : heap K V) (a : Nat) (c : cell K V) :
    heap_read (heap_write h a c) a = some c := by
  simp [heap_read_write]

theorem heap_read_write_other (h : heap K V) {a b : Nat} (c : cell K V) (hne : b ≠ a) :
    heap_read (heap_write h a c) b = heap_read h b := by
  simp [heap_read_write, hne]

theorem heap_read_free (h : heap K V) (a b : Nat) :
    heap_read (heap_free h a) b = if b = a then none else heap_read h b := by
  induction h with
  | nil => simp [heap_free, heap_read]
  | cons e h ih =>
    obtain ⟨x, c⟩ := e
    by_cases hax : a = x
    · subst hax
      simp only [heap_free, if_true, ih, heap_read]
      by_cases hba : b = a <;> simp [hba]
    · simp only [heap_free, if_neg hax, heap_read, ih]
      by_cases hbx : b = x
      · subst hbx
        simp [Ne.symm hax]
      · simp [hbx]

theorem heap_read_above (h : heap K V) :
    ∀ a, next_address h ≤ a → heap_read h a = none := by
  induction h with
  | nil => intro a _; rfl
  | cons e h ih =>
    obtain ⟨x, c⟩ := e
    intro a ha
    simp only [next_address, Nat.max_def] at ha
    have h₁ : a ≠ x := by split_ifs at ha <;> omega
    have h₂ : next_address h ≤ a := by split_ifs at ha <;> omega
    simp [heap_read, h₁, ih a h₂]

/-- The address handed out by `next_address` holds no live object. -/
theorem next_address_fresh (h : heap K V) : heap_read h (next_address h) = none :=
  heap_read_above h _ (Nat.le_refl _)

/-- Every address of a represented tree holds a live object. -/
theorem repr_live {h : heap K V} {p : Option Nat} {t : node K V} {s : Set Nat}
    (hr : repr h p t s) : ∀ a ∈ s, heap_read h a ≠ none := by
  induction hr with
  | null => intro a ha; exact absurd ha (Set.not_mem_empty a)
  | mk hread _ _ _ _ _ ihl ihr =>
    intro x hx
    rcases hx with rfl | hx | hx
    · rw [hread]; simp
    · exact ihl x hx
    · exact ihr x hx

/-- A tree stays represented when the objects at its addresses stay as they
are. -/
theorem repr_frame {h h' : heap K V} {p : Option Nat} {t : node K V} {s : Set Nat}
    (hr : repr h p t s) (hsame : ∀ a ∈ s, heap_read h' a = heap_read h a) :
    repr h' p t s := by
  induction hr with
  | null => exact repr.null
  | @mk a k v pl pr l r sl sr hread _ _ hal har hdis ihl ihr =>
    refine repr.mk ?_ (ihl fun x hx => hsame x (Or.inr (Or.inl hx)))
      (ihr fun x hx => hsame x (Or.inr (Or.inr hx))) hal har hdis
    rw [hsame a (Or.inl rfl)]
    exact hread

theorem repr_none {h : heap K V} {t : node K V} {s : Set Nat} (hr : repr h none t s) :
    t = node.null ∧ s = ∅ := by
  cases hr
  exact ⟨rfl, rfl⟩

theorem repr_some {h : heap K V} {a : Nat} {t : node K V} {s : Set Nat}
    (hr : repr h (some a) t s) : t ≠ node.null ∧ a ∈ s := by
  cases hr
  exact ⟨by simp, Or.inl rfl⟩

/-- With enough fuel `inorder_mem` prints the in-order sequence of the
represented tree. -/
theorem inorder_mem_spec {h : heap K V} {p : Option Nat} {t : node K V} {s : Set Nat}
    (hr : repr h p t s) :
    ∀ fuel, height_helper t < fuel → inorder_mem fuel h p = some (inorder_helper t) := by
  induction hr with
  | null =>
    intro fuel hf
    cases fuel with
    | zero => omega
    | succ f => rfl
  | @mk a k v pl pr l r sl sr hread _ _ _ _ _ ihl ihr =>
    intro fuel hf
    cases fuel with
    | zero => omega
    | succ f =>
      have hl : height_helper l < f := by
        simp only [height_helper, Nat.max_def] at hf
        split_ifs at hf <;> omega
      have hr' : height_helper r < f := by
        simp only [height_helper, Nat.max_def] at hf
        split_ifs at hf <;> omega
      simp [inorder_mem, hread, ihl f hl, ihr f hr', inorder_helper]

theorem height_lt_of_mk {k : K} {v : V} {l r : node K V} {f : Nat}
    (hf : height_helper (node.mk k v l r) < f + 1) :
    height_helper l < f ∧ height_helper r < f := by
  simp only [height_helper, Nat.max_def] at hf
  constructor <;> split_ifs at hf <;> omega

/-- With enough fuel `preorder_mem` prints the pre-order sequence of the
represented tree. -/
theorem preorder_mem_spec {h : heap K V} {p : Option Nat} {t : node K V} {s : Set Nat}
    (hr : repr h p t s) :
    ∀ fuel, height_helper t < fuel → preorder_mem fuel h p = some (preorder_helper t) := by
  induction hr with
  | null =>
    intro fuel hf
    cases fuel with
    | zero => omega
    | succ f => rfl
  | @mk a k v pl pr l r sl sr hread _ _ _ _ _ ihl ihr =>
    intro fuel hf
    cases fuel with
    | zero => omega
    | succ f =>
      obtain ⟨hl, hr'⟩ := height_lt_of_mk hf
      simp [preorder_mem, hread, ihl f hl, ihr f hr', preorder_helper]

/-- With enough fuel `postorder_mem` prints the post-order sequence of the
represented tree. -/
theorem postorder_mem_spec {h : heap K V} {p : Option Nat} {t : node K V} {s : Set Nat}
    (hr : repr h p t s) :
    ∀ fuel, height_helper t < fuel → postorder_mem fuel h p = some (postorder_helper t) := by
  induction hr with
  | null =>
    intro fuel hf
    cases fuel with
    | zero => omega
    | succ f => rfl
  | @mk a k v pl pr l r sl sr hread _ _ _ _ _ ihl ihr =>
    intro fuel hf
    cases fuel with
    | zero => omega
    | succ f =>
      obtain ⟨hl, hr'⟩ := height_lt_of_mk hf
      simp [postorder_mem, hread, ihl f hl, ihr f hr', postorder_helper]

theorem forall₂_push {h : heap K V} {ps : List (Option Nat)} {ts : List (node K V)}
    (hq : List.Forall₂ (fun p t => ∃ s, repr h p t s) ps ts)
    {p : Option Nat} {t : node K V} {s : Set Nat} (hr : repr h p t s) :
    List.Forall₂ (fun p t => ∃ s, repr h p t s) (push_ptr ps p) (push_if ts t) := by
  cases hr with
  | null => exact hq
  | mk hread hl hr' hal har hdis =>
    simp only [push_ptr, push_if]
    exact List.rel_append hq (List.Forall₂.cons ⟨_, repr.mk hread hl hr' hal har hdis⟩
      List.Forall₂.nil)

/-- With enough fuel the queue loop in memory prints what the loop prints on
the represented trees. -/
theorem level_order_loop_mem_spec {h : heap K V} :
    ∀ (fuel : Nat) (ps : List (Option Nat)) (ts : List (node K V)),
      List.Forall₂ (fun p t => ∃ s, repr h p t s) ps ts → queue_weight ts < fuel →
      level_order_loop_mem fuel h ps = level_order_loop ts := by
  intro fuel
  induction fuel with
  | zero => intro ps ts _ hf; omega
  | succ f ih =>
    intro ps ts hq hf
    cases hq with
    | nil => rw [level_order_loop]; rfl
    | @cons p t ps' ts' hpt hrest =>
      obtain ⟨s, hr⟩ := hpt
      cases hr with
      | null => rw [level_order_loop]; rfl
      | @mk a k v pl pr l r sl sr hread hl hr' hal har hdis =>
        have hw : queue_weight (push_if (push_if ts' l) r) < f := by
          rw [queue_weight_push_if, queue_weight_push_if]
          simp only [queue_weight, count] at hf
          omega
        have := ih _ _ (forall₂_push (forall₂_push hrest hl) hr') hw
        rw [level_order_loop]
        simp only [level_order_loop_mem, hread, Option.bind_eq_bind, Option.some_bind, this]
        cases level_order_loop (push_if (push_if ts' l) r) <;> rfl

/-- With enough fuel `level_order_mem` prints what `level_order_helper` prints
on the represented tree. -/
theorem level_order_mem_spec {h : heap K V} {p : Option Nat} {t : node K V} {s : Set Nat}
    (hr : repr h p t s) (fuel : Nat) (hf : count t < fuel) :
    level_order_mem fuel h p = level_order_helper t := by
  cases hr with
  | null => rfl
  | mk hread hl hr' hal har hdis =>
    simp only [level_order_mem, level_order_helper]
    exact level_order_loop_mem_spec fuel _ _
      (List.Forall₂.cons ⟨_, repr.mk hread hl hr' hal har hdis⟩ List.Forall₂.nil)
      (by simpa [queue_weight] using hf)

/-- The node returned by `find_min_mem` is the one `find_min` returns. -/
theorem find_min_mem_spec {h : heap K V} {p : Option Nat} {t : node K V} {s : Set Nat}
    (hr : repr h p t s) :
    ∀ fuel, height_helper t < fuel →
      (t = node.null → find_min_mem fuel h p = some none) ∧
      (t ≠ node.null → ∃ a c ml mr, find_min_mem fuel h p = some (some a) ∧ a ∈ s ∧
        heap_read h a = some c ∧ find_min t = node.mk c.key c.value ml mr) := by
  induction hr with
  | null =>
    intro fuel hf
    cases fuel with
    | zero => omega
    | succ f => exact ⟨fun _ => rfl, fun hne => absurd rfl hne⟩
  | @mk a k v pl pr l r sl sr hread hl _ _ _ _ ihl ihr =>
    intro fuel hf
    cases fuel with
    | zero => omega
    | succ f =>
      obtain ⟨hfl, -⟩ := height_lt_of_mk hf
      refine ⟨fun h0 => by simp at h0, fun _ => ?_⟩
      cases hl with
      | null =>
        exact ⟨a, ⟨k, v, none, pr⟩, node.null, r, by simp [find_min_mem, hread],
          Or.inl rfl, hread, by simp [find_min]⟩
      | @mk a' k' v' pl' pr' l' r' sl' sr' hread' hl' hr' hal' har' hdis' =>
        obtain ⟨b, c, ml, mr, hfm, hb, hrb, hmin⟩ := (ihl f hfl).2 (by simp)
        refine ⟨b, c, ml, mr, ?_, Or.inr (Or.inl hb), hrb, ?_⟩
        · simp only [find_min_mem, hread, Option.bind_eq_bind, Option.some_bind]
          exact hfm
        · rw [find_min]; exact hmin

/-- The helper `copy_tree` in memory, with enough fuel and an allocator that
hands out free addresses: it builds the same tree in objects that were free,
and leaves every live object as it was. -/
theorem copy_tree_mem_spec (alloc : heap K V → Nat)
    (hfresh : ∀ h, heap_read h (alloc h) = none) :
    ∀ (t : node K V) (fuel : Nat) (h : heap K V) (p : Option Nat) (s : Set Nat),
      repr h p t s → height_helper t < fuel →
      ∃ h' q s', copy_tree_mem alloc fuel h p = some (h', q) ∧ repr h' q t s' ∧
        (∀ a, heap_read h a ≠ none → heap_read h' a = heap_read h a) ∧
        (∀ a ∈ s', heap_read h a = none) := by
  intro t
  induction t with
  | null =>
    intro fuel h p s hr hf
    cases hr
    cases fuel with
    | zero => omega
    | succ f => exact ⟨h, none, ∅, rfl, repr.null, fun _ _ => rfl, fun a ha => absurd ha (by simp)⟩
  | mk k v l r ihl ihr =>
    intro fuel h p s hr hf
    cases fuel with
    | zero => omega
    | succ f =>
      obtain ⟨hfl, hfr⟩ := height_lt_of_mk hf
      cases hr with
      | @mk a _ _ pl pr _ _ sl sr hread hl hr' hal har hdis =>
        have hb := hfresh h
        have hab : a ≠ alloc h := by
          intro he
          rw [he, hb] at hread
          exact Option.noConfusion hread
        have live_ne : ∀ x, heap_read h x ≠ none → x ≠ alloc h := by
          intro x hx he
          rw [he] at hx
          exact hx hb
        have r1a : heap_read (heap_write h (alloc h) ⟨k, v, none, none⟩) a
            = some ⟨k, v, pl, pr⟩ := by
          rw [heap_read_write_other _ _ hab, hread]
        have hl₁ : repr (heap_write h (alloc h) ⟨k, v, none, none⟩) pl l sl :=
          repr_frame hl (fun x hx =>
            heap_read_write_other _ _ (live_ne x (repr_live hl x hx)))
        obtain ⟨h₂, ql, sl', hc₂, hr₂, fr₂, new₂⟩ := ihl f _ pl sl hl₁ hfl
        have r2b : heap_read h₂ (alloc h) = some ⟨k, v, none, none⟩ := by
          rw [fr₂ _ (by rw [heap_read_write_same]; simp), heap_read_write_same]
        have r2a : heap_read h₂ a = some ⟨k, v, pl, pr⟩ := by
          rw [fr₂ _ (by rw [r1a]; simp), r1a]
        have r3a : heap_read (heap_write h₂ (alloc h) ⟨k, v, ql, none⟩) a
            = some ⟨k, v, pl, pr⟩ := by
          rw [heap_read_write_other _ _ hab, r2a]
        have old₃ : ∀ x, heap_read h x ≠ none →
            heap_read (heap_write h₂ (alloc h) ⟨k, v, ql, none⟩) x = heap_read h x := by
          intro x hx
          have hne := live_ne x hx
          rw [heap_read_write_other _ _ hne, fr₂ x (by
            rw [heap_read_write_other _ _ hne]; exact hx), heap_read_write_other _ _ hne]
        have hr₃ : repr (heap_write h₂ (alloc h) ⟨k, v, ql, none⟩) pr r sr :=
          repr_frame hr' (fun x hx => old₃ x (repr_live hr' x hx))
        obtain ⟨h₄, qr, sr', hc₄, hr₄, fr₄, new₄⟩ := ihr f _ pr sr hr₃ hfr
        have r4b : heap_read h₄ (alloc h) = some ⟨k, v, ql, none⟩ := by
          rw [fr₄ _ (by rw [heap_read_write_same]; simp), heap_read_write_same]
        have nel : ∀ x ∈ sl', x ≠ alloc h := by
          intro x hx he
          have := new₂ x hx
          rw [he, heap_read_write_same] at this
          exact Option.noConfusion this
        have ner : ∀ x ∈ sr', x ≠ alloc h := by
          intro x hx he
          have := new₄ x hx
          rw [he, heap_read_write_same] at this
          exact Option.noConfusion this
        have live₃ : ∀ x ∈ sl',
            heap_read (heap_write h₂ (alloc h) ⟨k, v, ql, none⟩) x = heap_read h₂ x :=
          fun x hx => heap_read_write_other _ _ (nel x hx)
        refine ⟨heap_write h₄ (alloc h) ⟨k, v, ql, qr⟩, some (alloc h), insert (alloc h) (sl' ∪ sr'),
          ?_, ?_, ?_, ?_⟩
        · simp only [copy_tree_mem, Option.bind_eq_bind, Option.some_bind, hread, r1a, hc₂,
            r2b, r3a, hc₄, r4b, Option.pure_def]
        · refine repr.mk (heap_read_write_same _ _ _) ?_ ?_ (fun hx => nel _ hx rfl)
            (fun hx => ner _ hx rfl) ?_
          · refine repr_frame hr₂ (fun x hx => ?_)
            rw [heap_read_write_other _ _ (nel x hx), fr₄ x (by
              rw [live₃ x hx]; exact repr_live hr₂ x hx), live₃ x hx]
          · exact repr_frame hr₄ (fun x hx => heap_read_write_other _ _ (ner x hx))
          · intro x hxl hxr
            have h1 := new₄ x hxr
            rw [live₃ x hxl] at h1
            exact repr_live hr₂ x hxl h1
        · intro x hx
          rw [heap_read_write_other _ _ (live_ne x hx), fr₄ x (by rw [old₃ x hx]; exact hx),
            old₃ x hx]
        · intro x hx
          rcases hx with rfl | hx | hx
          · exact hb
          · have h1 := new₂ x hx
            rwa [heap_read_write_other _ _ (nel x hx)] at h1
          · have h3 := new₄ x hx
            rw [heap_read_write_other _ _ (ner x hx)] at h3
            by_contra hlive
            have h1 : heap_read (heap_write h (alloc h) ⟨k, v, none, none⟩) x ≠ none := by
              rw [heap_read_write_other _ _ (ner x hx)]; exact hlive
            rw [fr₂ x h1] at h3
            exact h1 h3

/-- The helper `clear_tree` in memory, with enough fuel: it deletes the
objects of the tree and leaves every other address as it was. -/
theorem clear_tree_mem_spec :
    ∀ (t : node K V) (fuel : Nat) (h : heap K V) (p : Option Nat) (s : Set Nat),
      repr h p t s → height_helper t < fuel →
      ∃ h', clear_tree_mem fuel h p = some h' ∧ (∀ a ∈ s, heap_read h' a = none) ∧
        (∀ a, a ∉ s → heap_read h' a = heap_read h a) := by
  intro t
  induction t with
  | null =>
    intro fuel h p s hr hf
    cases hr
    cases fuel with
    | zero => omega
    | succ f => exact ⟨h, rfl, fun a ha => absurd ha (by simp), fun _ _ => rfl⟩
  | mk k v l r ihl ihr =>
    intro fuel h p s hr hf
    cases fuel with
    | zero => omega
    | succ f =>
      obtain ⟨hfl, hfr⟩ := height_lt_of_mk hf
      cases hr with
      | @mk a _ _ pl pr _ _ sl sr hread hl hr' hal har hdis =>
        obtain ⟨h₁, hc₁, gone₁, fr₁⟩ := ihl f h pl sl hl hfl
        have r1a : heap_read h₁ a = some ⟨k, v, pl, pr⟩ := by rw [fr₁ a hal, hread]
        have hr₁ : repr h₁ pr r sr :=
          repr_frame hr' (fun x hx => fr₁ x (fun hxl => hdis x hxl hx))
        obtain ⟨h₂, hc₂, gone₂, fr₂⟩ := ihr f h₁ pr sr hr₁ hfr
        have r2a : heap_read h₂ a = some ⟨k, v, pl, pr⟩ := by rw [fr₂ a har, r1a]
        refine ⟨heap_free h₂ a, ?_, ?_, ?_⟩
        · simp only [clear_tree_mem, Option.bind_eq_bind, Option.some_bind, hread, hc₁, r1a,
            hc₂, r2a, Option.pure_def]
        · intro x hx
          rw [heap_read_free]
          split_ifs with hxa
          · rfl
          · rcases hx with rfl | hx | hx
            · exact absurd rfl hxa
            · rw [fr₂ x (hdis x hx)]; exact gone₁ x hx
            · exact gone₂ x hx
        · intro x hx
          have hxa : x ≠ a := fun he => hx (Or.inl he)
          have hxl : x ∉ sl := fun hm => hx (Or.inr (Or.inl hm))
          have hxr : x ∉ sr := fun hm => hx (Or.inr (Or.inr hm))
          rw [heap_read_free, if_neg hxa, fr₂ x hxr, fr₁ x hxl]

/-- With enough fuel the read-only methods return in memory what they return
on the represented tree. -/
theorem observe_spec {h : heap K V} {o : bstree_mem} {t : node K V} {s : Set Nat}
    (hr : repr h o.root t s) (fuel : Nat) (hf : count t < fuel) :
    observe fuel h o = (o.tree_size, some (preorder_helper t), some (inorder_helper t),
      some (postorder_helper t), level_order_helper t) := by
  have hh : height_helper t < fuel := lt_of_le_of_lt (height_helper_le_count t) hf
  simp only [observe, preorder_mem_spec hr fuel hh, inorder_mem_spec hr fuel hh,
    postorder_mem_spec hr fuel hh, level_order_mem_spec hr fuel hf]

end memory_lemmas

section memory_order

variable {K V : Type} [LinearOrder K]

/-- The helper `insert_helper` in memory, with enough fuel and an allocator
that hands out free addresses: it returns what `insert_helper` returns on the
represented tree and leaves the new tree represented; it writes only to
objects of the tree and to one that was free. -/
theorem insert_helper_mem_spec (alloc : heap K V → Nat)
    (hfresh : ∀ h, heap_read h (alloc h) = none) :
    ∀ (t : node K V) (fuel : Nat) (h : heap K V) (p : Option Nat) (s : Set Nat)
      (ts : Nat) (key : K) (value : V),
      repr h p t s → height_helper t < fuel →
      ∃ h' p' s', insert_helper_mem alloc fuel h p ts key value
          = some ((insert_helper t ts key value).1, h', p',
            (insert_helper t ts key value).2.2) ∧
        repr h' p' (insert_helper t ts key value).2.1 s' ∧
        (∀ a, a ∉ s → heap_read h a ≠ none → heap_read h' a = heap_read h a) ∧
        (∀ a ∈ s', a ∈ s ∨ heap_read h a = none) := by
  intro t
  induction t with
  | null =>
    intro fuel h p s ts key value hr hf
    cases hr
    cases fuel with
    | zero => omega
    | succ f =>
      refine ⟨heap_write h (alloc h) ⟨key, value, none, none⟩, some (alloc h),
        insert (alloc h) (∅ ∪ ∅), rfl, ?_, ?_, ?_⟩
      · exact repr.mk (heap_read_write_same _ _ _) repr.null repr.null (by simp) (by simp)
          (by simp)
      · intro x _ hx
        refine heap_read_write_other _ _ ?_
        intro he
        rw [he] at hx
        exact hx (hfresh h)
      · intro x hx
        right
        have : x = alloc h := by simpa using hx
        rw [this]
        exact hfresh h
  | mk k v l r ihl ihr =>
    intro fuel h p s ts key value hr hf
    cases fuel with
    | zero => omega
    | succ f =>
      obtain ⟨hfl, hfr⟩ := height_lt_of_mk hf
      cases hr with
      | @mk a _ _ pl pr _ _ sl sr hread hl hr' hal har hdis =>
        have alive : heap_read h a ≠ none := by rw [hread]; simp
        by_cases h₁ : key < k
        · obtain ⟨h', pl', sl', hc, hrep, fr, new⟩ := ihl f h pl sl ts key value hl hfl
          have r1a : heap_read h' a = some ⟨k, v, pl, pr⟩ := by rw [fr a hal alive, hread]
          have hal' : a ∉ sl' := by
            intro hm
            rcases new a hm with hm' | hm'
            · exact hal hm'
            · exact alive hm'
          refine ⟨heap_write h' a ⟨k, v, pl', pr⟩, some a, insert a (sl' ∪ sr), ?_, ?_, ?_, ?_⟩
          · simp only [insert_helper_mem, Option.bind_eq_bind, Option.some_bind, hread,
              if_pos h₁, hc, r1a, Option.pure_def, insert_helper]
          · simp only [insert_helper, if_pos h₁]
            refine repr.mk (heap_read_write_same _ _ _) ?_ ?_ hal' har ?_
            · exact repr_frame hrep (fun x hx =>
                heap_read_write_other _ _ (fun he => hal' (he ▸ hx)))
            · refine repr_frame hr' (fun x hx => ?_)
              have hxa : x ≠ a := fun he => har (he ▸ hx)
              rw [heap_read_write_other _ _ hxa,
                fr x (fun hxl => hdis x hxl hx) (repr_live hr' x hx)]
            · intro x hxl hxr
              rcases new x hxl with hm | hm
              · exact hdis x hm hxr
              · exact repr_live hr' x hxr hm
          · intro x hx hlive
            have hxa : x ≠ a := fun he => hx (Or.inl he)
            rw [heap_read_write_other _ _ hxa, fr x (fun hm => hx (Or.inr (Or.inl hm))) hlive]
          · intro x hx
            rcases hx with rfl | hx | hx
            · exact Or.inl (Or.inl rfl)
            · rcases new x hx with hm | hm
              · exact Or.inl (Or.inr (Or.inl hm))
              · exact Or.inr hm
            · exact Or.inl (Or.inr (Or.inr hx))
        by_cases h₂ : key > k
        · obtain ⟨h', pr', sr', hc, hrep, fr, new⟩ := ihr f h pr sr ts key value hr' hfr
          have r1a : heap_read h' a = some ⟨k, v, pl, pr⟩ := by rw [fr a har alive, hread]
          have har' : a ∉ sr' := by
            intro hm
            rcases new a hm with hm' | hm'
            · exact har hm'
            · exact alive hm'
          refine ⟨heap_write h' a ⟨k, v, pl, pr'⟩, some a, insert a (sl ∪ sr'), ?_, ?_, ?_, ?_⟩
          · simp only [insert_helper_mem, Option.bind_eq_bind, Option.some_bind, hread,
              if_neg h₁, if_pos h₂, hc, r1a, Option.pure_def, insert_helper]
          · simp only [insert_helper, if_neg h₁, if_pos h₂]
            refine repr.mk (heap_read_write_same _ _ _) ?_ ?_ hal har' ?_
            · refine repr_frame hl (fun x hx => ?_)
              have hxa : x ≠ a := fun he => hal (he ▸ hx)
              rw [heap_read_write_other _ _ hxa,
                fr x (hdis x hx) (repr_live hl x hx)]
            · exact repr_frame hrep (fun x hx =>
                heap_read_write_other _ _ (fun he => har' (he ▸ hx)))
            · intro x hxl hxr
              rcases new x hxr with hm | hm
              · exact hdis x hxl hm
              · exact repr_live hl x hxl hm
          · intro x hx hlive
            have hxa : x ≠ a := fun he => hx (Or.inl he)
            rw [heap_read_write_other _ _ hxa, fr x (fun hm => hx (Or.inr (Or.inr hm))) hlive]
          · intro x hx
            rcases hx with rfl | hx | hx
            · exact Or.inl (Or.inl rfl)
            · exact Or.inl (Or.inr (Or.inl hx))
            · rcases new x hx with hm | hm
              · exact Or.inl (Or.inr (Or.inr hm))
              · exact Or.inr hm
        · refine ⟨h, some a, insert a (sl ∪ sr), ?_, ?_, fun _ _ _ => rfl, fun x hx => Or.inl hx⟩
          · simp only [insert_helper_mem, Option.bind_eq_bind, Option.some_bind, hread,
              if_neg h₁, if_neg h₂, Option.pure_def, insert_helper]
          · simp only [insert_helper, if_neg h₁, if_neg h₂]
            exact repr.mk hread hl hr' hal har hdis

/-- The helper `remove_helper` in memory, with enough fuel: it returns what
`remove_helper` returns on the represented tree and leaves the new tree
represented in objects of the old one; it writes to and deletes only objects
of the tree. -/
theorem remove_helper_mem_spec :
    ∀ (t : node K V) (fuel : Nat) (h : heap K V) (p : Option Nat) (s : Set Nat)
      (ts : Nat) (key : K),
      repr h p t s → height_helper t < fuel →
      ∃ b t' ts' h' p' s', remove_helper t ts key = some (b, t', ts') ∧
        remove_helper_mem fuel h p ts key = some (b, h', p', ts') ∧
        repr h' p' t' s' ∧ (∀ a ∈ s', a ∈ s) ∧
        (∀ a, a ∉ s → heap_read h' a = heap_read h a) := by
  intro t
  induction t with
  | null =>
    intro fuel h p s ts key hr hf
    cases hr
    cases fuel with
    | zero => omega
    | succ f =>
      exact ⟨false, node.null, ts, h, none, ∅, by simp [remove_helper], rfl, repr.null,
        fun a ha => ha, fun _ _ => rfl⟩
  | mk k v l r ihl ihr =>
    intro fuel h p s ts key hr hf
    cases fuel with
    | zero => omega
    | succ f =>
      obtain ⟨hfl, hfr⟩ := height_lt_of_mk hf
      cases hr with
      | @mk a _ _ pl pr _ _ sl sr hread hl hr' hal har hdis =>
        by_cases h₁ : key < k
        · obtain ⟨b, l', ts', h', pl', sl', hv, hc, hrep, sub, fr⟩ :=
            ihl f h pl sl ts key hl hfl
          have r1a : heap_read h' a = some ⟨k, v, pl, pr⟩ := by rw [fr a hal, hread]
          have hal' : a ∉ sl' := fun hm => hal (sub a hm)
          refine ⟨b, node.mk k v l' r, ts', heap_write h' a ⟨k, v, pl', pr⟩, some a,
            insert a (sl' ∪ sr), ?_, ?_, ?_, ?_, ?_⟩
          · rw [remove_helper_left k v l r ts h₁, hv]; rfl
          · simp only [remove_helper_mem, Option.bind_eq_bind, Option.some_bind, hread,
              if_pos h₁, hc, r1a, Option.pure_def]
          · refine repr.mk (heap_read_write_same _ _ _) ?_ ?_ hal' har ?_
            · refine repr_frame hrep (fun x hx => ?_)
              have hxa : x ≠ a := fun he => hal' (he ▸ hx)
              exact heap_read_write_other _ _ hxa
            · refine repr_frame hr' (fun x hx => ?_)
              have hxa : x ≠ a := fun he => har (he ▸ hx)
              rw [heap_read_write_other _ _ hxa, fr x (fun hxl => hdis x hxl hx)]
            · exact fun x hxl hxr => hdis x (sub x hxl) hxr
          · intro x hx
            rcases hx with rfl | hx | hx
            · exact Or.inl rfl
            · exact Or.inr (Or.inl (sub x hx))
            · exact Or.inr (Or.inr hx)
          · intro x hx
            have hxa : x ≠ a := fun he => hx (Or.inl he)
            rw [heap_read_write_other _ _ hxa, fr x (fun hm => hx (Or.inr (Or.inl hm)))]
        by_cases h₂ : key > k
        · obtain ⟨b, r', ts', h', pr', sr', hv, hc, hrep, sub, fr⟩ :=
            ihr f h pr sr ts key hr' hfr
          have r1a : heap_read h' a = some ⟨k, v, pl, pr⟩ := by rw [fr a har, hread]
          have har' : a ∉ sr' := fun hm => har (sub a hm)
          refine ⟨b, node.mk k v l r', ts', heap_write h' a ⟨k, v, pl, pr'⟩, some a,
            insert a (sl ∪ sr'), ?_, ?_, ?_, ?_, ?_⟩
          · rw [remove_helper_right k v l r ts h₂, hv]; rfl
          · simp only [remove_helper_mem, Option.bind_eq_bind, Option.some_bind, hread,
              if_neg h₁, if_pos h₂, hc, r1a, Option.pure_def]
          · refine repr.mk (heap_read_write_same _ _ _) ?_ ?_ hal har' ?_
            · refine repr_frame hl (fun x hx => ?_)
              have hxa : x ≠ a := fun he => hal (he ▸ hx)
              rw [heap_read_write_other _ _ hxa, fr x (hdis x hx)]
            · refine repr_frame hrep (fun x hx => ?_)
              have hxa : x ≠ a := fun he => har' (he ▸ hx)
              exact heap_read_write_other _ _ hxa
            · exact fun x hxl hxr => hdis x hxl (sub x hxr)
          · intro x hx
            rcases hx with rfl | hx | hx
            · exact Or.inl rfl
            · exact Or.inr (Or.inl hx)
            · exact Or.inr (Or.inr (sub x hx))
          · intro x hx
            have hxa : x ≠ a := fun he => hx (Or.inl he)
            rw [heap_read_write_other _ _ hxa, fr x (fun hm => hx (Or.inr (Or.inr hm)))]
        have free_other : ∀ x, x ≠ a → heap_read (heap_free h a) x = heap_read h x := by
          intro x hxa
          rw [heap_read_free, if_neg hxa]
        cases hl with
        | null =>
          refine ⟨true, r, size_decr ts, heap_free h a, pr, sr, ?_, ?_, ?_, ?_, ?_⟩
          · simp [remove_helper, h₁, h₂]
          · simp only [remove_helper_mem, Option.bind_eq_bind, Option.some_bind, hread,
              if_neg h₁, if_neg h₂, Option.pure_def]
          · exact repr_frame hr' (fun x hx => free_other x (fun he => har (he ▸ hx)))
          · exact fun x hx => Or.inr (Or.inr hx)
          · exact fun x hx => free_other x (fun he => hx (Or.inl he))
        | @mk al kl vl pll plr ll lr sll slr hreadl hll hlr hall halr hdisl =>
          have hl := repr.mk hreadl hll hlr hall halr hdisl
          cases hr' with
          | null =>
            refine ⟨true, node.mk kl vl ll lr, size_decr ts, heap_free h a, some al,
              insert al (sll ∪ slr), ?_, ?_, ?_, ?_, ?_⟩
            · simp [remove_helper, h₁, h₂]
            · simp only [remove_helper_mem, Option.bind_eq_bind, Option.some_bind, hread,
                if_neg h₁, if_neg h₂, Option.pure_def]
            · exact repr_frame hl (fun x hx => free_other x (fun he => hal (he ▸ hx)))
            · exact fun x hx => Or.inr (Or.inl hx)
            · exact fun x hx => free_other x (fun he => hx (Or.inl he))
          | @mk ar kr vr prl prr rl rr srl srr hreadr hrl hrr harl harr hdisr =>
            have hr' := repr.mk hreadr hrl hrr harl harr hdisr
            obtain ⟨am, c, ml, mr, hfm, -, hrm, hmin⟩ :=
              (find_min_mem_spec hr' f hfr).2 (by simp)
            have hr₁ : repr (heap_write h a ⟨c.key, c.value, some al, some ar⟩) (some ar)
                (node.mk kr vr rl rr) (insert ar (srl ∪ srr)) := by
              refine repr_frame hr' (fun x hx => ?_)
              have hxa : x ≠ a := fun he => har (he ▸ hx)
              exact heap_read_write_other _ _ hxa
            obtain ⟨b, r', ts', h₂', pr', sr', hv, hc, hrep, sub, fr⟩ :=
              ihr f _ (some ar) _ ts c.key hr₁ hfr
            have r2a : heap_read h₂' a = some ⟨c.key, c.value, some al, some ar⟩ := by
              rw [fr a har, heap_read_write_same]
            have har' : a ∉ sr' := fun hm => har (sub a hm)
            refine ⟨b, node.mk c.key c.value (node.mk kl vl ll lr) r', ts',
              heap_write h₂' a ⟨c.key, c.value, some al, pr'⟩, some a,
              insert a (insert al (sll ∪ slr) ∪ sr'), ?_, ?_, ?_, ?_, ?_⟩
            · rw [remove_helper, if_neg h₁, if_neg h₂, hmin]
              dsimp only
              rw [hv]
            · simp only [remove_helper_mem, Option.bind_eq_bind, Option.some_bind, hread,
                if_neg h₁, if_neg h₂, hfm, hrm, heap_read_write_same, hc, r2a,
                Option.pure_def]
            · refine repr.mk (heap_read_write_same _ _ _) ?_ ?_ hal har' ?_
              · refine repr_frame hl (fun x hx => ?_)
                have hxa : x ≠ a := fun he => hal (he ▸ hx)
                rw [heap_read_write_other _ _ hxa, fr x (hdis x hx),
                  heap_read_write_other _ _ hxa]
              · refine repr_frame hrep (fun x hx => ?_)
                have hxa : x ≠ a := fun he => har' (he ▸ hx)
                exact heap_read_write_other _ _ hxa
              · exact fun x hxl hxr => hdis x hxl (sub x hxr)
            · intro x hx
              rcases hx with rfl | hx | hx
              · exact Or.inl rfl
              · exact Or.inr (Or.inl hx)
              · exact Or.inr (Or.inr (sub x hx))
            · intro x hx
              have hxa : x ≠ a := fun he => hx (Or.inl he)
              rw [heap_read_write_other _ _ hxa, fr x (fun hm => hx (Or.inr (Or.inr hm))),
                heap_read_write_other _ _ hxa]

/-- The pointer returned by `find_node_mem` depends only on the objects of the
tree. -/
theorem find_node_mem_frame {h h' : heap K V} {p : Option Nat} {t : node K V} {s : Set Nat}
    (hr : repr h p t s) (hsame : ∀ a ∈ s, heap_read h' a = heap_read h a) (key : K) :
    ∀ fuel, find_node_mem fuel h' p key = find_node_mem fuel h p key := by
  induction hr with
  | null =>
    intro fuel
    cases fuel <;> rfl
  | @mk a k v pl pr l r sl sr hread _ _ _ _ _ ihl ihr =>
    intro fuel
    cases fuel with
    | zero => rfl
    | succ f =>
      simp only [find_node_mem, hsame a (Or.inl rfl), hread, Option.bind_eq_bind,
        Option.some_bind, ihl (fun x hx => hsame x (Or.inr (Or.inl hx))) f,
        ihr (fun x hx => hsame x (Or.inr (Or.inr hx))) f]

/-- With enough fuel `find_node_mem` returns `nullptr` when `find_node` does,
and else the address of an object of the tree holding the key and value of the
node `find_node` returns. -/
theorem find_node_mem_spec {h : heap K V} {p : Option Nat} {t : node K V} {s : Set Nat}
    (hr : repr h p t s) (key : K) :
    ∀ fuel, height_helper t < fuel →
      ∃ q, find_node_mem fuel h p key = some q ∧
        (find_node t key = node.null → q = none) ∧
        (∀ k v l r, find_node t key = node.mk k v l r →
          ∃ a pl pr, q = some a ∧ a ∈ s ∧ heap_read h a = some ⟨k, v, pl, pr⟩) := by
  induction hr with
  | null =>
    intro fuel hf
    cases fuel with
    | zero => omega
    | succ f => exact ⟨none, rfl, fun _ => rfl, fun k v l r hfn => by simp [find_node] at hfn⟩
  | @mk a k v pl pr l r sl sr hread _ _ _ _ _ ihl ihr =>
    intro fuel hf
    cases fuel with
    | zero => omega
    | succ f =>
      obtain ⟨hfl, hfr⟩ := height_lt_of_mk hf
      by_cases h₁ : key < k
      · obtain ⟨q, hq, hnull, hlive⟩ := ihl f hfl
        refine ⟨q, ?_, ?_, ?_⟩
        · simp only [find_node_mem, hread, Option.bind_eq_bind, Option.some_bind, if_pos h₁, hq]
        · simpa only [find_node, if_pos h₁] using hnull
        · intro k' v' l' r' hfn
          simp only [find_node, if_pos h₁] at hfn
          obtain ⟨b, pl', pr', hb, hbs, hrb⟩ := hlive k' v' l' r' hfn
          exact ⟨b, pl', pr', hb, Or.inr (Or.inl hbs), hrb⟩
      by_cases h₂ : key > k
      · obtain ⟨q, hq, hnull, hlive⟩ := ihr f hfr
        refine ⟨q, ?_, ?_, ?_⟩
        · simp only [find_node_mem, hread, Option.bind_eq_bind, Option.some_bind, if_neg h₁,
            if_pos h₂, hq]
        · simpa only [find_node, if_neg h₁, if_pos h₂] using hnull
        · intro k' v' l' r' hfn
          simp only [find_node, if_neg h₁, if_pos h₂] at hfn
          obtain ⟨b, pl', pr', hb, hbs, hrb⟩ := hlive k' v' l' r' hfn
          exact ⟨b, pl', pr', hb, Or.inr (Or.inr hbs), hrb⟩
      · refine ⟨some a, ?_, ?_, ?_⟩
        · simp only [find_node_mem, hread, Option.bind_eq_bind, Option.some_bind, if_neg h₁,
            if_neg h₂, Option.pure_def]
        · intro hfn
          simp [find_node, h₁, h₂] at hfn
        · intro k' v' l' r' hfn
          simp only [find_node, if_neg h₁, if_neg h₂, node.mk.injEq] at hfn
          obtain ⟨rfl, rfl, -, -⟩ := hfn
          exact ⟨a, pl, pr, rfl, Or.inl rfl, hread⟩

/-- A sequence of `insert` and `remove` calls on an object in memory, with
enough fuel and an allocator that hands out free addresses: it runs to
completion, ends with the tree the calls produce on the represented tree, and
writes only to objects of the tree and to objects that were free. -/
theorem run_ops_mem_spec (alloc : heap K V → Nat)
    (hfresh : ∀ h, heap_read h (alloc h) = none) (fuel : Nat) :
    ∀ (ops : List (op K V)) (h : heap K V) (o : bstree_mem) (t : node K V) (s : Set Nat),
      repr h o.root t s → height_helper t + ops.length < fuel →
      ∃ h' o' t' s', run_ops_mem alloc fuel h o ops = some (h', o') ∧
        run_ops (bstree.mk t o.tree_size) ops = some (bstree.mk t' o'.tree_size) ∧
        repr h' o'.root t' s' ∧
        (∀ a, a ∉ s → heap_read h a ≠ none → heap_read h' a = heap_read h a) ∧
        (∀ a ∈ s', a ∈ s ∨ heap_read h a = none) := by
  intro ops
  induction ops with
  | nil =>
    intro h o t s hr _
    exact ⟨h, o, t, s, rfl, rfl, hr, fun _ _ _ => rfl, fun a ha => Or.inl ha⟩
  | cons c ops ih =>
    intro h o t s hr hf
    simp only [List.length_cons] at hf
    cases c with
    | insert key value =>
      obtain ⟨h₁, p₁, s₁, hc, hrep, fr, new⟩ :=
        insert_helper_mem_spec alloc hfresh t fuel h o.root s o.tree_size key value hr
          (by omega)
      have hh : height_helper (insert_helper t o.tree_size key value).2.1 + ops.length
          < fuel := by
        rcases insert_helper_height t o.tree_size key value with he | he <;> rw [he] <;> omega
      obtain ⟨h', o', t', s', hrun, hval, hrep', fr', new'⟩ :=
        ih h₁ ⟨p₁, (insert_helper t o.tree_size key value).2.2⟩ _ s₁ hrep hh
      refine ⟨h', o', t', s', ?_, ?_, hrep', ?_, ?_⟩
      · simp only [run_ops_mem, apply_op_mem, bstree_mem.insert, hc, Option.bind_eq_bind,
          Option.some_bind, Option.pure_def]
        exact hrun
      · simp only [run_ops, apply_op, insert_eq]
        exact hval
      · intro a has hlive
        have h1 := fr a has hlive
        have has₁ : a ∉ s₁ := by
          intro hm
          rcases new a hm with hm' | hm'
          · exact has hm'
          · exact hlive hm'
        rw [fr' a has₁ (by rw [h1]; exact hlive), h1]
      · intro a ha
        rcases new' a ha with hm | hm
        · exact new a hm
        · by_contra hcon
          rw [not_or] at hcon
          have h1 := fr a hcon.1 hcon.2
          rw [hm] at h1
          exact hcon.2 h1.symm
    | remove key =>
      obtain ⟨b, t₁, ts₁, h₁, p₁, s₁, hv, hc, hrep, sub, fr⟩ :=
        remove_helper_mem_spec t fuel h o.root s o.tree_size key hr (by omega)
      have hh : height_helper t₁ + ops.length < fuel := by
        have := remove_helper_height t o.tree_size key b t₁ ts₁ hv
        omega
      obtain ⟨h', o', t', s', hrun, hval, hrep', fr', new'⟩ :=
        ih h₁ ⟨p₁, ts₁⟩ t₁ s₁ hrep hh
      refine ⟨h', o', t', s', ?_, ?_, hrep', ?_, ?_⟩
      · simp only [run_ops_mem, apply_op_mem, bstree_mem.remove, hc, Option.bind_eq_bind,
          Option.some_bind, Option.pure_def]
        exact hrun
      · simp only [run_ops, apply_op, bstree.remove, hv]
        exact hval
      · intro a has hlive
        have h1 := fr a has
        rw [fr' a (fun hm => has (sub a hm)) (by rw [h1]; exact hlive), h1]
      · intro a ha
        rcases new' a ha with hm | hm
        · exact Or.inl (sub a hm)
        · by_cases has : a ∈ s
          · exact Or.inl has
          · right
            rw [← fr a has]; exact hm

/-- Calls on one object leave a tree held in other node objects as it was. -/
theorem run_ops_mem_frame (alloc : heap K V → Nat)
    (hfresh : ∀ h, heap_read h (alloc h) = none) (fuel : Nat) (ops : List (op K V))
    {h : heap K V} {x : bstree_mem} {y : bstree_mem} {tx ty : node K V} {sx sy : Set Nat}
    (hx : repr h x.root tx sx) (hy : repr h y.root ty sy) (hdis : ∀ a ∈ sx, a ∉ sy)
    (hf : height_helper ty + ops.length < fuel) :
    ∃ h' y', run_ops_mem alloc fuel h y ops = some (h', y') ∧
      (∀ a ∈ sx, heap_read h' a = heap_read h a) ∧ repr h' x.root tx sx := by
  obtain ⟨h', y', t', s', hrun, -, -, fr, -⟩ :=
    run_ops_mem_spec alloc hfresh fuel ops h y ty sy hy hf
  have hsame : ∀ a ∈ sx, heap_read h' a = heap_read h a :=
    fun a ha => fr a (hdis a ha) (repr_live hx a ha)
  exact ⟨h', y', hrun, hsame, repr_frame hx hsame⟩

/-- Two objects holding trees in disjoint sets of node objects are
independent, and with enough fuel their read-only methods return what they
return on the represented trees. -/
theorem independent_of_disjoint (alloc : heap K V → Nat)
    (hfresh : ∀ h, heap_read h (alloc h) = none) (fuel : Nat) {h : heap K V}
    {a b : bstree_mem} {ta tb : node K V} {sa sb : Set Nat} (ops_a ops_b : List (op K V))
    (ha : repr h a.root ta sa) (hb : repr h b.root tb sb) (hdis : ∀ x ∈ sa, x ∉ sb)
    (hfa : count ta + ops_a.length < fuel) (hfb : count tb + ops_b.length < fuel) :
    independent alloc fuel h a b ops_a ops_b := by
  have hha := height_helper_le_count ta
  have hhb := height_helper_le_count tb
  unfold independent
  constructor
  · obtain ⟨h', b', hrun, hsame, ha'⟩ :=
      run_ops_mem_frame alloc hfresh fuel ops_b ha hb hdis (by omega)
    refine ⟨h', b', hrun, ?_, fun key => find_node_mem_frame ha hsame key fuel⟩
    rw [observe_spec ha' fuel (by omega), observe_spec ha fuel (by omega)]
  · obtain ⟨h', a', hrun, hsame, hb'⟩ :=
      run_ops_mem_frame alloc hfresh fuel ops_a hb ha (fun x hx hxa => hdis x hxa hx)
        (by omega)
    refine ⟨h', a', hrun, ?_, fun key => find_node_mem_frame hb hsame key fuel⟩
    rw [observe_spec hb' fuel (by omega), observe_spec hb fuel (by omega)]

/-- C12: copy independence. Let the object `A` hold a tree in the free store,
let `B` be copy-constructed from `A`, or be an object with nodes of its own
that is assigned `A`, the allocator handing out free addresses and the fuel
being enough. Then `B` holds the tree of `A` in node objects none of which is a
node of `A`; the read-only methods of both return what they return on that
tree; and every sequence of `insert` and `remove` calls on `B` leaves
`size()`, the four traversal sequences and every `find` result of `A` as they
were, and every such sequence on `A` leaves those of `B`. -/
theorem copy_independence (alloc : heap K V → Nat)
    (hfresh : ∀ h, heap_read h (alloc h) = none) (fuel : Nat) (h₀ : heap K V)
    (A B₀ : bstree_mem) (tA tB : node K V) (sA sB : Set Nat) (ops_a ops_b : List (op K V))
    (hA : repr h₀ A.root tA sA) (hB : repr h₀ B₀.root tB sB) (hdis : ∀ x ∈ sA, x ∉ sB)
    (hfuel : count tA + count tB + ops_a.length + ops_b.length < fuel) :
    (∃ h₁ B, bstree_mem.copy alloc fuel h₀ A = some (h₁, B) ∧
      (∃ s, repr h₁ A.root tA sA ∧ repr h₁ B.root tA s ∧ ∀ x ∈ sA, x ∉ s) ∧
      observe fuel h₁ A = (A.tree_size, some (preorder_helper tA), some (inorder_helper tA),
        some (postorder_helper tA), level_order_helper tA) ∧
      observe fuel h₁ B = observe fuel h₁ A ∧
      independent alloc fuel h₁ A B ops_a ops_b) ∧
    (∃ h₁ B, bstree_mem.assign alloc fuel h₀ B₀ A false = some (h₁, B) ∧
      (∃ s, repr h₁ A.root tA sA ∧ repr h₁ B.root tA s ∧ ∀ x ∈ sA, x ∉ s) ∧
      observe fuel h₁ A = (A.tree_size, some (preorder_helper tA), some (inorder_helper tA),
        some (postorder_helper tA), level_order_helper tA) ∧
      observe fuel h₁ B = observe fuel h₁ A ∧
      independent alloc fuel h₁ A B ops_a ops_b) := by
  have hhA := height_helper_le_count tA
  have hhB := height_helper_le_count tB
  have key : ∀ (h : heap K V), repr h A.root tA sA →
      ∃ h₁ q, copy_tree_mem alloc fuel h A.root = some (h₁, q) ∧
        (∃ s, repr h₁ A.root tA sA ∧ repr h₁ (bstree_mem.mk q A.tree_size).root tA s ∧
          ∀ x ∈ sA, x ∉ s) ∧
        observe fuel h₁ A = (A.tree_size, some (preorder_helper tA),
          some (inorder_helper tA), some (postorder_helper tA), level_order_helper tA) ∧
        observe fuel h₁ (bstree_mem.mk q A.tree_size) = observe fuel h₁ A ∧
        independent alloc fuel h₁ A (bstree_mem.mk q A.tree_size) ops_a ops_b := by
    intro h hr
    obtain ⟨h₁, q, s, hc, hq, fr, new⟩ :=
      copy_tree_mem_spec alloc hfresh tA fuel h A.root sA hr (by omega)
    have hA₁ : repr h₁ A.root tA sA := repr_frame hr (fun x hx => fr x (repr_live hr x hx))
    have hd : ∀ x ∈ sA, x ∉ s := fun x hx hxs => repr_live hr x hx (new x hxs)
    have hq' : repr h₁ (bstree_mem.mk q A.tree_size).root tA s := hq
    refine ⟨h₁, q, hc, ⟨s, hA₁, hq', hd⟩, observe_spec hA₁ fuel (by omega), ?_,
      independent_of_disjoint alloc hfresh fuel ops_a ops_b hA₁ hq' hd (by omega) (by omega)⟩
    rw [observe_spec hA₁ fuel (by omega), observe_spec hq' fuel (by omega)]
  constructor
  · obtain ⟨h₁, q, hc, hrest⟩ := key h₀ hA
    refine ⟨h₁, ⟨q, A.tree_size⟩, ?_, hrest⟩
    simp only [bstree_mem.copy, hc, Option.bind_eq_bind, Option.some_bind, Option.pure_def]
  · obtain ⟨h', hcl, -, fr⟩ := clear_tree_mem_spec tB fuel h₀ B₀.root sB hB (by omega)
    have hA' : repr h' A.root tA sA := repr_frame hA (fun x hx => fr x (hdis x hx))
    obtain ⟨h₁, q, hc, hrest⟩ := key h' hA'
    refine ⟨h₁, ⟨q, A.tree_size⟩, ?_, hrest⟩
    simp only [bstree_mem.assign, bstree_mem.clear, hcl, hc, Option.bind_eq_bind,
      Option.some_bind, Option.pure_def, Bool.false_eq_true, if_false]

theorem copy_independence_witness :
    (∃ h₁ B, bstree_mem.copy next_address 10
        (heap_write (heap_write (heap_write ([] : heap Nat Nat) 2 ⟨9, 9, none, none⟩)
          1 ⟨3, 1, none, none⟩) 0 ⟨5, 0, some 1, none⟩) ⟨some 0, 2⟩ = some (h₁, B) ∧
      observe 10 h₁ B = (2, some [(5, 0), (3, 1)], some [(3, 1), (5, 0)],
        some [(3, 1), (5, 0)], some [(5, 0), (3, 1)]) ∧
      independent next_address 10 h₁ ⟨some 0, 2⟩ B [op.insert 4 7]
        [op.remove 5, op.insert 6 1]) ∧
    (∃ h₁ B, bstree_mem.assign next_address 10
        (heap_write (heap_write (heap_write ([] : heap Nat Nat) 2 ⟨9, 9, none, none⟩)
          1 ⟨3, 1, none, none⟩) 0 ⟨5, 0, some 1, none⟩) ⟨some 2, 1⟩ ⟨some 0, 2⟩ false
        = some (h₁, B) ∧
      observe 10 h₁ B = (2, some [(5, 0), (3, 1)], some [(3, 1), (5, 0)],
        some [(3, 1), (5, 0)], some [(5, 0), (3, 1)]) ∧
      independent next_address 10 h₁ ⟨some 0, 2⟩ B [op.insert 4 7]
        [op.remove 5, op.insert 6 1]) := by
  obtain ⟨⟨h₁, B, hc, -, hoA, hoB, hi⟩, ⟨h₁', B', hc', -, hoA', hoB', hi'⟩⟩ :=
    copy_independence next_address next_address_fresh 10
      (heap_write (heap_write (heap_write ([] : heap Nat Nat) 2 ⟨9, 9, none, none⟩)
        1 ⟨3, 1, none, none⟩) 0 ⟨5, 0, some 1, none⟩)
      ⟨some 0, 2⟩ ⟨some 2, 1⟩
      (node.mk 5 0 (node.mk 3 1 node.null node.null) node.null)
      (node.mk 9 9 node.null node.null)
      (insert 0 (insert 1 (∅ ∪ ∅) ∪ ∅)) (insert 2 (∅ ∪ ∅))
      [op.insert 4 7] [op.remove 5, op.insert 6 1]
      (repr.mk rfl (repr.mk rfl repr.null repr.null (by simp) (by simp) (by simp))
        repr.null (by simp) (by simp) (by simp))
      (repr.mk rfl repr.null repr.null (by simp) (by simp) (by simp))
      (by simp) (by decide)
  have e : ((bstree_mem.mk (some 0) 2).tree_size,
      some (preorder_helper (node.mk 5 0 (node.mk 3 1 node.null node.null) node.null)),
      some (inorder_helper (node.mk 5 0 (node.mk 3 1 node.null node.null) node.null)),
      some (postorder_helper (node.mk 5 0 (node.mk 3 1 node.null node.null) node.null)),
      level_order_helper (node.mk 5 0 (node.mk 3 1 node.null node.null) node.null))
      = (2, some [(5, 0), (3, 1)], some [(3, 1), (5, 0)], some [(3, 1), (5, 0)],
        some [(5, 0), (3, 1)]) := by
    simp [preorder_helper, inorder_helper, postorder_helper, level_order_helper,
      level_order_loop, push_if]
  exact ⟨⟨h₁, B, hc, hoB.trans (hoA.trans e), hi⟩,
    ⟨h₁', B', hc', hoB'.trans (hoA'.trans e), hi'⟩⟩

end memory_order

end BSTree
